import Mathlib

/-! # RSS Guard updater (`src/updater/formupdater.cpp`)

A shallow embedding of `FormUpdater`: the upgrade sequence `startUpgrade` with its
stages, and the two recursive filesystem helpers `removeDirectory` and
`copyDirectory`.

Modelling conventions.

* The filesystem is a finite tree of named entries (`Node`).  A path is the list of
  its components from the root; path strings use `/` as separator
  (`QDir::separator`, `QDir::toNativeSeparators` on a Unix host).
* Every entry carries the attribute `hidden` that `QDir` filters look at
  (`QDir::Hidden`; `QDir::System` entries are treated alike).  Symbolic links are not
  modelled.
* Whether a primitive operation of the operating system succeeds (`QFile::remove`,
  `QDir::rmdir`, `QFile::rename`, `QDir::mkpath`, `QFile::copy`), whether the running
  instance acknowledges the quit message, what the extractor process does and whether
  the detached start works are inputs: they are the fields of `Env`.  The structural
  reasons for failure (removing a missing file, `rmdir` of a non-empty directory,
  copying onto an existing file, ...) are part of the model itself.
* Every primitive operation that is attempted is recorded, with its outcome, in a
  list of `Effect`s, and every line appended to the text widget in a log.
* The raw path string of the update archive is looked up as the operating system does
  it (`locatePath`, `existsPath`); the directories handed to `QDir` are found at their
  cleaned absolute paths (`resolvePath`).
* `copyDirectory` takes the listings of the source tree as they are at the call.  The
  code reads the same listings when the source and the destination do not lie inside
  one another (`apart`); what is copied and printed is stated for such trees.
-/

namespace FormUpdater

/-! ## Filesystem -/

/-- A path: the components from the root of the filesystem. -/
abbrev Path := List String

/-- An entry of a directory: a regular file with its contents, or a directory with
its entries. -/
inductive Node where
  | file (name : String) (hidden : Bool) (content : String)
  | dir (name : String) (hidden : Bool) (entries : List Node)

/-- The bare name of an entry (`QFileInfo::fileName`). -/
def Node.name : Node → String
  | Node.file n _ _ => n
  | Node.dir n _ _ => n

/-- The test `QFileInfo::isDir`. -/
def Node.isDir : Node → Bool
  | Node.file _ _ _ => false
  | Node.dir _ _ _ => true

/-- The hidden attribute of an entry. -/
def Node.isHidden : Node → Bool
  | Node.file _ h _ => h
  | Node.dir _ h _ => h

/-- The first entry of a listing with the given name. -/
def findEntry (name : String) : List Node → Option Node
  | [] => none
  | e :: es => if e.name = name then some e else findEntry name es

/-- The entry reached from a node by following a relative path. -/
def descend : Node → Path → Option Node
  | e, [] => some e
  | Node.file _ _ _, _ :: _ => none
  | Node.dir _ _ es, n :: rest =>
      match findEntry n es with
      | some c => descend c rest
      | none => none

/-- The entry at an absolute path of the filesystem whose root directory has the
entries `fs`; the empty path is the root directory itself. -/
def nodeAt (fs : List Node) (p : Path) : Option Node :=
  descend (Node.dir "" false fs) p

/-- The test `QFile::exists`: something (a file or a directory) is at the path. -/
def fileExists (fs : List Node) (p : Path) : Bool :=
  (nodeAt fs p).isSome

/-- The test `QDir(p).exists()`: a directory is at the path. -/
def dirExists (fs : List Node) (p : Path) : Bool :=
  match nodeAt fs p with
  | some (Node.dir _ _ _) => true
  | _ => false

/-- Rewrites (or, with `none`, drops) the first entry of a listing with the given
name. -/
def updateEntry (name : String) (f : Node → Option Node) : List Node → List Node
  | [] => []
  | e :: es =>
      if e.name = name then
        match f e with
        | some e2 => e2 :: es
        | none => es
      else e :: updateEntry name f es

/-- Rewrites the entries of a directory; a regular file is left as it is. -/
def rewriteEntries (g : List Node → List Node) : Node → Option Node
  | Node.dir d h sub => some (Node.dir d h (g sub))
  | Node.file d h c => some (Node.file d h c)

/-- Rewrites (or drops) the entry at a path; the root and missing paths are left
alone. -/
def updateAt : Path → (Node → Option Node) → List Node → List Node
  | [], _, es => es
  | [n], f, es => updateEntry n f es
  | n :: m :: rest, f, es => updateEntry n (rewriteEntries (updateAt (m :: rest) f)) es

/-- Names of a listing are pairwise different. -/
def distinctNames : List String → Bool
  | [] => true
  | x :: xs => !xs.contains x && distinctNames xs

mutual
/-- A well-formed entry: in every directory below it, no two entries share a name. -/
def Node.wellFormed : Node → Bool
  | Node.file _ _ _ => true
  | Node.dir _ _ es => distinctNames (es.map Node.name) && wellFormedList es
/-- Every entry of the listing is well formed. -/
def wellFormedList : List Node → Bool
  | [] => true
  | e :: es => e.wellFormed && wellFormedList es
end

/-- A well-formed filesystem: no directory holds two entries of the same name. -/
def wellFormedFS (fs : List Node) : Bool :=
  distinctNames (fs.map Node.name) && wellFormedList fs

mutual
/-- Somewhere in or below the entry there is a file whose name is in the list. -/
def Node.holdsExcepted (names : List String) : Node → Bool
  | Node.file n _ _ => names.contains n
  | Node.dir _ _ es => holdsExceptedList names es
/-- Some entry of the listing holds a file whose name is in the list. -/
def holdsExceptedList (names : List String) : List Node → Bool
  | [] => false
  | e :: es => e.holdsExcepted names || holdsExceptedList names es
end

/-- The path `b` lies strictly below the path `a`. -/
def liesBelow (a b : Path) : Prop :=
  ∃ t : Path, t ≠ [] ∧ b = a ++ t

/-! ## Environment and effects -/

/-- What the extractor process did: its exit code, whether it exited normally, what it
printed, and the filesystem it left behind. -/
structure ExtractorRun where
  exitCode : Int
  normalExit : Bool
  output : String
  fs : List Node

/-- The constants of `definitions/definitions.h` that the updater uses. -/
structure Definitions where
  /-- Value of `APP_LOW_NAME`. -/
  appLowName : String
  /-- Value of `APP_7ZA_EXECUTABLE`. -/
  app7zaExecutable : String
  /-- Value of `APP_QUIT_INSTANCE`. -/
  appQuitInstance : String

/-- The surroundings of one run of the updater. -/
structure Env where
  /-- Result of `QtSingleApplication::arguments()`. -/
  arguments : List String
  /-- Result of `qApp->applicationFilePath()`. -/
  applicationFilePath : String
  /-- Working directory, against which relative paths are resolved. -/
  currentDir : Path
  /-- The constants of `definitions.h`. -/
  defs : Definitions
  /-- Result of `sendMessage(APP_QUIT_INSTANCE)` in attempt `i`: a running instance
  acknowledged the message. -/
  sendMessage : Nat → Bool
  /-- The operating system lets `QFile::remove` delete the existing file. -/
  removeOk : Path → Bool
  /-- The operating system lets `QDir::rmdir` delete the existing empty directory. -/
  rmdirOk : Path → Bool
  /-- The operating system lets `QFile::rename` move the file. -/
  renameOk : Path → Path → Bool
  /-- The operating system lets `QDir::mkpath` create the missing directories. -/
  mkpathOk : Path → Bool
  /-- The operating system lets `QFile::copy` write the new file. -/
  copyOk : Path → Path → Bool
  /-- The run of the extractor with the given arguments on the given filesystem. -/
  extractor : List String → List Node → ExtractorRun
  /-- Result of `QProcess::startDetached` for the given program. -/
  startDetached : String → Bool

/-- A primitive operation the updater attempted, with its outcome. -/
inductive Effect where
  | sendMessage (message : String) (acknowledged : Bool)
  | removeFile (target : Path) (ok : Bool)
  | rmdir (target : Path) (ok : Bool)
  | rename (source target : Path) (ok : Bool)
  | mkpath (target : Path) (ok : Bool)
  | copyFile (source target : Path) (ok : Bool)
  | startExtractor (program : String) (arguments : List String)
  | startDetached (program : String) (ok : Bool)

/-- The path an effect is aimed at (the destination for a rename or a copy; the empty
path for the effects that are not filesystem operations). -/
def Effect.target : Effect → Path
  | Effect.sendMessage _ _ => []
  | Effect.removeFile p _ => p
  | Effect.rmdir p _ => p
  | Effect.rename _ p _ => p
  | Effect.mkpath p _ => p
  | Effect.copyFile _ p _ => p
  | Effect.startExtractor _ _ => []
  | Effect.startDetached _ _ => []

/-- The outcome of an effect (`true` for the start of the extractor, whose outcome is
read from the process afterwards). -/
def Effect.ok : Effect → Bool
  | Effect.sendMessage _ b => b
  | Effect.removeFile _ b => b
  | Effect.rmdir _ b => b
  | Effect.rename _ _ b => b
  | Effect.mkpath _ b => b
  | Effect.copyFile _ _ b => b
  | Effect.startExtractor _ _ => true
  | Effect.startDetached _ b => b

/-- The effect is a deletion (`QFile::remove` or `QDir::rmdir`). -/
def Effect.isDeletion : Effect → Bool
  | Effect.removeFile _ _ => true
  | Effect.rmdir _ _ => true
  | _ => false

/-- The deletion of an entry at a path: `QDir::rmdir` for a directory, `QFile::remove`
for a file. -/
def Node.deletion (x : Node) (p : Path) (ok : Bool) : Effect :=
  if x.isDir then Effect.rmdir p ok else Effect.removeFile p ok

/-! ## `FormUpdater::removeDirectory` -/

/-- The state of the loop of `removeDirectory` over one directory: the conjunction
`result` so far, the entries still in the directory, the operations attempted. -/
structure Removal where
  result : Bool
  left : List Node
  trace : List Effect

/-- The part of the `foreach` of `removeDirectory` that handles the files of the
listing (the listing is sorted with `QDir::DirsFirst`, so they come after all the
directories): a file whose name is not in `exception_file_list` is removed with
`QFile::remove`, and the outcome is and-ed into `result`. -/
def removeFiles (env : Env) (exception_file_list : List String) (directory_name : Path) :
    List Node → Removal
  | [] => { result := true, left := [], trace := [] }
  | Node.dir n h es :: rest =>
      let r := removeFiles env exception_file_list directory_name rest
      { r with left := Node.dir n h es :: r.left }
  | Node.file n h c :: rest =>
      let r := removeFiles env exception_file_list directory_name rest
      if exception_file_list.contains n then
        { r with left := Node.file n h c :: r.left }
      else
        let removed := env.removeOk (directory_name ++ [n])
        { result := removed && r.result,
          left := if removed then r.left else Node.file n h c :: r.left,
          trace := Effect.removeFile (directory_name ++ [n]) removed :: r.trace }

/-- The end of `removeDirectory` for an existing directory, after the directories of
the listing have been handled with the outcome `dirs`: the files of the listing, then
`result &= dir.rmdir(directory_name)`.  `rmdir` succeeds only on an empty directory
that is not the root.  The second component is what is left of the directory: `none`
when it has been removed. -/
def removeFilesAndSelf (env : Env) (exception_file_list : List String)
    (directory_name : Path) (dirs : Removal) : Bool × Option (List Node) × List Effect :=
  let files := removeFiles env exception_file_list directory_name dirs.left
  let removed := files.left.isEmpty && (!directory_name.isEmpty && env.rmdirOk directory_name)
  (dirs.result && files.result && removed,
   if removed then none else some files.left,
   dirs.trace ++ files.trace ++ [Effect.rmdir directory_name removed])

mutual
/-- The recursive call `removeDirectory(info.absoluteFilePath(), exception_file_list)`
for the entry `info` of the directory `parent`, which is a directory: the third
parameter takes its default, the empty list.  The second component is what is left of
the entry. -/
def removeSubdirectory (env : Env) (exception_file_list : List String) (parent : Path) :
    Node → Bool × Option Node × List Effect
  | Node.file n h c => (true, some (Node.file n h c), [])
  | Node.dir n h es =>
      let r := removeFilesAndSelf env exception_file_list (parent ++ [n])
        (removeSubdirectories env exception_file_list [] (parent ++ [n]) es)
      (r.1, r.2.1.map (Node.dir n h), r.2.2)
/-- The part of the `foreach` of `removeDirectory` that handles the directories of the
listing: a directory whose name is not in `exception_folder_list` is removed by the
recursive call, whose result is and-ed into `result`. -/
def removeSubdirectories (env : Env) (exception_file_list exception_folder_list : List String)
    (directory_name : Path) : List Node → Removal
  | [] => { result := true, left := [], trace := [] }
  | e :: rest =>
      let r := removeSubdirectories env exception_file_list exception_folder_list
        directory_name rest
      if !e.isDir || exception_folder_list.contains e.name then
        { r with left := e :: r.left }
      else
        let s := removeSubdirectory env exception_file_list directory_name e
        { result := s.1 && r.result,
          left := match s.2.1 with
            | none => r.left
            | some e2 => e2 :: r.left,
          trace := s.2.2 ++ r.trace }
end

/-- What the directory pass does with one entry of the listing: `none` when the entry
is skipped, the outcome of the recursive call otherwise. -/
def visitSubdirectory (env : Env) (exF exD : List String) (p : Path) (e : Node) :
    Option (Bool × Option Node × List Effect) :=
  if !e.isDir || exD.contains e.name then none
  else some (removeSubdirectory env exF p e)

/-- The body of `removeDirectory` for an existing directory with the listing
`entries`. -/
def removeDirectoryAt (env : Env) (exception_file_list exception_folder_list : List String)
    (directory_name : Path) (entries : List Node) : Bool × Option (List Node) × List Effect :=
  removeFilesAndSelf env exception_file_list directory_name
    (removeSubdirectories env exception_file_list exception_folder_list directory_name entries)

/-- The result of `removeDirectory`: the returned value, the filesystem afterwards and
the operations attempted. -/
structure RemoveResult where
  result : Bool
  fs : List Node
  trace : List Effect

/-- Puts back what is left of the directory at `p`: its remaining entries, or nothing
when it has been removed. -/
def putDirectory (fs : List Node) (p : Path) (left : Option (List Node)) : List Node :=
  match p, left with
  | [], some es => es
  | [], none => fs
  | _ :: _, some es => updateAt p (rewriteEntries (fun _ => es)) fs
  | _ :: _, none => updateAt p (fun _ => none) fs

/-- The function `FormUpdater::removeDirectory(directory_name, exception_file_list,
exception_folder_list)`.  `dir.exists(directory_name)` holds for anything at the path;
for a regular file the listing is empty and `rmdir` fails. -/
def removeDirectory (env : Env) (fs : List Node) (directory_name : Path)
    (exception_file_list : List String) (exception_folder_list : List String) : RemoveResult :=
  match nodeAt fs directory_name with
  | none => { result := true, fs := fs, trace := [] }
  | some (Node.file _ _ _) =>
      { result := false, fs := fs, trace := [Effect.rmdir directory_name false] }
  | some (Node.dir _ _ es) =>
      let r := removeDirectoryAt env exception_file_list exception_folder_list directory_name es
      { result := r.1, fs := putDirectory fs directory_name r.2.1, trace := r.2.2 }

/-! ## `FormUpdater::copyDirectory` -/

/-- What is at the destination path of a copy: nothing, a regular file (also: a path
that runs through a regular file), where no directory can be made, or a directory with
its entries. -/
inductive Dest where
  | absent
  | blocked
  | present (entries : List Node)

/-- What is at the name `n` below a destination. -/
def Dest.child (d : Dest) (n : String) : Dest :=
  match d with
  | Dest.absent => Dest.absent
  | Dest.blocked => Dest.blocked
  | Dest.present es =>
      match findEntry n es with
      | none => Dest.absent
      | some (Node.file _ _ _) => Dest.blocked
      | some (Node.dir _ _ sub) => Dest.present sub

/-- The destination after the directory `n` below it has become `c`.  A directory
that exists below a destination that was absent has been made together with its
parents (`QDir::mkpath` creates all of them). -/
def Dest.setChild (d : Dest) (n : String) (c : Dest) : Dest :=
  match c with
  | Dest.absent => d
  | Dest.blocked => d
  | Dest.present sub =>
      match d with
      | Dest.blocked => Dest.blocked
      | Dest.absent => Dest.present [Node.dir n false sub]
      | Dest.present es =>
          match findEntry n es with
          | none => Dest.present (es ++ [Node.dir n false sub])
          | some _ => Dest.present (updateEntry n (rewriteEntries (fun _ => sub)) es)

/-- The path as a string, components joined with `QDir::separator()`. -/
def pathString (p : Path) : String :=
  "/" ++ "/".intercalate p

/-- The state of a copy: the destination directory, the operations attempted and the
lines printed. -/
structure Copying where
  dest : Dest
  trace : List Effect
  output : List String

/-- The call `QFile::copy(original_file, destination_file)` and the line printed for
it: the copy fails when the directory of the destination file does not exist or
something is already at the destination. -/
def copyOneFile (env : Env) (source destination : Path) (f : String) (content : String)
    (d : Dest) : Copying :=
  match d with
  | Dest.present es =>
      let copied := (findEntry f es).isNone && env.copyOk (source ++ [f]) (destination ++ [f])
      { dest := Dest.present (if copied then es ++ [Node.file f false content] else es),
        trace := [Effect.copyFile (source ++ [f]) (destination ++ [f]) copied],
        output := [if copied then "Copied file " ++ f
                   else "Failed to copy file " ++ pathString (source ++ [f])] }
  | other =>
      { dest := other,
        trace := [Effect.copyFile (source ++ [f]) (destination ++ [f]) false],
        output := ["Failed to copy file " ++ pathString (source ++ [f])] }

/-- The body of the second `foreach` of `copyDirectory` for the file `f`:
`if (!QFile::exists(destination_file) || QFile::remove(destination_file))` the file is
copied, otherwise the failed removal is reported.  `QFile::remove` fails on a
directory. -/
def copyFileEntry (env : Env) (source destination : Path) (f : String) (content : String)
    (d : Dest) : Copying :=
  match d with
  | Dest.present es =>
      match findEntry f es with
      | none => copyOneFile env source destination f content d
      | some (Node.file _ _ _) =>
          let removed := env.removeOk (destination ++ [f])
          if removed then
            let c := copyOneFile env source destination f content
              (Dest.present (updateEntry f (fun _ => none) es))
            { c with trace := Effect.removeFile (destination ++ [f]) true :: c.trace }
          else
            { dest := d,
              trace := [Effect.removeFile (destination ++ [f]) false],
              output := ["Failed to remove file " ++ pathString (source ++ [f])] }
      | some (Node.dir _ _ _) =>
          { dest := d,
            trace := [Effect.removeFile (destination ++ [f]) false],
            output := ["Failed to remove file " ++ pathString (source ++ [f])] }
  | other => copyOneFile env source destination f content other

/-- The second `foreach` of `copyDirectory`, over `dir.entryList(QDir::Files)`: the
files of the source directory that are not hidden. -/
def copyFiles (env : Env) (source destination : Path) : List Node → Dest → Copying
  | [], d => { dest := d, trace := [], output := [] }
  | Node.dir _ _ _ :: rest, d => copyFiles env source destination rest d
  | Node.file f h content :: rest, d =>
      if h then copyFiles env source destination rest d
      else
        let c := copyFileEntry env source destination f content d
        let r := copyFiles env source destination rest c.dest
        { dest := r.dest, trace := c.trace ++ r.trace, output := c.output ++ r.output }

/-- The call `dir.mkpath(dst_path)` for the directory `d` below the destination: the
state of `dst_path` afterwards and the outcome.  An existing directory is a success, a
regular file in the way a failure. -/
def mkpathChild (env : Env) (destination : Path) (d : String) (dst : Dest) : Dest × Bool :=
  match dst.child d with
  | Dest.present sub => (Dest.present sub, true)
  | Dest.blocked => (Dest.blocked, false)
  | Dest.absent =>
      if env.mkpathOk (destination ++ [d]) then (Dest.present [], true)
      else (Dest.absent, false)

mutual
/-- The recursive call `copyDirectory(source + QDir::separator() + d, dst_path)` for
the entry `d` of the source directory, which is a directory; `dst` is what is at
`dst_path`. -/
def copySubdirectory (env : Env) (source destination : Path) : Node → Dest → Copying
  | Node.file _ _ _, dst => { dest := dst, trace := [], output := [] }
  | Node.dir d _ es, dst =>
      let dirs := copySubdirectories env (source ++ [d]) (destination ++ [d]) es dst
      let files := copyFiles env (source ++ [d]) (destination ++ [d]) es dirs.dest
      { dest := files.dest, trace := dirs.trace ++ files.trace,
        output := dirs.output ++ files.output }
/-- The first `foreach` of `copyDirectory`, over
`dir.entryList(QDir::Dirs | QDir::NoDotAndDotDot)`: the directories of the source
directory that are not hidden.  The results of `mkpath` and of the recursive call are
not looked at. -/
def copySubdirectories (env : Env) (source destination : Path) : List Node → Dest → Copying
  | [], dst => { dest := dst, trace := [], output := [] }
  | e :: rest, dst =>
      if e.isDir && !e.isHidden then
        let made := mkpathChild env destination e.name dst
        let c := copySubdirectory env source destination e made.1
        let r := copySubdirectories env source destination rest (dst.setChild e.name c.dest)
        { dest := r.dest,
          trace := Effect.mkpath (destination ++ [e.name]) made.2 :: c.trace ++ r.trace,
          output := c.output ++ r.output }
      else copySubdirectories env source destination rest dst
end

/-- The body of `copyDirectory` for an existing source directory with the listing
`entries`; `dst` is what is at `destination`. -/
def copyDirectoryAt (env : Env) (source destination : Path) (entries : List Node)
    (dst : Dest) : Copying :=
  let dirs := copySubdirectories env source destination entries dst
  let files := copyFiles env source destination entries dirs.dest
  { dest := files.dest, trace := dirs.trace ++ files.trace,
    output := dirs.output ++ files.output }

/-- What is at an absolute path, as the destination of a copy. -/
def destAt : List Node → Path → Dest
  | es, [] => Dest.present es
  | es, n :: rest =>
      match findEntry n es with
      | none => Dest.absent
      | some (Node.file _ _ _) => Dest.blocked
      | some (Node.dir _ _ sub) => destAt sub rest

/-- Makes the directory at `p` (with the missing directories above it) have the
entries `new`. -/
def plantDirectory : Path → List Node → List Node → List Node
  | [], new, _ => new
  | n :: rest, new, es =>
      match findEntry n es with
      | none => es ++ [Node.dir n false (plantDirectory rest new [])]
      | some (Node.file _ _ _) => es
      | some (Node.dir _ _ sub) =>
          updateEntry n (fun e => some (Node.dir e.name e.isHidden (plantDirectory rest new sub))) es

/-- The filesystem after a copy that left `d` at the path `p`. -/
def putDest (fs : List Node) (p : Path) (d : Dest) : List Node :=
  match d with
  | Dest.present es => plantDirectory p es fs
  | _ => fs

/-- The result of `copyDirectory`: the returned value, the filesystem afterwards, the
operations attempted and the lines printed. -/
structure CopyResult where
  result : Bool
  fs : List Node
  trace : List Effect
  output : List String

/-- The function `FormUpdater::copyDirectory(source, destination)`.  The listings of
the source tree are taken as they are at the call.  These are the listings the code
reads, also where it reads them after the recursive calls, when the source and the
destination do not lie inside one another (`apart`): nothing below the source is
written then.  What is copied and printed is stated for such trees only. -/
def copyDirectory (env : Env) (fs : List Node) (source destination : Path) : CopyResult :=
  match nodeAt fs source with
  | some (Node.dir _ _ es) =>
      let c := copyDirectoryAt env source destination es (destAt fs destination)
      { result := true, fs := putDest fs destination c.dest, trace := c.trace,
        output := c.output }
  | _ => { result := false, fs := fs, trace := [], output := [] }

/-! ## Looking into a destination -/

/-- The entry with the name `m` in a destination directory. -/
def Dest.find (d : Dest) (m : String) : Option Node :=
  match d with
  | Dest.present ds => findEntry m ds
  | _ => none

/-- The entry at a relative path below a destination directory. -/
def Dest.lookup (d : Dest) (q : Path) : Option Node :=
  match d with
  | Dest.present ds => descend (Node.dir "" false ds) q
  | _ => none

/-- The two paths part at some component: neither is a prefix of the other, so that
neither of the two directories lies inside the other. -/
def apart : Path → Path → Bool
  | x :: p, y :: r => if x = y then apart p r else true
  | _, _ => false

/-- No entry on the relative path below the node is hidden: what is at the path is
listed by `copyDirectory`, whose listings leave hidden entries out. -/
def listedAlong : Node → Path → Bool
  | _, [] => true
  | Node.file _ _ _, _ :: _ => false
  | Node.dir _ _ es, n :: rest =>
      match findEntry n es with
      | some c => !c.isHidden && listedAlong c rest
      | none => false

/-- No entry on the relative path `q` below the directory at `p` is hidden. -/
def listedBelow (fs : List Node) (p q : Path) : Bool :=
  match nodeAt fs p with
  | some e => listedAlong e q
  | none => false

/-! ## The files `copyDirectory` attempts -/

/-- The number of files of a listing that `dir.entryList(QDir::Files)` lists: the
files that are not hidden. -/
def listedFiles (es : List Node) : Nat :=
  (es.filter (fun e => !e.isDir && !e.isHidden)).length

mutual
/-- The number of files `copyDirectory` attempts to copy from the directory: the
files it lists in the directory and in the directories below it that it lists. -/
def Node.copyAttempts : Node → Nat
  | Node.file _ _ _ => 0
  | Node.dir _ _ es => copyAttemptsBelow es + listedFiles es
/-- The number of files `copyDirectory` attempts to copy from the subdirectories of a
listing that are not hidden. -/
def copyAttemptsBelow : List Node → Nat
  | [] => 0
  | e :: es => (if e.isDir && !e.isHidden then e.copyAttempts else 0) + copyAttemptsBelow es
end

/-! ## The mirror image of a directory tree -/

mutual
/-- Nothing in or below the entry is hidden. -/
def Node.visible : Node → Bool
  | Node.file _ h _ => !h
  | Node.dir _ h es => !h && visibleList es
/-- Nothing in or below the entries of the listing is hidden. -/
def visibleList : List Node → Bool
  | [] => true
  | e :: es => e.visible && visibleList es
end

/-- The files of a listing, as new files. -/
def mirrorFiles : List Node → List Node
  | [] => []
  | Node.file n _ c :: es => Node.file n false c :: mirrorFiles es
  | Node.dir _ _ _ :: es => mirrorFiles es

mutual
/-- The entry rebuilt from nothing: a new file with the same contents, or a new
directory that holds the rebuilt subdirectories followed by the files. -/
def Node.mirror : Node → Node
  | Node.file n _ c => Node.file n false c
  | Node.dir n _ es => Node.dir n false (mirrorDirs es ++ mirrorFiles es)
/-- The directories of a listing, rebuilt. -/
def mirrorDirs : List Node → List Node
  | [] => []
  | e :: es => if e.isDir then e.mirror :: mirrorDirs es else mirrorDirs es
end

/-- The contents of a file; `none` for a directory. -/
def Node.contents : Node → Option String
  | Node.file _ _ c => some c
  | Node.dir _ _ _ => none

/-! ## Paths given as strings -/

/-- Splits a string at every `/`. -/
def splitComponents : List Char → List (List Char)
  | [] => [[]]
  | c :: cs =>
      if c = '/' then [] :: splitComponents cs
      else
        match splitComponents cs with
        | [] => [[c]]
        | x :: xs => (c :: x) :: xs

/-- The components of a path followed from the place `cur` without a look at the
filesystem, as `QDir::cleanPath` reads them: `.` stays, `..` goes to the place above
(the root is above itself), a name goes to the place of that name. -/
def cleanComponents : Path → List String → Path
  | cur, [] => cur
  | cur, c :: rest =>
      if c = "." then cleanComponents cur rest
      else if c = ".." then cleanComponents cur.dropLast rest
      else cleanComponents (cur ++ [c]) rest

/-- The cleaned absolute path that a path string stands for (as in
`QFileInfo::absoluteFilePath`, and for the directory of `QDir(s)`): the components are
followed from the root when the string starts with `/` and from the working directory
otherwise (the empty string is the working directory itself).  Empty components are
dropped.  The existence of the update archive is not decided on this path but by the
walk of the operating system, `locatePath`. -/
def resolvePath (currentDir : Path) (s : String) : Path :=
  let components := ((splitComponents s.data).filter (fun x => !x.isEmpty)).map String.mk
  cleanComponents (if s.data.head? = some '/' then [] else currentDir) components

/-- The walk of the operating system along the components of a path string, from the
place `cur`: a component is looked at in a directory only (the walk fails in a regular
file and in a place where nothing is); the empty component and `.` stay in the
directory, `..` goes to the directory above it (the root is above itself), and a name
goes to the place of that name in the directory, whether something is there or not. -/
def walkPath (fs : List Node) : Path → List String → Option Path
  | cur, [] => some cur
  | cur, c :: rest =>
      if dirExists fs cur then
        if c = "" ∨ c = "." then walkPath fs cur rest
        else if c = ".." then walkPath fs cur.dropLast rest
        else walkPath fs (cur ++ [c]) rest
      else none

/-- The place that a path string names for the operating system, when the walk to it
succeeds: the walk starts at the root when the string starts with `/` and at the
working directory otherwise.  The empty string names nothing. -/
def locatePath (fs : List Node) (currentDir : Path) (s : String) : Option Path :=
  if s = "" then none
  else walkPath fs (if s.data.head? = some '/' then [] else currentDir)
    ((splitComponents s.data).map String.mk)

/-- The entry that a path string names for the operating system (`stat`), if there is
one. -/
def statPath (fs : List Node) (currentDir : Path) (s : String) : Option Node :=
  (locatePath fs currentDir s).bind (nodeAt fs)

/-- The test `QFile::exists(s)` on a path string: something (a file or a directory) is
at the place the string names.  `QFile::exists("")` is `false`. -/
def existsPath (fs : List Node) (currentDir : Path) (s : String) : Bool :=
  (statPath fs currentDir s).isSome

/-- The string `QFileInfo(s).absolutePath()`: the absolute path of the directory that
holds the entry `s`. -/
def absolutePath (currentDir : Path) (s : String) : String :=
  pathString (resolvePath currentDir s).dropLast

/-! ## The updater -/

/-- The values of `FormUpdater::UpdaterState`. -/
inductive UpdaterState where
  | NoState
  | ExitNormal
  | ExitError
  deriving DecidableEq

/-- The keys of `m_parsedArguments` and their values (all empty before
`saveArguments`). -/
structure ParsedArguments where
  updater_path : String
  current_version : String
  next_version : String
  rssguard_executable_path : String
  rssguard_path : String
  update_file_path : String
  temp_path : String
  output_temp_path : String

/-- The updater and the world around it: the members `m_state`, `m_txtOutput` (the
lines appended so far) and `m_parsedArguments`, the filesystem, and the primitive
operations attempted so far. -/
structure Updater where
  m_state : UpdaterState
  m_txtOutput : List String
  m_parsedArguments : ParsedArguments
  fs : List Node
  effects : List Effect

/-- The updater as its constructor leaves it, on the given filesystem. -/
def Updater.new (fs : List Node) : Updater :=
  { m_state := UpdaterState.NoState,
    m_txtOutput := [],
    m_parsedArguments := ⟨"", "", "", "", "", "", "", ""⟩,
    fs := fs,
    effects := [] }

/-- The function `FormUpdater::printHeading`. -/
def printHeading (u : Updater) (header : String) : Updater :=
  { u with m_txtOutput := u.m_txtOutput ++ ["****** " ++ header ++ " ******\n"] }

/-- The function `FormUpdater::printText`. -/
def printText (u : Updater) (text : String) : Updater :=
  { u with m_txtOutput := u.m_txtOutput ++ [text] }

/-- The function `FormUpdater::printNewline`. -/
def printNewline (u : Updater) : Updater :=
  { u with m_txtOutput := u.m_txtOutput ++ [""] }

/-- The function `FormUpdater::saveArguments`; `arguments.at(i)` is read with the
empty string as default, the function being called with five arguments only. -/
def saveArguments (env : Env) (u : Updater) : Updater :=
  let arguments := env.arguments
  let rssguard_executable_path := arguments.getD 3 ""
  let update_file_path := arguments.getD 4 ""
  let temp_path := absolutePath env.currentDir update_file_path
  { u with m_parsedArguments :=
      { updater_path := env.applicationFilePath,
        current_version := arguments.getD 1 "",
        next_version := arguments.getD 2 "",
        rssguard_executable_path := rssguard_executable_path,
        rssguard_path := absolutePath env.currentDir rssguard_executable_path,
        update_file_path := update_file_path,
        temp_path := temp_path,
        output_temp_path := temp_path ++ "/" ++ env.defs.appLowName } }

/-- The function `FormUpdater::printArguments`. -/
def printArguments (u : Updater) : Updater :=
  let u := printNewline u
  let u := printHeading u "Arguments"
  let u := printText u ("Updater executable file:\n   -> " ++ u.m_parsedArguments.updater_path)
  let u := printText u ("Application executable file:\n   -> " ++
    u.m_parsedArguments.rssguard_executable_path)
  let u := printText u ("Temp folder:\n   -> " ++ u.m_parsedArguments.temp_path)
  printText u ("Application temp folder:\n   -> " ++ u.m_parsedArguments.output_temp_path)

/-- The value `QFileInfo(s).size()` as far as it is modelled: the size of the regular
file that the path string names, and 0 when it names nothing (the size that the
operating system reports for a directory is not modelled and taken as 0).  The value is
only printed. -/
def fileSize (fs : List Node) (currentDir : Path) (s : String) : Nat :=
  match statPath fs currentDir s with
  | some (Node.file _ _ content) => content.utf8ByteSize
  | _ => 0

/-- The function `FormUpdater::printUpdateInformation`. -/
def printUpdateInformation (env : Env) (u : Updater) : Bool × Updater :=
  let update_file_exists :=
    existsPath u.fs env.currentDir u.m_parsedArguments.update_file_path
  let u := printNewline u
  let u := printHeading u "Update information"
  let u := printText u ("Version change:\n   -> " ++ u.m_parsedArguments.current_version ++
    " --> " ++ u.m_parsedArguments.next_version)
  let u := printText u ("Update file:\n   -> " ++ u.m_parsedArguments.update_file_path)
  let u := printText u ("Update file exists:\n   -> " ++
    (if update_file_exists then "yes" else "no"))
  let u := printText u ("Update file size:\n   -> " ++
    toString (fileSize u.fs env.currentDir u.m_parsedArguments.update_file_path) ++ " bytes")
  let u := if !update_file_exists then
      printText u "\nUpdate file does not exist or is corrupted."
    else u
  (update_file_exists, u)

/-- The loop `for (int i = 1; i <= 4; i++)` of `doPreparationCleanup`, run over the
values of `i` that are left.  The first component is `false` when the loop ends with
`return false`, and `true` when it is left (by `break`, or by its condition) and the
function goes on. -/
def checkRunningInstances (env : Env) : List Nat → Updater → Bool × Updater
  | [], u => (true, u)
  | i :: rest, u =>
      if i = 4 then
        (false, printText u
          "Updater made 3 attempts to exit RSS Guard and it failed. Update cannot continue.")
      else
        let u := printText u
          ("Check for running instances of RSS Guard, attempt " ++ toString i ++ ".")
        let acknowledged := env.sendMessage i
        let u := { u with effects :=
          u.effects ++ [Effect.sendMessage env.defs.appQuitInstance acknowledged] }
        if acknowledged then
          let u := printText u "The main application is running. Quitting it."
          let u := printText u "Waiting for 6000 ms for main application to finish."
          checkRunningInstances env rest u
        else
          (true, printText u "The main application is not running.")

/-- The call `QFile::rename(source, target)` for a regular file and a target in the
directory of the source (the updater renames its executable in place): it fails when
the source is missing or something is at the target. -/
def renameFile (env : Env) (fs : List Node) (source target : Path) : Bool × List Node :=
  match nodeAt fs source, source.getLast?, target.getLast? with
  | some (Node.file _ h content), some _, some name =>
      if !fileExists fs target && target.dropLast = source.dropLast
          && env.renameOk source target then
        (true, updateAt source (fun _ => some (Node.file name h content)) fs)
      else (false, fs)
  | _, _, _ => (false, fs)

/-- The part of `doPreparationCleanup` after the loop: the removal of the old
folders and the renaming of the updater executable. -/
def removeOldFolders (env : Env) (u : Updater) : Bool × Updater :=
  let output_temp_path := resolvePath env.currentDir u.m_parsedArguments.output_temp_path
  let rssguard_path := resolvePath env.currentDir u.m_parsedArguments.rssguard_path
  let updater_path := resolvePath env.currentDir u.m_parsedArguments.updater_path
  let updater_old := resolvePath env.currentDir (u.m_parsedArguments.updater_path ++ ".old")
  let temp :=
    if dirExists u.fs output_temp_path then
      let r := removeDirectory env u.fs output_temp_path [] []
      let u := { u with fs := r.fs, effects := u.effects ++ r.trace }
      if !r.result then
        (false, printText u "Cleanup of old temporary files failed.")
      else
        (true, printText u "Cleanup of old temporary files is done.")
    else (true, u)
  if !temp.1 then (false, temp.2)
  else
    let u := temp.2
    let r := removeDirectory env u.fs rssguard_path [env.defs.app7zaExecutable] ["data"]
    let u := { u with fs := r.fs, effects := u.effects ++ r.trace }
    let u := if !r.result then
        printText (printText u "Full cleanup of actual RSS Guard installation failed.")
          "Some files from old installation may persist."
      else u
    let renamed := renameFile env u.fs updater_path updater_old
    let u := { u with fs := renamed.2,
                      effects := u.effects ++ [Effect.rename updater_path updater_old renamed.1] }
    let u := if !renamed.1 then
        printText u "Updater executable was not renamed and it will not be updated."
      else u
    (true, u)

/-- The function `FormUpdater::doPreparationCleanup`. -/
def doPreparationCleanup (env : Env) (u : Updater) : Bool × Updater :=
  let u := printNewline u
  let u := printHeading u "Initial cleanup"
  let checked := checkRunningInstances env [1, 2, 3, 4] u
  if !checked.1 then (false, checked.2)
  else removeOldFolders env checked.2

/-- The listing `entryInfoList(QDir::Dirs | QDir::NoDotAndDotDot | QDir::NoSymLinks)`
of the directory at `p`: its directories that are not hidden. -/
def visibleDirectories (fs : List Node) (p : Path) : List Node :=
  match nodeAt fs p with
  | some (Node.dir _ _ es) => es.filter (fun e => e.isDir && !e.isHidden)
  | _ => []

/-- All the immediate subdirectories of the directory at `p`, hidden ones included. -/
def immediateSubdirectories (fs : List Node) (p : Path) : List Node :=
  match nodeAt fs p with
  | some (Node.dir _ _ es) => es.filter (fun e => e.isDir)
  | _ => []

/-- The function `FormUpdater::doExtractionAndCopying`. -/
def doExtractionAndCopying (env : Env) (u : Updater) : Bool × Updater :=
  let output_temp_path := resolvePath env.currentDir u.m_parsedArguments.output_temp_path
  let rssguard_path := resolvePath env.currentDir u.m_parsedArguments.rssguard_path
  let u := printNewline u
  let u := printHeading u "Extraction of update package"
  let extractor_arguments :=
    ["x", "-r", "-y", "-o" ++ u.m_parsedArguments.output_temp_path,
     u.m_parsedArguments.update_file_path]
  let u := printText u ("Calling extractor " ++ env.defs.app7zaExecutable ++
    " with these arguments:")
  let u := extractor_arguments.foldl (fun u argument =>
    printText u ("   -> \x27" ++ argument ++ "\x27")) u
  let run := env.extractor extractor_arguments u.fs
  let u := { u with fs := run.fs,
                    effects := u.effects ++
                      [Effect.startExtractor env.defs.app7zaExecutable extractor_arguments] }
  let u := printText u run.output
  let u := printText u ("Extractor finished with exit code " ++ toString run.exitCode ++ ".")
  if run.exitCode ≠ 0 || !run.normalExit then
    (false, printText u "Extraction failed due errors. Update cannot continue.")
  else
    let rssguard_temp_root := visibleDirectories u.fs output_temp_path
    match rssguard_temp_root with
    | [single] =>
        let u := printNewline u
        let rssguard_single_temp_root := output_temp_path ++ [single.name]
        let c := copyDirectory env u.fs rssguard_single_temp_root rssguard_path
        let u := { u with fs := c.fs, effects := u.effects ++ c.trace,
                          m_txtOutput := u.m_txtOutput ++ c.output }
        if !c.result then
          (false, printText u "Critical error appeared during copying of application files.")
        else (true, u)
    | _ => (false, printText u "Could not find root of downloaded application data.")

/-- The call `QFile::remove(p)`: it fails when no regular file is at the path. -/
def removeFile (env : Env) (fs : List Node) (p : Path) : Bool × List Node :=
  match nodeAt fs p with
  | some (Node.file _ _ _) =>
      if env.removeOk p then (true, updateAt p (fun _ => none) fs) else (false, fs)
  | _ => (false, fs)

/-- The function `FormUpdater::doFinalCleanup`.  The archive is removed at the place
its raw path string names; the removal fails when the string names no place. -/
def doFinalCleanup (env : Env) (u : Updater) : Bool × Updater :=
  let output_temp_path := resolvePath env.currentDir u.m_parsedArguments.output_temp_path
  let u := printNewline u
  let u := printHeading u "Final cleanup"
  let r := removeDirectory env u.fs output_temp_path [] []
  let u := { u with fs := r.fs, effects := u.effects ++ r.trace }
  let result_path := r.result
  let update_file := locatePath u.fs env.currentDir u.m_parsedArguments.update_file_path
  let update_file_path :=
    update_file.getD (resolvePath env.currentDir u.m_parsedArguments.update_file_path)
  let removed :=
    match update_file with
    | some p => removeFile env u.fs p
    | none => (false, u.fs)
  let u := { u with fs := removed.2,
                    effects := u.effects ++ [Effect.removeFile update_file_path removed.1] }
  let result_file := removed.1
  let u := printText u ("Removing temporary files\n   -> " ++
    u.m_parsedArguments.output_temp_path ++ " -> " ++
    (if result_path then "success" else "failure") ++ "\n   -> " ++
    u.m_parsedArguments.update_file_path ++ " -> " ++
    (if result_file then "success" else "failure"))
  (result_file && result_path, u)

/-- The function `FormUpdater::executeMainApplication`. -/
def executeMainApplication (env : Env) (u : Updater) : Updater :=
  let u := printText u "\nApplication was upgraded without serious errors."
  let started := env.startDetached u.m_parsedArguments.rssguard_executable_path
  let u := { u with effects := u.effects ++
    [Effect.startDetached u.m_parsedArguments.rssguard_executable_path started] }
  if !started then
    { printText u "RSS Guard was not started successfully. Start it manually." with
      m_state := UpdaterState.ExitError }
  else
    { u with m_state := UpdaterState.ExitNormal }

/-- The three gating stages of `startUpgrade`, joined as in
`!printUpdateInformation() || !doPreparationCleanup() || !doExtractionAndCopying()`:
a failed stage ends the evaluation.  The first component tells that all three
succeeded. -/
def runStages (env : Env) (u : Updater) : Bool × Updater :=
  let information := printUpdateInformation env u
  if !information.1 then (false, information.2)
  else
    let cleanup := doPreparationCleanup env information.2
    if !cleanup.1 then (false, cleanup.2)
    else doExtractionAndCopying env cleanup.2

/-- The function `FormUpdater::startUpgrade`. -/
def startUpgrade (env : Env) (u : Updater) : Updater :=
  let u := printHeading u "Welcome to RSS Guard updater"
  let u := printText u "Analyzing updater arguments."
  if env.arguments.length ≠ 5 then
    let u := printText u "Insufficient arguments passed. Update process cannot proceed."
    let u := printText u "\nPress any key to exit updater..."
    { u with m_state := UpdaterState.ExitError }
  else
    let u := saveArguments env u
    let u := printArguments u
    let stages := runStages env u
    if !stages.1 then
      let u := printText stages.2 "\nPress any key to exit updater..."
      { u with m_state := UpdaterState.ExitError }
    else
      let u := (doFinalCleanup env stages.2).2
      let u := executeMainApplication env u
      printText u "\nPress any key to exit updater..."

/-- The function `FormUpdater::keyPressEvent`, for a key event that matches the copy
shortcut (`copy = true`) or not: the exit code the application quits with, if it
quits.  `qApp->quit()` is `QCoreApplication::exit(0)`. -/
def keyPressEvent (u : Updater) (copy : Bool) : Option Int :=
  if copy then none
  else
    match u.m_state with
    | UpdaterState.NoState => none
    | UpdaterState.ExitNormal => some 0
    | UpdaterState.ExitError => some 0

/-- The number of quit messages among the effects. -/
def sendCount (effects : List Effect) : Nat :=
  (effects.filter (fun e =>
    match e with
    | Effect.sendMessage _ _ => true
    | _ => false)).length

/-! ## Sample runs -/

/-- A run with the arguments `X 1.0 2.0 /opt/app/app /tmp/update.7z`, in which the
running instance acknowledges the first quit message and is gone at the second one,
every operation of the operating system works, and the extractor unpacks an archive
with the root folder `rssguard`. -/
def sampleEnv : Env :=
  { arguments := ["X", "1.0", "2.0", "/opt/app/app", "/tmp/update.7z"],
    applicationFilePath := "/opt/app/updater",
    currentDir := [],
    defs := { appLowName := "rssguard", app7zaExecutable := "7za",
              appQuitInstance := "app_quit" },
    sendMessage := fun i => decide (i = 1),
    removeOk := fun _ => true,
    rmdirOk := fun _ => true,
    renameOk := fun _ _ => true,
    mkpathOk := fun _ => true,
    copyOk := fun _ _ => true,
    extractor := fun _ fs =>
      { exitCode := 0, normalExit := true, output := "Everything is Ok",
        fs := plantDirectory ["tmp", "rssguard"]
          [Node.dir "rssguard" false
            [Node.file "app" false "version 2.0",
             Node.dir "l10n" false [Node.file "cs.qm" false "cs"]]] fs },
    startDetached := fun _ => true }

/-- The entries of an installation directory. -/
def sampleInstall : List Node :=
  [Node.file "app" false "version 1.0",
   Node.file "updater" false "updater",
   Node.file "7za" false "7za",
   Node.dir "data" false [Node.file "database.db" false "feeds"]]

/-- An installation in `/opt/app` and a downloaded archive in `/tmp`. -/
def sampleFS : List Node :=
  [Node.dir "opt" false [Node.dir "app" false sampleInstall],
   Node.dir "tmp" false [Node.file "update.7z" false "archive"]]

/-- The sample run on a system that does not let the executable `/opt/app/app` be
deleted. -/
def lockedEnv : Env :=
  { sampleEnv with removeOk := fun p => decide (p ≠ ["opt", "app", "app"]) }

/-- The entries of a working directory with a file that is to be kept. -/
def keepEntries : List Node :=
  [Node.file "keep.txt" false "kept",
   Node.file "a.txt" false "a",
   Node.dir "old" false [Node.file "b.txt" false "b", Node.dir "data" false []],
   Node.dir "data" false [Node.file "c.txt" false "c", Node.file "keep.txt" false "deep"],
   Node.dir "nested" false [Node.dir "inner" false [Node.file "keep.txt" false "inner"]]]

/-- A filesystem with the working directory `/work`. -/
def keepFS : List Node :=
  [Node.dir "work" false keepEntries]

/-- A filesystem with an unpacked update in `/A`, which holds a hidden file and a
hidden directory next to the visible executable, and the empty directory `/B`. -/
def hiddenFS : List Node :=
  [Node.dir "A" false
    [Node.file "app" false "version 2.0",
     Node.file ".config" true "settings",
     Node.dir ".plugins" true [Node.file "reader" false "plugin"]],
   Node.dir "B" false []]

/-- A filesystem with an unpacked update in `/new` and an installation in `/inst` that
holds older files at the same relative paths and files and directories of its own. -/
def mergeFS : List Node :=
  [Node.dir "new" false
    [Node.file "app" false "version 2.0",
     Node.dir "lib" false [Node.file "core" false "core 2.0"],
     Node.dir "l10n" false [Node.file "cs.qm" false "cs"]],
   Node.dir "inst" false
    [Node.file "app" false "version 1.0",
     Node.dir "data" false [Node.file "feeds.db" false "feeds"],
     Node.dir "lib" false
      [Node.file "core" false "core 1.0", Node.file "extra" false "plugin"]]]

/-- A filesystem with an unpacked update in `/new` and an installation in `/inst`, each
with the executable `app` and the hidden settings file `.portable`. -/
def portableFS : List Node :=
  [Node.dir "new" false
    [Node.file "app" false "version 2.0",
     Node.file ".portable" true "settings 2.0"],
   Node.dir "inst" false
    [Node.file "app" false "version 1.0",
     Node.file ".portable" true "settings 1.0"]]

/-- The sample run with an archive that unpacks, next to its root folder `rssguard`,
a hidden folder `.meta`. -/
def hiddenRootEnv : Env :=
  { sampleEnv with
    extractor := fun _ fs =>
      { exitCode := 0, normalExit := true, output := "Everything is Ok",
        fs := plantDirectory ["tmp", "rssguard"]
          [Node.dir "rssguard" false [Node.file "app" false "version 2.0"],
           Node.dir ".meta" true [Node.file "index" false "1"]] fs } }

/-! ## The upgrade sequence -/

theorem printText_m_state (u : Updater) (t : String) : (printText u t).m_state = u.m_state := rfl

theorem printText_fs (u : Updater) (t : String) : (printText u t).fs = u.fs := rfl

theorem printText_effects (u : Updater) (t : String) : (printText u t).effects = u.effects := rfl

theorem printHeading_fs (u : Updater) (t : String) : (printHeading u t).fs = u.fs := rfl

theorem printHeading_effects (u : Updater) (t : String) :
    (printHeading u t).effects = u.effects := rfl

theorem printNewline_fs (u : Updater) : (printNewline u).fs = u.fs := rfl

theorem printNewline_effects (u : Updater) : (printNewline u).effects = u.effects := rfl

/-- C1: with an argument list whose length is not 5, `startUpgrade` ends in the state
`ExitError`, the filesystem is the one it started on, and no primitive operation has
been attempted (no quit message, no removal, no rename, no extractor, no copy): the
list of effects is the one it started with. -/
theorem startUpgrade_insufficient_arguments (env : Env) (u : Updater)
    (h : env.arguments.length ≠ 5) :
    (startUpgrade env u).m_state = UpdaterState.ExitError ∧
      (startUpgrade env u).fs = u.fs ∧
      (startUpgrade env u).effects = u.effects := by
  simp [startUpgrade, h, printText, printHeading]

/-- With one argument the run ends at once. -/
theorem startUpgrade_insufficient_arguments_witness :
    ({ sampleEnv with arguments := ["X"] } : Env).arguments.length ≠ 5 ∧
      ((startUpgrade { sampleEnv with arguments := ["X"] } (Updater.new sampleFS)).m_state
          = UpdaterState.ExitError ∧
        (startUpgrade { sampleEnv with arguments := ["X"] } (Updater.new sampleFS)).fs
          = (Updater.new sampleFS).fs ∧
        (startUpgrade { sampleEnv with arguments := ["X"] } (Updater.new sampleFS)).effects
          = (Updater.new sampleFS).effects) :=
  ⟨by decide,
   startUpgrade_insufficient_arguments { sampleEnv with arguments := ["X"] }
     (Updater.new sampleFS) (by decide)⟩

theorem printUpdateInformation_fst (env : Env) (u : Updater) :
    (printUpdateInformation env u).1 =
      existsPath u.fs env.currentDir u.m_parsedArguments.update_file_path := by
  simp [printUpdateInformation]

theorem printUpdateInformation_fs (env : Env) (u : Updater) :
    (printUpdateInformation env u).2.fs = u.fs := by
  simp only [printUpdateInformation]
  split <;> rfl

theorem printUpdateInformation_effects (env : Env) (u : Updater) :
    (printUpdateInformation env u).2.effects = u.effects := by
  simp only [printUpdateInformation]
  split <;> rfl

theorem checkRunningInstances_fs (env : Env) (l : List Nat) (u : Updater) :
    (checkRunningInstances env l u).2.fs = u.fs := by
  induction l generalizing u with
  | nil => rfl
  | cons i rest ih =>
    simp only [checkRunningInstances]
    split
    · rfl
    · split
      · rw [ih]; rfl
      · rfl

/-- The loop over `i = 1, ..., 4`, evaluated: what it returns and the quit messages it
adds, by the outcomes of the first three messages. -/
theorem checkRunningInstances_eval (env : Env) (u : Updater) :
    ((checkRunningInstances env [1, 2, 3, 4] u).1 =
        !(env.sendMessage 1 && env.sendMessage 2 && env.sendMessage 3)) ∧
      (checkRunningInstances env [1, 2, 3, 4] u).2.effects = u.effects ++
        (if env.sendMessage 1 then
          Effect.sendMessage env.defs.appQuitInstance true ::
            (if env.sendMessage 2 then
              Effect.sendMessage env.defs.appQuitInstance true ::
                [Effect.sendMessage env.defs.appQuitInstance (env.sendMessage 3)]
            else [Effect.sendMessage env.defs.appQuitInstance false])
        else [Effect.sendMessage env.defs.appQuitInstance false]) := by
  cases h1 : env.sendMessage 1 <;> cases h2 : env.sendMessage 2 <;>
    cases h3 : env.sendMessage 3 <;>
    simp [checkRunningInstances, h1, h2, h3, printText]

theorem sendCount_append (a b : List Effect) : sendCount (a ++ b) = sendCount a + sendCount b := by
  simp [sendCount]

/-- The preparation cleanup when all three quit messages are acknowledged: it returns
`false` after the third one, and has touched nothing. -/
theorem doPreparationCleanup_busy (env : Env) (v : Updater)
    (h1 : env.sendMessage 1 = true) (h2 : env.sendMessage 2 = true)
    (h3 : env.sendMessage 3 = true) :
    (doPreparationCleanup env v).1 = false ∧ (doPreparationCleanup env v).2.fs = v.fs ∧
      (doPreparationCleanup env v).2.effects = v.effects ++
        List.replicate 3 (Effect.sendMessage env.defs.appQuitInstance true) := by
  have h := checkRunningInstances_eval env (printHeading (printNewline v) "Initial cleanup")
  simp only [h1, h2, h3, Bool.and_self, Bool.not_true, if_true] at h
  obtain ⟨e1, e2⟩ := h
  have e3 := checkRunningInstances_fs env [1, 2, 3, 4]
    (printHeading (printNewline v) "Initial cleanup")
  simp only [doPreparationCleanup, e1, Bool.not_false, if_true]
  exact ⟨trivial, e3, e2⟩

/-- C2: in a run with 5 arguments and an existing update archive in which each of the
three quit messages is acknowledged, `doPreparationCleanup` returns `false` (from
whatever state it is called in, leaving the filesystem as it was), `startUpgrade` ends
in `ExitError`, the filesystem is unchanged, and the only operations attempted are the
three quit messages: nothing has been removed, renamed, extracted or copied. -/
theorem startUpgrade_instance_still_running (env : Env) (u : Updater)
    (hargs : env.arguments.length = 5)
    (harchive : existsPath u.fs env.currentDir (env.arguments.getD 4 "") = true)
    (h1 : env.sendMessage 1 = true) (h2 : env.sendMessage 2 = true)
    (h3 : env.sendMessage 3 = true) :
    (∀ v : Updater, (doPreparationCleanup env v).1 = false ∧
        (doPreparationCleanup env v).2.fs = v.fs) ∧
      (startUpgrade env u).m_state = UpdaterState.ExitError ∧
      (startUpgrade env u).fs = u.fs ∧
      (startUpgrade env u).effects = u.effects ++
        List.replicate 3 (Effect.sendMessage env.defs.appQuitInstance true) := by
  refine ⟨fun v => ⟨(doPreparationCleanup_busy env v h1 h2 h3).1,
    (doPreparationCleanup_busy env v h1 h2 h3).2.1⟩, ?_⟩
  have hinfo : ∀ w : Updater, w.fs = u.fs →
      w.m_parsedArguments.update_file_path = env.arguments.getD 4 "" →
      (printUpdateInformation env w).1 = true := by
    intro w hw hp
    rw [printUpdateInformation_fst, hw, hp, harchive]
  have hstages : ∀ w : Updater, w.fs = u.fs → w.effects = u.effects →
      w.m_parsedArguments.update_file_path = env.arguments.getD 4 "" →
      (runStages env w).1 = false ∧ (runStages env w).2.fs = u.fs ∧
        (runStages env w).2.effects = u.effects ++
          List.replicate 3 (Effect.sendMessage env.defs.appQuitInstance true) := by
    intro w hw he hp
    have hb := doPreparationCleanup_busy env (printUpdateInformation env w).2 h1 h2 h3
    simp only [runStages, hinfo w hw hp, hb.1, Bool.not_true, Bool.not_false, if_true]
    simp only [Bool.false_eq_true, if_false, true_and]
    rw [hb.2.1, hb.2.2, printUpdateInformation_fs, printUpdateInformation_effects, hw, he]
    exact ⟨rfl, rfl⟩
  have hs := hstages
    (printArguments (saveArguments env
      (printText (printHeading u "Welcome to RSS Guard updater") "Analyzing updater arguments.")))
    rfl rfl rfl
  simp only [startUpgrade, hargs, ne_eq, not_true_eq_false, if_false, hs.1, Bool.not_false,
    if_true, printText_m_state, printText_fs, printText_effects, hs.2.1, hs.2.2]
  exact ⟨trivial, trivial, trivial⟩
/-- The sample run with an instance that acknowledges every quit message. -/
theorem startUpgrade_instance_still_running_witness :
    ({ sampleEnv with sendMessage := fun _ => true } : Env).arguments.length = 5 ∧
      existsPath (Updater.new sampleFS).fs
        ({ sampleEnv with sendMessage := fun _ => true } : Env).currentDir
        (({ sampleEnv with sendMessage := fun _ => true } : Env).arguments.getD 4 "") = true ∧
      ((∀ v : Updater,
          (doPreparationCleanup { sampleEnv with sendMessage := fun _ => true } v).1 = false ∧
          (doPreparationCleanup { sampleEnv with sendMessage := fun _ => true } v).2.fs = v.fs) ∧
        (startUpgrade { sampleEnv with sendMessage := fun _ => true }
          (Updater.new sampleFS)).m_state = UpdaterState.ExitError ∧
        (startUpgrade { sampleEnv with sendMessage := fun _ => true }
          (Updater.new sampleFS)).fs = (Updater.new sampleFS).fs ∧
        (startUpgrade { sampleEnv with sendMessage := fun _ => true }
          (Updater.new sampleFS)).effects = (Updater.new sampleFS).effects ++
            List.replicate 3 (Effect.sendMessage
              ({ sampleEnv with sendMessage := fun _ => true } : Env).defs.appQuitInstance true)) :=
  ⟨by decide, by decide,
   startUpgrade_instance_still_running { sampleEnv with sendMessage := fun _ => true }
     (Updater.new sampleFS) (by decide) (by decide) rfl rfl rfl⟩

/-- C3: the loop of `doPreparationCleanup` that quits the running instance.  If the
first quit message that is not acknowledged is the `k`-th one, the loop sends
`min k 3` messages and is left with success exactly when `k ≤ 3`; if every message is
acknowledged it sends 3 messages and fails.  On success `doPreparationCleanup` goes on
with the removal of the old folders, in the state the loop left; the loop itself
leaves the filesystem alone. -/
theorem checkRunningInstances_attempts (env : Env) (u : Updater) :
    (∀ k : Nat, 1 ≤ k → (∀ j : Nat, 1 ≤ j → j < k → env.sendMessage j = true) →
        env.sendMessage k = false →
        sendCount (checkRunningInstances env [1, 2, 3, 4] u).2.effects
            = sendCount u.effects + min k 3 ∧
          ((checkRunningInstances env [1, 2, 3, 4] u).1 = true ↔ k ≤ 3)) ∧
      ((∀ j : Nat, 1 ≤ j → env.sendMessage j = true) →
        sendCount (checkRunningInstances env [1, 2, 3, 4] u).2.effects
            = sendCount u.effects + 3 ∧
          (checkRunningInstances env [1, 2, 3, 4] u).1 = false) ∧
      ((checkRunningInstances env [1, 2, 3, 4]
            (printHeading (printNewline u) "Initial cleanup")).1 = true →
        doPreparationCleanup env u = removeOldFolders env
          (checkRunningInstances env [1, 2, 3, 4]
            (printHeading (printNewline u) "Initial cleanup")).2) ∧
      (checkRunningInstances env [1, 2, 3, 4] u).2.fs = u.fs := by
  obtain ⟨e1, e2⟩ := checkRunningInstances_eval env u
  refine ⟨?_, ?_, ?_, checkRunningInstances_fs env _ u⟩
  · intro k hk hbefore hk0
    rw [e1, e2, sendCount_append]
    rcases Nat.lt_or_ge k 4 with hlt | hge
    · interval_cases k
      · simp [hk0, sendCount]
      · simp [hk0, hbefore 1 (by decide) (by decide), sendCount]
      · simp [hk0, hbefore 1 (by decide) (by decide), hbefore 2 (by decide) (by decide),
          sendCount]
    · have a1 := hbefore 1 (by decide) (by omega)
      have a2 := hbefore 2 (by decide) (by omega)
      have a3 := hbefore 3 (by decide) (by omega)
      have hmin : min k 3 = 3 := by omega
      simp [a1, a2, a3, sendCount, hmin]
      omega
  · intro hall
    rw [e1, e2, sendCount_append]
    simp [hall 1 (by decide), hall 2 (by decide), hall 3 (by decide), sendCount]
  · intro hok
    simp [doPreparationCleanup, hok]

/-- The run of the scenario: the instance acknowledges the first quit message and has
exited at the second one, so the first message that is not acknowledged is the second,
two messages are sent and the loop succeeds. -/
theorem checkRunningInstances_attempts_witness :
    sampleEnv.arguments = ["X", "1.0", "2.0", "/opt/app/app", "/tmp/update.7z"] ∧
      sampleEnv.sendMessage 1 = true ∧ sampleEnv.sendMessage 2 = false ∧
      sendCount (checkRunningInstances sampleEnv [1, 2, 3, 4] (Updater.new sampleFS)).2.effects
          = sendCount (Updater.new sampleFS).effects + min 2 3 ∧
      ((checkRunningInstances sampleEnv [1, 2, 3, 4] (Updater.new sampleFS)).1 = true ↔ 2 ≤ 3) :=
  ⟨rfl, rfl, rfl,
   (checkRunningInstances_attempts sampleEnv (Updater.new sampleFS)).1 2 (by decide)
     (fun j h1 h2 => by
        have hj : j = 1 := by omega
        subst hj
        rfl)
     rfl⟩
theorem printUpdateInformation_parsed (env : Env) (u : Updater) :
    (printUpdateInformation env u).2.m_parsedArguments = u.m_parsedArguments := by
  simp only [printUpdateInformation]
  split <;> rfl

theorem checkRunningInstances_parsed (env : Env) (l : List Nat) (u : Updater) :
    (checkRunningInstances env l u).2.m_parsedArguments = u.m_parsedArguments := by
  induction l generalizing u with
  | nil => rfl
  | cons i rest ih =>
    simp only [checkRunningInstances]
    split
    · rfl
    · split
      · rw [ih]; rfl
      · rfl

theorem removeOldFolders_parsed (env : Env) (u : Updater) :
    (removeOldFolders env u).2.m_parsedArguments = u.m_parsedArguments := by
  simp only [removeOldFolders]
  repeat' split
  all_goals rfl

theorem doPreparationCleanup_parsed (env : Env) (u : Updater) :
    (doPreparationCleanup env u).2.m_parsedArguments = u.m_parsedArguments := by
  simp only [doPreparationCleanup]
  split
  · rw [checkRunningInstances_parsed]; rfl
  · rw [removeOldFolders_parsed, checkRunningInstances_parsed]; rfl

theorem foldl_printText_parsed (l : List String) (f : String → String) (u : Updater) :
    (l.foldl (fun u a => printText u (f a)) u).m_parsedArguments = u.m_parsedArguments := by
  induction l generalizing u with
  | nil => rfl
  | cons a rest ih => simp only [List.foldl]; rw [ih]; rfl

theorem doExtractionAndCopying_parsed (env : Env) (u : Updater) :
    (doExtractionAndCopying env u).2.m_parsedArguments = u.m_parsedArguments := by
  simp only [doExtractionAndCopying]
  repeat' split
  all_goals rfl

theorem doFinalCleanup_parsed (env : Env) (u : Updater) :
    (doFinalCleanup env u).2.m_parsedArguments = u.m_parsedArguments := by
  rfl

theorem executeMainApplication_m_state (env : Env) (u : Updater) :
    (executeMainApplication env u).m_state =
      if env.startDetached u.m_parsedArguments.rssguard_executable_path then
        UpdaterState.ExitNormal
      else UpdaterState.ExitError := by
  cases h : env.startDetached u.m_parsedArguments.rssguard_executable_path <;>
    simp [executeMainApplication, printText, h]
/-- C4: `startUpgrade` always ends in a terminal state.  The state is `ExitNormal`
exactly when there are 5 arguments, the three gating stages `printUpdateInformation`,
`doPreparationCleanup` and `doExtractionAndCopying` (each run in the state the one
before left) returned `true`, and `QProcess::startDetached` of the target executable
succeeded; it is `ExitError` otherwise.  The value returned by `doFinalCleanup` does
not occur in the condition. -/
theorem startUpgrade_terminal_state (env : Env) (u : Updater) :
    ((startUpgrade env u).m_state = UpdaterState.ExitNormal ↔
        env.arguments.length = 5 ∧
        (printUpdateInformation env (printArguments (saveArguments env
          (printText (printHeading u "Welcome to RSS Guard updater")
            "Analyzing updater arguments.")))).1 = true ∧
        (doPreparationCleanup env (printUpdateInformation env (printArguments
          (saveArguments env (printText (printHeading u "Welcome to RSS Guard updater")
            "Analyzing updater arguments.")))).2).1 = true ∧
        (doExtractionAndCopying env (doPreparationCleanup env (printUpdateInformation env
          (printArguments (saveArguments env (printText
            (printHeading u "Welcome to RSS Guard updater")
            "Analyzing updater arguments.")))).2).2).1 = true ∧
        env.startDetached (env.arguments.getD 3 "") = true) ∧
      ((startUpgrade env u).m_state ≠ UpdaterState.ExitNormal →
        (startUpgrade env u).m_state = UpdaterState.ExitError) ∧
      (startUpgrade env u).m_state ≠ UpdaterState.NoState := by
  generalize hw : printArguments (saveArguments env
    (printText (printHeading u "Welcome to RSS Guard updater")
      "Analyzing updater arguments.")) = w
  have hexe : w.m_parsedArguments.rssguard_executable_path = env.arguments.getD 3 "" := by
    rw [← hw]; rfl
  by_cases hargs : env.arguments.length = 5
  · have hstart : startUpgrade env u =
        if !(runStages env w).1 then
          { printText (runStages env w).2 "\nPress any key to exit updater..." with
            m_state := UpdaterState.ExitError }
        else
          printText (executeMainApplication env (doFinalCleanup env (runStages env w).2).2)
            "\nPress any key to exit updater..." := by
      simp only [startUpgrade, hargs, ne_eq, not_true_eq_false, if_false, hw]
    rw [hstart]
    cases hi : (printUpdateInformation env w).1
    · simp [runStages, hi]
    · cases hc : (doPreparationCleanup env (printUpdateInformation env w).2).1
      · simp [runStages, hi, hc]
      · cases he : (doExtractionAndCopying env
            (doPreparationCleanup env (printUpdateInformation env w).2).2).1
        · simp [runStages, hi, hc, he]
        · have hp : (doFinalCleanup env (doExtractionAndCopying env (doPreparationCleanup env
              (printUpdateInformation env w).2).2).2).2.m_parsedArguments.rssguard_executable_path
              = env.arguments.getD 3 "" := by
            rw [doFinalCleanup_parsed, doExtractionAndCopying_parsed,
              doPreparationCleanup_parsed, printUpdateInformation_parsed, hexe]
          cases hs : env.startDetached (env.arguments.getD 3 "")
          all_goals
            simp only [runStages, hi, hc, he, Bool.not_true, Bool.false_eq_true, if_false,
              printText_m_state, executeMainApplication_m_state, hp, hs]
          all_goals simp [hargs]
  · simp [startUpgrade, hargs, printText]
/-! ## Induction over directory trees -/

/-- Induction over an entry and the listings below it. -/
theorem Node.induction_on {P : Node → Prop} {Q : List Node → Prop}
    (hfile : ∀ n h c, P (Node.file n h c))
    (hdir : ∀ n h es, Q es → P (Node.dir n h es))
    (hnil : Q [])
    (hcons : ∀ e es, P e → Q es → Q (e :: es)) :
    (∀ e, P e) ∧ (∀ es, Q es) :=
  ⟨fun e => @Node.rec P Q hfile hdir hnil hcons e,
   fun es => @Node.rec_1 P Q hfile hdir hnil hcons es⟩

/-- Induction over an entry, with the property at hand for every entry of a
directory. -/
theorem Node.induction_mem {P : Node → Prop}
    (hfile : ∀ n h c, P (Node.file n h c))
    (hdir : ∀ n h es, (∀ e ∈ es, P e) → P (Node.dir n h es)) (e : Node) : P e :=
  (Node.induction_on (Q := fun es => ∀ e ∈ es, P e) hfile hdir
    (fun _ h => absurd h (List.not_mem_nil _))
    (fun e es he hes x hx => by
      rcases List.mem_cons.mp hx with rfl | h
      · exact he
      · exact hes x h)).1 e

@[simp] theorem Node.isDir_file (n : String) (h : Bool) (c : String) :
    (Node.file n h c).isDir = false := rfl

@[simp] theorem Node.isDir_dir (n : String) (h : Bool) (es : List Node) :
    (Node.dir n h es).isDir = true := rfl

@[simp] theorem Node.name_file (n : String) (h : Bool) (c : String) :
    (Node.file n h c).name = n := rfl

@[simp] theorem Node.name_dir (n : String) (h : Bool) (es : List Node) :
    (Node.dir n h es).name = n := rfl

/-! ## `removeDirectory`: the two passes over a listing -/

/-- The entries the file pass leaves: the directories, the excepted files, and the
files whose removal failed. -/
theorem removeFiles_left (env : Env) (exF : List String) (p : Path) (es : List Node) :
    (removeFiles env exF p es).left =
      es.filter (fun e => e.isDir || exF.contains e.name || !env.removeOk (p ++ [e.name])) := by
  induction es with
  | nil => rfl
  | cons e rest ih =>
    cases e with
    | dir n h sub => simp [removeFiles, ih]
    | file n h c =>
      simp only [removeFiles]
      by_cases hx : n ∈ exF
      · simp [hx, ih]
      · cases hr : env.removeOk (p ++ [n]) <;> simp [hx, hr, ih]

/-- The operations of the file pass: one `QFile::remove` for each file that is not
excepted. -/
theorem removeFiles_trace (env : Env) (exF : List String) (p : Path) (es : List Node) :
    (removeFiles env exF p es).trace =
      (es.filter (fun e => !e.isDir && !exF.contains e.name)).map
        (fun e => Effect.removeFile (p ++ [e.name]) (env.removeOk (p ++ [e.name]))) := by
  induction es with
  | nil => rfl
  | cons e rest ih =>
    cases e with
    | dir n h sub => simp [removeFiles, ih]
    | file n h c =>
      simp only [removeFiles]
      by_cases hx : n ∈ exF
      · simp [hx, ih]
      · simp [hx, ih]

/-- The result of the file pass is the conjunction of the outcomes of its operations. -/
theorem removeFiles_result (env : Env) (exF : List String) (p : Path) (es : List Node) :
    (removeFiles env exF p es).result = (removeFiles env exF p es).trace.all Effect.ok := by
  induction es with
  | nil => rfl
  | cons e rest ih =>
    cases e with
    | dir n h sub => simpa [removeFiles] using ih
    | file n h c =>
      simp only [removeFiles]
      by_cases hx : n ∈ exF
      · simpa [hx] using ih
      · simp [hx, ih, Effect.ok]

theorem visitSubdirectory_skip (env : Env) (exF exD : List String) (p : Path) (e : Node)
    (hs : (!e.isDir || exD.contains e.name) = true) :
    visitSubdirectory env exF exD p e = none := by
  simp only [visitSubdirectory, hs, if_true]

theorem visitSubdirectory_enter (env : Env) (exF exD : List String) (p : Path) (e : Node)
    (hs : (!e.isDir || exD.contains e.name) = false) :
    visitSubdirectory env exF exD p e = some (removeSubdirectory env exF p e) := by
  simp only [visitSubdirectory, hs, Bool.false_eq_true, if_false]

theorem removeSubdirectories_left (env : Env) (exF exD : List String) (p : Path)
    (es : List Node) :
    (removeSubdirectories env exF exD p es).left =
      es.filterMap (fun e =>
        match visitSubdirectory env exF exD p e with
        | none => some e
        | some r => r.2.1) := by
  induction es with
  | nil => simp [removeSubdirectories]
  | cons e rest ih =>
    cases hs : (!e.isDir || exD.contains e.name)
    · simp only [removeSubdirectories, List.filterMap_cons, hs, Bool.false_eq_true, if_false,
        visitSubdirectory_enter env exF exD p e hs, ih]
      generalize (removeSubdirectory env exF p e).2.1 = o
      cases o <;> rfl
    · simp only [removeSubdirectories, List.filterMap_cons, hs, if_true,
        visitSubdirectory_skip env exF exD p e hs, ih]

theorem removeSubdirectories_trace (env : Env) (exF exD : List String) (p : Path)
    (es : List Node) :
    (removeSubdirectories env exF exD p es).trace =
      es.flatMap (fun e =>
        match visitSubdirectory env exF exD p e with
        | none => []
        | some r => r.2.2) := by
  induction es with
  | nil => simp [removeSubdirectories]
  | cons e rest ih =>
    cases hs : (!e.isDir || exD.contains e.name)
    · simp only [removeSubdirectories, List.flatMap_cons, hs, Bool.false_eq_true, if_false,
        visitSubdirectory_enter env exF exD p e hs, ih]
    · simp only [removeSubdirectories, List.flatMap_cons, hs, if_true,
        visitSubdirectory_skip env exF exD p e hs, ih, List.nil_append]

theorem removeSubdirectories_result (env : Env) (exF exD : List String) (p : Path)
    (es : List Node) :
    (removeSubdirectories env exF exD p es).result =
      es.all (fun e =>
        match visitSubdirectory env exF exD p e with
        | none => true
        | some r => r.1) := by
  induction es with
  | nil => simp [removeSubdirectories]
  | cons e rest ih =>
    cases hs : (!e.isDir || exD.contains e.name)
    · simp only [removeSubdirectories, List.all_cons, hs, Bool.false_eq_true, if_false,
        visitSubdirectory_enter env exF exD p e hs, ih]
    · simp only [removeSubdirectories, List.all_cons, hs, if_true,
        visitSubdirectory_skip env exF exD p e hs, ih, Bool.true_and]
/-- What is left of a directory after the recursive call is a directory of the same
name. -/
theorem removeSubdirectory_left_dir (env : Env) (exF : List String) (p : Path) (e e2 : Node)
    (he : e.isDir = true) (h : (removeSubdirectory env exF p e).2.1 = some e2) :
    e2.isDir = true ∧ e2.name = e.name := by
  cases e with
  | file n hd c => simp at he
  | dir n hd es =>
    simp only [removeSubdirectory, Option.map_eq_some'] at h
    obtain ⟨l, _, rfl⟩ := h
    simp

/-- The directory pass leaves the files of the listing as they are. -/
theorem removeSubdirectories_left_files (env : Env) (exF exD : List String) (p : Path)
    (g : Node → Bool) (es : List Node) :
    (removeSubdirectories env exF exD p es).left.filter (fun e => !e.isDir && g e) =
      es.filter (fun e => !e.isDir && g e) := by
  induction es with
  | nil => simp [removeSubdirectories]
  | cons e rest ih =>
    cases hs : (!e.isDir || exD.contains e.name)
    · have hd : e.isDir = true := by
        cases hd : e.isDir
        · simp [hd] at hs
        · rfl
      simp only [removeSubdirectories, hs, Bool.false_eq_true, if_false]
      cases hr : (removeSubdirectory env exF p e).2.1 with
      | none => simp [ih, hd]
      | some e2 =>
        have h2 := (removeSubdirectory_left_dir env exF p e e2 hd hr).1
        simp [ih, hd, h2]
    · simp only [removeSubdirectories, hs, if_true, List.filter_cons, ih]

theorem removeFilesAndSelf_result (env : Env) (exF : List String) (p : Path) (dirs : Removal)
    (h : dirs.result = dirs.trace.all Effect.ok) :
    (removeFilesAndSelf env exF p dirs).1 = (removeFilesAndSelf env exF p dirs).2.2.all Effect.ok := by
  simp only [removeFilesAndSelf, List.all_append, h, removeFiles_result]
  simp [Effect.ok]

theorem removeSubdirectories_result_all (env : Env) (exF exD : List String) (p : Path)
    (es : List Node)
    (h : ∀ e ∈ es, (removeSubdirectory env exF p e).1
      = (removeSubdirectory env exF p e).2.2.all Effect.ok) :
    (removeSubdirectories env exF exD p es).result =
      (removeSubdirectories env exF exD p es).trace.all Effect.ok := by
  induction es with
  | nil => simp [removeSubdirectories]
  | cons e rest ih =>
    have ih2 := ih (fun x hx => h x (List.mem_cons_of_mem _ hx))
    cases hs : (!e.isDir || exD.contains e.name)
    · simp only [removeSubdirectories, hs, Bool.false_eq_true, if_false, List.all_append,
        ih2, h e (List.mem_cons_self _ _)]
    · simp only [removeSubdirectories, hs, if_true, ih2]

/-- The result of a recursive call is the conjunction of the outcomes of the
operations it attempted. -/
theorem removeSubdirectory_result (env : Env) (exF : List String) (e : Node) :
    ∀ p : Path, (removeSubdirectory env exF p e).1
      = (removeSubdirectory env exF p e).2.2.all Effect.ok := by
  induction e using Node.induction_mem with
  | hfile n h c => intro p; simp [removeSubdirectory]
  | hdir n h es ih =>
    intro p
    simp only [removeSubdirectory]
    exact removeFilesAndSelf_result env exF (p ++ [n]) _
      (removeSubdirectories_result_all env exF [] (p ++ [n]) es (fun e he => ih e he _))

theorem removeDirectoryAt_result (env : Env) (exF exD : List String) (p : Path)
    (es : List Node) :
    (removeDirectoryAt env exF exD p es).1
      = (removeDirectoryAt env exF exD p es).2.2.all Effect.ok :=
  removeFilesAndSelf_result env exF p _
    (removeSubdirectories_result_all env exF exD p es
      (fun e _ => removeSubdirectory_result env exF e p))
/-- The paths the file pass, run after the directory pass, aims at: the files of the
listing that are not excepted. -/
theorem removeFiles_after_targets (env : Env) (exF exD : List String) (p : Path)
    (es : List Node) :
    (removeFiles env exF p (removeSubdirectories env exF exD p es).left).trace.map Effect.target
      = (es.filter (fun e => !e.isDir && !exF.contains e.name)).map (fun e => p ++ [e.name]) := by
  rw [removeFiles_trace, removeSubdirectories_left_files env exF exD p
    (fun e => !exF.contains e.name) es, List.map_map]
  rfl

theorem removeSubdirectories_targets (env env2 : Env) (exF exD : List String) (p : Path)
    (es : List Node)
    (h : ∀ e ∈ es, (removeSubdirectory env exF p e).2.2.map Effect.target
      = (removeSubdirectory env2 exF p e).2.2.map Effect.target) :
    (removeSubdirectories env exF exD p es).trace.map Effect.target =
      (removeSubdirectories env2 exF exD p es).trace.map Effect.target := by
  induction es with
  | nil => simp [removeSubdirectories]
  | cons e rest ih =>
    have ih2 := ih (fun x hx => h x (List.mem_cons_of_mem _ hx))
    cases hs : (!e.isDir || exD.contains e.name)
    · simp only [removeSubdirectories, hs, Bool.false_eq_true, if_false, List.map_append,
        ih2, h e (List.mem_cons_self _ _)]
    · simp only [removeSubdirectories, hs, if_true, ih2]

theorem removeFilesAndSelf_targets (env env2 : Env) (exF exD : List String) (p : Path)
    (es : List Node)
    (h : (removeSubdirectories env exF exD p es).trace.map Effect.target =
      (removeSubdirectories env2 exF exD p es).trace.map Effect.target) :
    (removeFilesAndSelf env exF p (removeSubdirectories env exF exD p es)).2.2.map Effect.target
      = (removeFilesAndSelf env2 exF p
          (removeSubdirectories env2 exF exD p es)).2.2.map Effect.target := by
  simp only [removeFilesAndSelf, List.map_append, h, removeFiles_after_targets]
  rfl

/-- The paths a recursive call aims at do not depend on the outcomes of the
operations. -/
theorem removeSubdirectory_targets (env env2 : Env) (exF : List String) (e : Node) :
    ∀ p : Path, (removeSubdirectory env exF p e).2.2.map Effect.target
      = (removeSubdirectory env2 exF p e).2.2.map Effect.target := by
  induction e using Node.induction_mem with
  | hfile n h c => intro p; simp [removeSubdirectory]
  | hdir n h es ih =>
    intro p
    simp only [removeSubdirectory]
    exact removeFilesAndSelf_targets env env2 exF [] (p ++ [n]) es
      (removeSubdirectories_targets env env2 exF [] (p ++ [n]) es (fun e he => ih e he _))

theorem removeDirectoryAt_targets (env env2 : Env) (exF exD : List String) (p : Path)
    (es : List Node) :
    (removeDirectoryAt env exF exD p es).2.2.map Effect.target
      = (removeDirectoryAt env2 exF exD p es).2.2.map Effect.target :=
  removeFilesAndSelf_targets env env2 exF exD p es
    (removeSubdirectories_targets env env2 exF exD p es
      (fun e _ => removeSubdirectory_targets env env2 exF e p))

/-- The result of `removeDirectory` on an existing directory, spelled out: the
conjunction of the results of the recursive calls, of the outcomes of the file
removals and of the outcome of the final `rmdir`. -/
theorem removeDirectoryAt_conjunction (env : Env) (exF exD : List String) (p : Path)
    (es : List Node) :
    (removeDirectoryAt env exF exD p es).1 =
      (es.all (fun e =>
          if e.isDir && !exD.contains e.name then (removeSubdirectory env exF p e).1 else true)
        && es.all (fun e =>
          if !e.isDir && !exF.contains e.name then env.removeOk (p ++ [e.name]) else true)
        && (removeDirectoryAt env exF exD p es).2.1.isNone) := by
  have h1 : (removeSubdirectories env exF exD p es).result =
      es.all (fun e =>
        if e.isDir && !exD.contains e.name then (removeSubdirectory env exF p e).1 else true) := by
    rw [removeSubdirectories_result]
    congr 1
    funext e
    cases hs : (!e.isDir || exD.contains e.name)
    · rw [visitSubdirectory_enter env exF exD p e hs]
      have : (e.isDir && !exD.contains e.name) = true := by
        revert hs
        generalize e.isDir = a
        generalize exD.contains e.name = b
        cases a <;> cases b <;> simp
      simp only [this, if_true]
    · rw [visitSubdirectory_skip env exF exD p e hs]
      have : (e.isDir && !exD.contains e.name) = false := by
        revert hs
        generalize e.isDir = a
        generalize exD.contains e.name = b
        cases a <;> cases b <;> simp
      simp only [this, Bool.false_eq_true, if_false]
  have h2 : (removeFiles env exF p (removeSubdirectories env exF exD p es).left).result =
      es.all (fun e =>
        if !e.isDir && !exF.contains e.name then env.removeOk (p ++ [e.name]) else true) := by
    rw [removeFiles_result, removeFiles_trace,
      removeSubdirectories_left_files env exF exD p (fun e => !exF.contains e.name) es]
    rw [Bool.eq_iff_iff]
    simp only [List.all_eq_true, List.mem_map, List.mem_filter]
    constructor
    · intro h e he
      split
      · rename_i hc
        exact h _ ⟨e, ⟨he, hc⟩, rfl⟩
      · rfl
    · rintro h _ ⟨e, ⟨he, hc⟩, rfl⟩
      have := h e he
      rw [if_pos hc] at this
      exact this
  simp only [removeDirectoryAt, removeFilesAndSelf, h1, h2]
  cases es.all (fun e =>
      if e.isDir && !exD.contains e.name then (removeSubdirectory env exF p e).1 else true) <;>
    cases es.all (fun e =>
      if !e.isDir && !exF.contains e.name then env.removeOk (p ++ [e.name]) else true) <;>
    cases ((removeFiles env exF p (removeSubdirectories env exF exD p es).left).left.isEmpty
      && (!p.isEmpty && env.rmdirOk p)) <;> simp
/-! ## Lookups in a rewritten filesystem -/

theorem findEntry_name (n : String) (es : List Node) (e : Node) (h : findEntry n es = some e) :
    e.name = n ∧ e ∈ es := by
  induction es with
  | nil => simp [findEntry] at h
  | cons x rest ih =>
    simp only [findEntry] at h
    split at h
    · rename_i hx
      cases h
      exact ⟨hx, List.mem_cons_self _ _⟩
    · exact ⟨(ih h).1, List.mem_cons_of_mem _ (ih h).2⟩

theorem findEntry_eq_none (n : String) (es : List Node)
    (h : (es.map Node.name).contains n = false) : findEntry n es = none := by
  induction es with
  | nil => rfl
  | cons x rest ih =>
    simp only [List.map_cons, List.contains_cons, Bool.or_eq_false_iff] at h
    have hx : ¬ x.name = n := by
      intro hx
      rw [hx] at h
      simp at h
    simp only [findEntry, hx, if_false]
    exact ih h.2

/-- In a listing with distinct names, the entry with a given name is gone once its
first occurrence is dropped. -/
theorem findEntry_updateEntry_none (n : String) (es : List Node)
    (h : distinctNames (es.map Node.name) = true) :
    findEntry n (updateEntry n (fun _ => none) es) = none := by
  induction es with
  | nil => rfl
  | cons x rest ih =>
    simp only [List.map_cons, distinctNames, Bool.and_eq_true, Bool.not_eq_true'] at h
    by_cases hx : x.name = n
    · simp only [updateEntry, hx, if_true]
      rw [← hx]
      exact findEntry_eq_none _ _ h.1
    · simp only [updateEntry, hx, if_false, findEntry]
      exact ih h.2

/-- The first entry with a given name, after it has been rewritten to an entry of the
same name. -/
theorem findEntry_updateEntry_some (n : String) (f : Node → Option Node) (es : List Node)
    (e e2 : Node) (h : findEntry n es = some e) (hf : f e = some e2) (hn : e2.name = n) :
    findEntry n (updateEntry n f es) = some e2 := by
  induction es with
  | nil => simp [findEntry] at h
  | cons x rest ih =>
    simp only [findEntry] at h
    by_cases hx : x.name = n
    · simp only [hx, if_true, Option.some.injEq] at h
      subst h
      simp only [updateEntry, hx, if_true, hf, findEntry, hn]
    · simp only [hx, if_false] at h
      simp only [updateEntry, hx, if_false, findEntry]
      exact ih h

theorem findEntry_updateEntry_missing (n : String) (f : Node → Option Node) (es : List Node)
    (h : findEntry n es = none) : findEntry n (updateEntry n f es) = none := by
  induction es with
  | nil => rfl
  | cons x xs ihx =>
    simp only [findEntry] at h
    by_cases hx : x.name = n
    · simp [hx] at h
    · simp only [hx, if_false] at h
      simp only [updateEntry, hx, if_false, findEntry]
      exact ihx h

theorem wellFormedList_mem (es : List Node) (h : wellFormedList es = true) (e : Node)
    (he : e ∈ es) : e.wellFormed = true := by
  induction es with
  | nil => simp at he
  | cons x rest ih =>
    simp only [wellFormedList, Bool.and_eq_true] at h
    rcases List.mem_cons.mp he with rfl | h2
    · exact h.1
    · exact ih h.2 h2

theorem descend_dir_name (a a2 : String) (b b2 : Bool) (es : List Node) (q : Path) (hq : q ≠ []) :
    descend (Node.dir a b es) q = descend (Node.dir a2 b2 es) q := by
  cases q with
  | nil => exact absurd rfl hq
  | cons m rest => simp only [descend]

theorem descend_append_none (e : Node) (p q : Path) (h : descend e p = none) :
    descend e (p ++ q) = none := by
  induction p generalizing e with
  | nil => simp [descend] at h
  | cons n rest ih =>
    cases e with
    | file a b c => simp [descend]
    | dir a b es =>
      simp only [List.cons_append, descend] at h ⊢
      cases hf : findEntry n es with
      | none => rfl
      | some c =>
        rw [hf] at h
        exact ih c h

theorem descend_append (e x : Node) (p q : Path) (h : descend e p = some x) :
    descend e (p ++ q) = descend x q := by
  induction p generalizing e with
  | nil =>
    simp only [descend, Option.some.injEq] at h
    subst h
    rfl
  | cons n rest ih =>
    cases e with
    | file a b c => simp [descend] at h
    | dir a b es =>
      simp only [List.cons_append, descend] at h ⊢
      cases hf : findEntry n es with
      | none => rw [hf] at h; simp at h
      | some c =>
        rw [hf] at h
        exact ih c h

/-- In a well-formed filesystem nothing is at a path, nor below it, once the entry at
the path has been dropped. -/
theorem nodeAt_updateAt_none (p q : Path) (hp : p ≠ []) (fs : List Node)
    (hwf : wellFormedFS fs = true) :
    nodeAt (updateAt p (fun _ => none) fs) (p ++ q) = none := by
  apply descend_append_none
  induction p generalizing fs with
  | nil => exact absurd rfl hp
  | cons n rest ih =>
    simp only [wellFormedFS, Bool.and_eq_true] at hwf
    cases rest with
    | nil =>
      simp only [updateAt, descend, findEntry_updateEntry_none n fs hwf.1]
    | cons m rest2 =>
      simp only [updateAt, descend]
      cases hf : findEntry n fs with
      | none =>
        rw [findEntry_updateEntry_missing n _ fs hf]
      | some c =>
        cases c with
        | file d h c2 =>
          rw [findEntry_updateEntry_some n
            (rewriteEntries (updateAt (m :: rest2) (fun _ => none))) fs _
            (Node.file d h c2) hf rfl (findEntry_name n fs _ hf).1]
          simp [descend]
        | dir d h sub =>
          rw [findEntry_updateEntry_some n
            (rewriteEntries (updateAt (m :: rest2) (fun _ => none))) fs _
            (Node.dir d h (updateAt (m :: rest2) (fun _ => none) sub)) hf rfl
            (findEntry_name n fs _ hf).1]
          have hsub := wellFormedList_mem fs hwf.2 _ (findEntry_name n fs _ hf).2
          simp only [Node.wellFormed] at hsub
          have := ih (by simp) sub hsub
          show descend (Node.dir d h _) (m :: rest2) = none
          rw [descend_dir_name d "" h false _ (m :: rest2) (by simp)]
          exact this
/-! ## `removeDirectory`: the aggregate result -/

/-- C6: the value `removeDirectory` returns is the conjunction of the outcomes of all
the deletions it attempted (so a single failed deletion makes it `false`); for an
existing directory it is the conjunction of the results of the recursive calls, of the
outcomes of the file removals and of the outcome of the final `rmdir`; and the paths
it attempts to delete are the same whatever the outcomes are: a failure does not stop
the remaining entries from being attempted. -/
theorem removeDirectory_result_conjunction (env env2 : Env) (fs : List Node) (p : Path)
    (exF exD : List String) :
    (removeDirectory env fs p exF exD).result
        = (removeDirectory env fs p exF exD).trace.all Effect.ok ∧
      (∀ op ∈ (removeDirectory env fs p exF exD).trace, op.ok = false →
        (removeDirectory env fs p exF exD).result = false) ∧
      (∀ n h es, nodeAt fs p = some (Node.dir n h es) →
        (removeDirectory env fs p exF exD).result =
          (es.all (fun e =>
              if e.isDir && !exD.contains e.name then (removeSubdirectory env exF p e).1
              else true)
            && es.all (fun e =>
              if !e.isDir && !exF.contains e.name then env.removeOk (p ++ [e.name]) else true)
            && (removeDirectoryAt env exF exD p es).2.1.isNone)) ∧
      (removeDirectory env2 fs p exF exD).trace.map Effect.target
        = (removeDirectory env fs p exF exD).trace.map Effect.target := by
  have hall : (removeDirectory env fs p exF exD).result
      = (removeDirectory env fs p exF exD).trace.all Effect.ok := by
    simp only [removeDirectory]
    split
    · rfl
    · rfl
    · exact removeDirectoryAt_result env exF exD p _
  refine ⟨hall, ?_, ?_, ?_⟩
  · intro op hop hfalse
    rw [hall]
    cases hc : (removeDirectory env fs p exF exD).trace.all Effect.ok
    · rfl
    · rw [List.all_eq_true] at hc
      rw [hc op hop] at hfalse
      exact absurd hfalse (by decide)
  · intro n h es hdir
    simp only [removeDirectory, hdir]
    exact removeDirectoryAt_conjunction env exF exD p es
  · simp only [removeDirectory]
    split
    · rfl
    · rfl
    · exact removeDirectoryAt_targets env2 env exF exD p _

/-- A call that returned `true` for something that was at the path has removed it. -/
theorem removeDirectoryAt_true (env : Env) (exF exD : List String) (p : Path) (es : List Node)
    (h : (removeDirectoryAt env exF exD p es).1 = true) :
    (removeDirectoryAt env exF exD p es).2.1 = none ∧ p ≠ [] := by
  simp only [removeDirectoryAt, removeFilesAndSelf, Bool.and_eq_true] at h ⊢
  obtain ⟨⟨_, _⟩, h2, h3, h4⟩ := h
  constructor
  · simp [h2, h3, h4]
  · intro hp
    simp [hp] at h3

/-- C7: on a path at which nothing exists, `removeDirectory` returns `true`, leaves
the filesystem as it is and attempts no operation, with any exception lists, and so
does a second call.  Moreover, in a well-formed filesystem, a call that returned
`true` leaves nothing at the path, and a second call returns `true` again, without
attempting anything. -/
theorem removeDirectory_idempotent (env : Env) (fs : List Node) (p : Path)
    (exF exD exF2 exD2 : List String) :
    (nodeAt fs p = none →
        (removeDirectory env fs p exF exD).result = true ∧
        (removeDirectory env fs p exF exD).fs = fs ∧
        (removeDirectory env fs p exF exD).trace = [] ∧
        (removeDirectory env (removeDirectory env fs p exF exD).fs p exF2 exD2).result = true) ∧
      (wellFormedFS fs = true → (removeDirectory env fs p exF exD).result = true →
        nodeAt (removeDirectory env fs p exF exD).fs p = none ∧
        (removeDirectory env (removeDirectory env fs p exF exD).fs p exF2 exD2).result = true ∧
        (removeDirectory env (removeDirectory env fs p exF exD).fs p exF2 exD2).trace = []) := by
  have hmissing : ∀ (fs : List Node) (a b : List String), nodeAt fs p = none →
      removeDirectory env fs p a b = { result := true, fs := fs, trace := [] } := by
    intro fs a b h
    simp only [removeDirectory, h]
  constructor
  · intro h
    rw [hmissing fs exF exD h]
    refine ⟨rfl, rfl, rfl, ?_⟩
    rw [hmissing fs exF2 exD2 h]
  · intro hwf hres
    have hgone : nodeAt (removeDirectory env fs p exF exD).fs p = none := by
      cases hn : nodeAt fs p with
      | none => rw [hmissing fs exF exD hn]; exact hn
      | some e =>
        cases e with
        | file n h c => simp [removeDirectory, hn] at hres
        | dir n h es =>
          simp only [removeDirectory, hn] at hres ⊢
          obtain ⟨h1, h2⟩ := removeDirectoryAt_true env exF exD p es hres
          rw [h1]
          cases p with
          | nil => exact absurd rfl h2
          | cons a rest =>
            simp only [putDirectory]
            have := nodeAt_updateAt_none (a :: rest) [] (by simp) fs hwf
            simpa using this
    refine ⟨hgone, ?_⟩
    rw [hmissing _ exF2 exD2 hgone]
    exact ⟨rfl, rfl⟩
/-- The installation directory of the sample, with an executable that cannot be
deleted. -/
theorem removeDirectory_result_conjunction_witness :
    nodeAt sampleFS ["opt", "app"] = some (Node.dir "app" false sampleInstall) ∧
      (removeDirectory lockedEnv sampleFS ["opt", "app"] ["7za"] ["data"]).result =
        (sampleInstall.all (fun e =>
            if e.isDir && !(["data"].contains e.name) then
              (removeSubdirectory lockedEnv ["7za"] ["opt", "app"] e).1
            else true)
          && sampleInstall.all (fun e =>
            if !e.isDir && !(["7za"].contains e.name) then
              lockedEnv.removeOk (["opt", "app"] ++ [e.name])
            else true)
          && (removeDirectoryAt lockedEnv ["7za"] ["data"] ["opt", "app"]
              sampleInstall).2.1.isNone) :=
  ⟨rfl,
   (removeDirectory_result_conjunction lockedEnv sampleEnv sampleFS ["opt", "app"]
     ["7za"] ["data"]).2.2.1 "app" false sampleInstall rfl⟩

/-- A path of the sample at which nothing exists, and the directory `/tmp` of the
sample, which a first call removes. -/
theorem removeDirectory_idempotent_witness :
    nodeAt sampleFS ["opt", "missing"] = none ∧
      wellFormedFS sampleFS = true ∧
      (removeDirectory sampleEnv sampleFS ["tmp"] [] []).result = true ∧
      ((removeDirectory sampleEnv sampleFS ["opt", "missing"] ["7za"] ["data"]).result = true ∧
        (removeDirectory sampleEnv sampleFS ["opt", "missing"] ["7za"] ["data"]).fs = sampleFS ∧
        (removeDirectory sampleEnv sampleFS ["opt", "missing"] ["7za"] ["data"]).trace = [] ∧
        (removeDirectory sampleEnv
          (removeDirectory sampleEnv sampleFS ["opt", "missing"] ["7za"] ["data"]).fs
          ["opt", "missing"] [] []).result = true) ∧
      (nodeAt (removeDirectory sampleEnv sampleFS ["tmp"] [] []).fs ["tmp"] = none ∧
        (removeDirectory sampleEnv (removeDirectory sampleEnv sampleFS ["tmp"] [] []).fs
          ["tmp"] [] []).result = true ∧
        (removeDirectory sampleEnv (removeDirectory sampleEnv sampleFS ["tmp"] [] []).fs
          ["tmp"] [] []).trace = []) :=
  ⟨rfl, by decide, by decide,
   (removeDirectory_idempotent sampleEnv sampleFS ["opt", "missing"]
     ["7za"] ["data"] [] []).1 rfl,
   (removeDirectory_idempotent sampleEnv sampleFS ["tmp"] [] [] [] []).2
     (by decide) (by decide)⟩
/-! ## `removeDirectory`: the operations attempted -/

theorem removeSubdirectory_dir (env : Env) (exF : List String) (parent : Path) (n : String)
    (h : Bool) (es : List Node) :
    removeSubdirectory env exF parent (Node.dir n h es) =
      ((removeDirectoryAt env exF [] (parent ++ [n]) es).1,
       (removeDirectoryAt env exF [] (parent ++ [n]) es).2.1.map (Node.dir n h),
       (removeDirectoryAt env exF [] (parent ++ [n]) es).2.2) := by
  simp only [removeSubdirectory, removeDirectoryAt]

theorem visitSubdirectory_eq_some (env : Env) (exF exD : List String) (p : Path) (e : Node)
    (r : Bool × Option Node × List Effect) :
    visitSubdirectory env exF exD p e = some r ↔
      (e.isDir = true ∧ exD.contains e.name = false ∧ r = removeSubdirectory env exF p e) := by
  simp only [visitSubdirectory]
  cases hd : e.isDir <;> cases hx : exD.contains e.name <;> simp [eq_comm]

theorem visitSubdirectory_eq_none (env : Env) (exF exD : List String) (p : Path) (e : Node) :
    visitSubdirectory env exF exD p e = none ↔
      (e.isDir = false ∨ exD.contains e.name = true) := by
  simp only [visitSubdirectory]
  cases hd : e.isDir <;> cases hx : exD.contains e.name <;> simp

/-- The operations of the directory pass: those of the recursive calls for the
directories that are not excepted. -/
theorem mem_removeSubdirectories_trace (env : Env) (exF exD : List String) (p : Path)
    (es : List Node) (op : Effect) :
    op ∈ (removeSubdirectories env exF exD p es).trace ↔
      ∃ e ∈ es, e.isDir = true ∧ exD.contains e.name = false ∧
        op ∈ (removeSubdirectory env exF p e).2.2 := by
  rw [removeSubdirectories_trace, List.mem_flatMap]
  constructor
  · rintro ⟨e, he, hop⟩
    cases hv : visitSubdirectory env exF exD p e with
    | none => rw [hv] at hop; simp at hop
    | some r =>
      rw [hv] at hop
      obtain ⟨h1, h2, rfl⟩ := (visitSubdirectory_eq_some env exF exD p e r).mp hv
      exact ⟨e, he, h1, h2, hop⟩
  · rintro ⟨e, he, h1, h2, hop⟩
    refine ⟨e, he, ?_⟩
    rw [(visitSubdirectory_eq_some env exF exD p e _).mpr ⟨h1, h2, rfl⟩]
    exact hop

/-- The operations of the file pass that follows the directory pass: one removal for
each file of the listing that is not excepted. -/
theorem mem_removeFiles_after_trace (env : Env) (exF exD : List String) (p : Path)
    (es : List Node) (op : Effect) :
    op ∈ (removeFiles env exF p (removeSubdirectories env exF exD p es).left).trace ↔
      ∃ e ∈ es, e.isDir = false ∧ exF.contains e.name = false ∧
        op = Effect.removeFile (p ++ [e.name]) (env.removeOk (p ++ [e.name])) := by
  rw [removeFiles_trace, removeSubdirectories_left_files env exF exD p
    (fun e => !exF.contains e.name) es]
  simp only [List.mem_map, List.mem_filter, Bool.and_eq_true, Bool.not_eq_true']
  constructor
  · rintro ⟨e, ⟨he, h1, h2⟩, rfl⟩
    exact ⟨e, he, h1, h2, rfl⟩
  · rintro ⟨e, he, h1, h2, rfl⟩
    exact ⟨e, ⟨he, h1, h2⟩, rfl⟩

/-- The operations of `removeDirectory` on an existing directory. -/
theorem mem_removeDirectoryAt_trace (env : Env) (exF exD : List String) (p : Path)
    (es : List Node) (op : Effect) :
    op ∈ (removeDirectoryAt env exF exD p es).2.2 ↔
      (∃ e ∈ es, e.isDir = true ∧ exD.contains e.name = false ∧
          op ∈ (removeSubdirectory env exF p e).2.2) ∨
        (∃ e ∈ es, e.isDir = false ∧ exF.contains e.name = false ∧
          op = Effect.removeFile (p ++ [e.name]) (env.removeOk (p ++ [e.name]))) ∨
        op = Effect.rmdir p (removeDirectoryAt env exF exD p es).2.1.isNone := by
  have hlast : (removeDirectoryAt env exF exD p es).2.2 =
      (removeSubdirectories env exF exD p es).trace ++
        (removeFiles env exF p (removeSubdirectories env exF exD p es).left).trace ++
        [Effect.rmdir p (removeDirectoryAt env exF exD p es).2.1.isNone] := by
    simp only [removeDirectoryAt, removeFilesAndSelf]
    cases ((removeFiles env exF p (removeSubdirectories env exF exD p es).left).left.isEmpty
      && (!p.isEmpty && env.rmdirOk p)) <;> simp
  rw [hlast, List.mem_append, List.mem_append, mem_removeSubdirectories_trace,
    mem_removeFiles_after_trace, List.mem_singleton, or_assoc]

/-- Every operation of a recursive call is a deletion at or below the directory it is
called for. -/
theorem removeSubdirectory_trace_below (env : Env) (exF : List String) (e : Node) :
    ∀ (parent : Path), ∀ op ∈ (removeSubdirectory env exF parent e).2.2,
      op.isDeletion = true ∧ ∃ t : Path, op.target = parent ++ [e.name] ++ t := by
  induction e using Node.induction_mem with
  | hfile n h c => intro parent op hop; simp [removeSubdirectory] at hop
  | hdir n h es ih =>
    intro parent op hop
    rw [removeSubdirectory_dir] at hop
    rcases (mem_removeDirectoryAt_trace env exF [] (parent ++ [n]) es op).mp hop with
      ⟨e, he, _, _, hop2⟩ | ⟨e, _, _, _, rfl⟩ | rfl
    · obtain ⟨h1, t, ht⟩ := ih e he (parent ++ [n]) op hop2
      exact ⟨h1, [e.name] ++ t, by simp [ht]⟩
    · exact ⟨rfl, [e.name], by simp [Effect.target]⟩
    · exact ⟨rfl, [], by simp [Effect.target]⟩

/-- Every operation of `removeDirectory` on an existing directory is a deletion at or
below it. -/
theorem removeDirectoryAt_trace_below (env : Env) (exF exD : List String) (p : Path)
    (es : List Node) :
    ∀ op ∈ (removeDirectoryAt env exF exD p es).2.2,
      op.isDeletion = true ∧ ∃ t : Path, op.target = p ++ t := by
  intro op hop
  rcases (mem_removeDirectoryAt_trace env exF exD p es op).mp hop with
    ⟨e, he, _, _, hop2⟩ | ⟨e, _, _, _, rfl⟩ | rfl
  · obtain ⟨h1, t, ht⟩ := removeSubdirectory_trace_below env exF e p op hop2
    exact ⟨h1, [e.name] ++ t, by simp [ht]⟩
  · exact ⟨rfl, [e.name], by simp [Effect.target]⟩
  · exact ⟨rfl, [], by simp [Effect.target]⟩
/-! ## `removeDirectory`: the order of the deletions -/

theorem liesBelow_length (a b : Path) (h : liesBelow a b) : a.length < b.length := by
  obtain ⟨t, ht, rfl⟩ := h
  have : 0 < t.length := List.length_pos.mpr ht
  simp only [List.length_append]
  omega

theorem distinctNames_pairwise (l : List String) (h : distinctNames l = true) :
    l.Pairwise (fun a b => a ≠ b) := by
  induction l with
  | nil => exact List.Pairwise.nil
  | cons x xs ih =>
    simp only [distinctNames, Bool.and_eq_true, Bool.not_eq_true'] at h
    refine List.pairwise_cons.mpr ⟨?_, ih h.2⟩
    intro y hy hxy
    subst hxy
    have : xs.contains x = true := by simpa using hy
    rw [this] at h
    exact absurd h.1 (by decide)

theorem removeDirectoryAt_trace_eq (env : Env) (exF exD : List String) (p : Path)
    (es : List Node) :
    (removeDirectoryAt env exF exD p es).2.2 =
      (removeSubdirectories env exF exD p es).trace ++
        ((removeFiles env exF p (removeSubdirectories env exF exD p es).left).trace ++
          [Effect.rmdir p (removeDirectoryAt env exF exD p es).2.1.isNone]) := by
  simp only [removeDirectoryAt, removeFilesAndSelf]
  cases ((removeFiles env exF p (removeSubdirectories env exF exD p es).left).left.isEmpty
    && (!p.isEmpty && env.rmdirOk p)) <;> simp

/-- In a directory whose entries have distinct names, if the deletions of each
recursive call are in order (no deletion is followed by a deletion strictly below its
path), so are the deletions of the whole call. -/
theorem removeDirectoryAt_ordered (env : Env) (exF exD : List String) (p : Path)
    (es : List Node) (hnames : distinctNames (es.map Node.name) = true)
    (hsub : ∀ e ∈ es, (removeSubdirectory env exF p e).2.2.Pairwise
      (fun a b => ¬ liesBelow a.target b.target)) :
    (removeDirectoryAt env exF exD p es).2.2.Pairwise
      (fun a b => ¬ liesBelow a.target b.target) := by
  have hdirs : ∀ x ∈ (removeSubdirectories env exF exD p es).trace,
      p.length + 1 ≤ x.target.length := by
    intro x hx
    obtain ⟨e, _, _, _, hop⟩ := (mem_removeSubdirectories_trace env exF exD p es x).mp hx
    obtain ⟨_, t, ht⟩ := removeSubdirectory_trace_below env exF e p x hop
    rw [ht]
    simp
  have hfiles : ∀ y ∈ (removeFiles env exF p (removeSubdirectories env exF exD p es).left).trace,
      y.target.length = p.length + 1 := by
    intro y hy
    obtain ⟨e, _, _, _, rfl⟩ := (mem_removeFiles_after_trace env exF exD p es y).mp hy
    simp [Effect.target]
  rw [removeDirectoryAt_trace_eq, List.pairwise_append]
  refine ⟨?_, ?_, ?_⟩
  · rw [removeSubdirectories_trace, List.pairwise_flatMap]
    constructor
    · intro e he
      cases hv : visitSubdirectory env exF exD p e with
      | none => exact List.Pairwise.nil
      | some r =>
        obtain ⟨_, _, rfl⟩ := (visitSubdirectory_eq_some env exF exD p e r).mp hv
        exact hsub e he
    · have hp := List.pairwise_map.mp (distinctNames_pairwise _ hnames)
      refine List.Pairwise.imp ?_ hp
      intro a b hab x hx y hy hbelow
      cases hva : visitSubdirectory env exF exD p a with
      | none => rw [hva] at hx; simp at hx
      | some ra =>
        cases hvb : visitSubdirectory env exF exD p b with
        | none => rw [hvb] at hy; simp at hy
        | some rb =>
          rw [hva] at hx
          rw [hvb] at hy
          obtain ⟨_, _, rfl⟩ := (visitSubdirectory_eq_some env exF exD p a ra).mp hva
          obtain ⟨_, _, rfl⟩ := (visitSubdirectory_eq_some env exF exD p b rb).mp hvb
          obtain ⟨_, t1, ht1⟩ := removeSubdirectory_trace_below env exF a p x hx
          obtain ⟨_, t2, ht2⟩ := removeSubdirectory_trace_below env exF b p y hy
          obtain ⟨t, _, ht⟩ := hbelow
          rw [ht1, ht2] at ht
          simp only [List.append_assoc, List.singleton_append, List.cons_append,
            List.append_cancel_left_eq, List.cons.injEq] at ht
          exact hab ht.1.symm
  · rw [List.pairwise_append]
    refine ⟨?_, List.pairwise_singleton _ _, ?_⟩
    · apply List.pairwise_of_forall_mem_list
      intro a ha b hb hbelow
      have := liesBelow_length _ _ hbelow
      rw [hfiles a ha, hfiles b hb] at this
      omega
    · intro a ha b hb hbelow
      rw [List.mem_singleton] at hb
      subst hb
      have := liesBelow_length _ _ hbelow
      rw [hfiles a ha] at this
      simp only [Effect.target] at this
      omega
  · intro a ha b hb hbelow
    have h1 := hdirs a ha
    have h2 := liesBelow_length _ _ hbelow
    rcases List.mem_append.mp hb with hb | hb
    · rw [hfiles b hb] at h2
      omega
    · rw [List.mem_singleton] at hb
      subst hb
      have h3 : a.target.length < p.length := h2
      omega

/-- In a well-formed tree the deletions of a recursive call are in order: no deletion
is followed by a deletion strictly below its path. -/
theorem removeSubdirectory_ordered (env : Env) (exF : List String) (e : Node) :
    e.wellFormed = true → ∀ parent : Path,
      (removeSubdirectory env exF parent e).2.2.Pairwise
        (fun a b => ¬ liesBelow a.target b.target) := by
  induction e using Node.induction_mem with
  | hfile n h c => intro _ parent; simp [removeSubdirectory]
  | hdir n h es ih =>
    intro hwf parent
    simp only [Node.wellFormed, Bool.and_eq_true] at hwf
    rw [removeSubdirectory_dir]
    exact removeDirectoryAt_ordered env exF [] (parent ++ [n]) es hwf.1
      (fun e he => ih e he (wellFormedList_mem es hwf.2 e he) _)
/-! ## `removeDirectory`: what is attempted and what is removed -/

/-- The deletion of everything that is reached through an entry of the listing that
is not an excepted directory is attempted, if this holds for the recursive calls. -/
theorem removeDirectoryAt_attempts (env : Env) (exF exD : List String) (p : Path)
    (es : List Node)
    (hsub : ∀ c ∈ es, c.isDir = true → ∀ (q : Path) (x : Node), descend c q = some x →
      (x.isDir = true ∨ exF.contains x.name = false) →
      ∃ ok, x.deletion (p ++ [c.name] ++ q) ok ∈ (removeSubdirectory env exF p c).2.2)
    (m : String) (rest : Path) (c x : Node) (hc : findEntry m es = some c)
    (hx : descend c rest = some x) (hcond : x.isDir = true ∨ exF.contains x.name = false)
    (hex : c.isDir = true → exD.contains c.name = false) :
    ∃ ok, x.deletion (p ++ m :: rest) ok ∈ (removeDirectoryAt env exF exD p es).2.2 := by
  obtain ⟨hname, hmem⟩ := findEntry_name m es c hc
  cases hd : c.isDir
  · cases c with
    | dir a b sub => simp at hd
    | file a b content =>
      cases rest with
      | cons r rs => simp [descend] at hx
      | nil =>
        simp only [descend, Option.some.injEq] at hx
        subst hx
        simp only [Node.isDir_file, Bool.false_eq_true, false_or, Node.name_file] at hcond
        simp only [Node.name_file] at hname
        subst hname
        refine ⟨env.removeOk (p ++ [a]), ?_⟩
        rw [mem_removeDirectoryAt_trace]
        right; left
        exact ⟨Node.file a b content, hmem, rfl, hcond, by simp [Node.deletion]⟩
  · obtain ⟨ok, hok⟩ := hsub c hmem hd rest x hx hcond
    refine ⟨ok, ?_⟩
    rw [mem_removeDirectoryAt_trace]
    left
    refine ⟨c, hmem, hd, hex hd, ?_⟩
    rw [hname] at hok
    simpa using hok

/-- A recursive call attempts the deletion of the directory it is called for and of
every entry below it: of the directories whatever their names are, and of the files
whose names are not excepted. -/
theorem removeSubdirectory_attempts (env : Env) (exF : List String) (e : Node) :
    e.isDir = true → ∀ (parent q : Path) (x : Node), descend e q = some x →
      (x.isDir = true ∨ exF.contains x.name = false) →
      ∃ ok, x.deletion (parent ++ [e.name] ++ q) ok
        ∈ (removeSubdirectory env exF parent e).2.2 := by
  induction e using Node.induction_mem with
  | hfile n h c => intro hd; simp at hd
  | hdir n h es ih =>
    intro _ parent q x hx hcond
    rw [removeSubdirectory_dir]
    cases q with
    | nil =>
      simp only [descend, Option.some.injEq] at hx
      subst hx
      refine ⟨(removeDirectoryAt env exF [] (parent ++ [n]) es).2.1.isNone, ?_⟩
      rw [mem_removeDirectoryAt_trace]
      right; right
      simp [Node.deletion]
    | cons m rest =>
      simp only [descend] at hx
      cases hc : findEntry m es with
      | none => rw [hc] at hx; simp at hx
      | some c =>
        rw [hc] at hx
        have := removeDirectoryAt_attempts env exF [] (parent ++ [n]) es
          (fun c hcm hcd q x hq hcx => ih c hcm hcd (parent ++ [n]) q x hq hcx)
          m rest c x hc hx hcond (fun _ => rfl)
        simpa using this

theorem holdsExceptedList_mem (exF : List String) (es : List Node)
    (h : holdsExceptedList exF es = false) (e : Node) (he : e ∈ es) :
    e.holdsExcepted exF = false := by
  induction es with
  | nil => simp at he
  | cons x rest ih =>
    simp only [holdsExceptedList, Bool.or_eq_false_iff] at h
    rcases List.mem_cons.mp he with rfl | h2
    · exact h.1
    · exact ih h.2 h2

/-- A directory that holds no excepted file and no excepted directory among its
entries is removed with everything in it when the deletions at and below its path
succeed, if this holds for the recursive calls. -/
theorem removeDirectoryAt_removed (env : Env) (exF exD : List String) (p : Path)
    (es : List Node) (hp : p ≠ [])
    (hfiles : holdsExceptedList exF es = false)
    (hdirs : ∀ c ∈ es, c.isDir = true → exD.contains c.name = false)
    (hrm : ∀ q : Path, env.removeOk (p ++ q) = true)
    (hrmdir : ∀ q : Path, env.rmdirOk (p ++ q) = true)
    (hsub : ∀ c ∈ es, c.isDir = true →
      (removeSubdirectory env exF p c).1 = true ∧ (removeSubdirectory env exF p c).2.1 = none) :
    (removeDirectoryAt env exF exD p es).1 = true ∧
      (removeDirectoryAt env exF exD p es).2.1 = none := by
  have hleft : (removeFiles env exF p (removeSubdirectories env exF exD p es).left).left = [] := by
    rw [removeFiles_left, List.filter_eq_nil_iff]
    intro e he
    rw [removeSubdirectories_left, List.mem_filterMap] at he
    obtain ⟨a, ha, hg⟩ := he
    cases hv : visitSubdirectory env exF exD p a with
    | none =>
      rw [hv] at hg
      simp only [Option.some.injEq] at hg
      subst hg
      rcases (visitSubdirectory_eq_none env exF exD p a).mp hv with hd | hx
      · have hex := holdsExceptedList_mem exF es hfiles a ha
        cases a with
        | dir n h sub => simp at hd
        | file n h c =>
          simp only [Node.holdsExcepted] at hex
          show ¬ ((false || exF.contains n || !env.removeOk (p ++ [n])) = true)
          rw [hex, hrm [n]]
          decide
      · cases hd : a.isDir
        · have hex := holdsExceptedList_mem exF es hfiles a ha
          cases a with
          | dir n h sub => simp at hd
          | file n h c =>
            simp only [Node.holdsExcepted] at hex
            show ¬ ((false || exF.contains n || !env.removeOk (p ++ [n])) = true)
            rw [hex, hrm [n]]
            decide
        · rw [hdirs a ha hd] at hx
          exact absurd hx (by decide)
    | some r =>
      rw [hv] at hg
      obtain ⟨hd, _, rfl⟩ := (visitSubdirectory_eq_some env exF exD p a r).mp hv
      change (removeSubdirectory env exF p a).2.1 = some e at hg
      rw [(hsub a ha hd).2] at hg
      exact absurd hg (by simp)
  have hnone : (removeDirectoryAt env exF exD p es).2.1 = none := by
    have h0 := hrmdir []
    rw [List.append_nil] at h0
    simp only [removeDirectoryAt, removeFilesAndSelf, hleft, h0]
    cases p with
    | nil => exact absurd rfl hp
    | cons a rest => rfl
  refine ⟨?_, hnone⟩
  rw [removeDirectoryAt_conjunction, hnone]
  simp only [Option.isNone_none, Bool.and_true, Bool.and_eq_true, List.all_eq_true]
  constructor
  · intro e he
    split
    · rename_i hc
      exact (hsub e he hc.1).1
    · rfl
  · intro e he
    split
    · exact hrm [e.name]
    · rfl

/-- A recursive call removes the directory with everything in it when the directory
holds no excepted file and the deletions at and below its path succeed. -/
theorem removeSubdirectory_removed (env : Env) (exF : List String) (e : Node) :
    e.isDir = true → e.holdsExcepted exF = false → ∀ parent : Path,
      (∀ q : Path, env.removeOk (parent ++ [e.name] ++ q) = true) →
      (∀ q : Path, env.rmdirOk (parent ++ [e.name] ++ q) = true) →
      (removeSubdirectory env exF parent e).1 = true ∧
        (removeSubdirectory env exF parent e).2.1 = none := by
  induction e using Node.induction_mem with
  | hfile n h c => intro hd; simp at hd
  | hdir n h es ih =>
    intro _ hex parent hrm hrmdir
    simp only [Node.holdsExcepted] at hex
    simp only [Node.name_dir] at hrm hrmdir
    rw [removeSubdirectory_dir]
    have := removeDirectoryAt_removed env exF [] (parent ++ [n]) es (by simp) hex
      (fun _ _ _ => rfl) hrm hrmdir
      (fun c hc hcd => ih c hc hcd (holdsExceptedList_mem exF es hex c hc) (parent ++ [n])
        (fun q => by simpa using hrm ([c.name] ++ q))
        (fun q => by simpa using hrmdir ([c.name] ++ q)))
    simp [this.1, this.2]
theorem holdsExcepted_nil : (∀ e : Node, e.holdsExcepted [] = false) ∧
    (∀ es : List Node, holdsExceptedList [] es = false) :=
  Node.induction_on (P := fun e => e.holdsExcepted [] = false)
    (Q := fun es => holdsExceptedList [] es = false)
    (fun _ _ _ => rfl)
    (fun _ _ _ h => by simpa only [Node.holdsExcepted] using h)
    rfl
    (fun e es he hes => by simp only [holdsExceptedList, he, hes, Bool.or_self])

theorem descend_wellFormed (e : Node) (q : Path) (x : Node) (hwf : e.wellFormed = true)
    (h : descend e q = some x) : x.wellFormed = true := by
  induction q generalizing e with
  | nil =>
    simp only [descend, Option.some.injEq] at h
    subst h
    exact hwf
  | cons m rest ih =>
    cases e with
    | file a b c => simp [descend] at h
    | dir a b es =>
      simp only [descend] at h
      cases hc : findEntry m es with
      | none => rw [hc] at h; simp at h
      | some c =>
        rw [hc] at h
        simp only [Node.wellFormed, Bool.and_eq_true] at hwf
        exact ih c (wellFormedList_mem es hwf.2 c (findEntry_name m es c hc).2) h

theorem Node.deletion_ok (x : Node) (p : Path) (ok : Bool) : (x.deletion p ok).ok = ok := by
  simp only [Node.deletion]
  split <;> rfl

theorem Node.deletion_target (x : Node) (p : Path) (ok : Bool) : (x.deletion p ok).target = p := by
  simp only [Node.deletion]
  split <;> rfl

/-- C5: in a well-formed filesystem, for a directory at a path other than the root and
with empty exception lists, if the operating system lets every file and every
directory at and below the path be deleted, `removeDirectory` returns `true`;
afterwards nothing is at the path or below it; every entry that was at or below the
path has been deleted by an operation of the call; and no deletion is followed by a
deletion strictly below its path, so that everything in a directory is deleted before
the directory itself. -/
theorem removeDirectory_removes_tree (env : Env) (fs : List Node) (p : Path)
    (n : String) (h : Bool) (es : List Node)
    (hwf : wellFormedFS fs = true) (hp : p ≠ [])
    (hdir : nodeAt fs p = some (Node.dir n h es))
    (hrm : ∀ q : Path, env.removeOk (p ++ q) = true)
    (hrmdir : ∀ q : Path, env.rmdirOk (p ++ q) = true) :
    (removeDirectory env fs p [] []).result = true ∧
      (∀ q : Path, nodeAt (removeDirectory env fs p [] []).fs (p ++ q) = none) ∧
      (∀ (q : Path) (x : Node), nodeAt fs (p ++ q) = some x →
        x.deletion (p ++ q) true ∈ (removeDirectory env fs p [] []).trace) ∧
      (removeDirectory env fs p [] []).trace.Pairwise
        (fun a b => ¬ liesBelow a.target b.target) := by
  have hnode : (Node.dir n h es).wellFormed = true :=
    descend_wellFormed (Node.dir "" false fs) p _ hwf hdir
  simp only [Node.wellFormed, Bool.and_eq_true] at hnode
  have hremoved := removeDirectoryAt_removed env [] [] p es hp (holdsExcepted_nil.2 es)
    (fun _ _ _ => rfl) hrm hrmdir
    (fun c _ hcd => removeSubdirectory_removed env [] c hcd (holdsExcepted_nil.1 c) p
      (fun q => by simpa using hrm ([c.name] ++ q))
      (fun q => by simpa using hrmdir ([c.name] ++ q)))
  have hall := removeDirectoryAt_result env [] [] p es
  rw [hremoved.1] at hall
  have hok : ∀ op ∈ (removeDirectoryAt env [] [] p es).2.2, op.ok = true :=
    List.all_eq_true.mp hall.symm
  simp only [removeDirectory, hdir]
  refine ⟨hremoved.1, ?_, ?_, ?_⟩
  · intro q
    rw [hremoved.2]
    cases p with
    | nil => exact absurd rfl hp
    | cons a rest => exact nodeAt_updateAt_none (a :: rest) q (by simp) fs hwf
  · intro q x hx
    have hx2 : descend (Node.dir n h es) q = some x := by
      rw [← descend_append (Node.dir "" false fs) (Node.dir n h es) p q hdir]
      exact hx
    cases q with
    | nil =>
      simp only [descend, Option.some.injEq] at hx2
      subst hx2
      rw [mem_removeDirectoryAt_trace]
      right; right
      simp [Node.deletion, hremoved.2]
    | cons m rest =>
      simp only [descend] at hx2
      cases hc : findEntry m es with
      | none => rw [hc] at hx2; simp at hx2
      | some c =>
        rw [hc] at hx2
        obtain ⟨ok, hmem⟩ := removeDirectoryAt_attempts env [] [] p es
          (fun c _ hcd q x hq hcx => removeSubdirectory_attempts env [] c hcd p q x hq hcx)
          m rest c x hc hx2 (Or.inr rfl) (fun _ => rfl)
        have := hok _ hmem
        rw [Node.deletion_ok] at this
        subst this
        exact hmem
  · exact removeDirectoryAt_ordered env [] [] p es hnode.1
      (fun e he => removeSubdirectory_ordered env [] e (wellFormedList_mem es hnode.2 e he) p)

/-- The directory `/opt` of the sample, which holds the installation. -/
theorem removeDirectory_removes_tree_witness :
    wellFormedFS sampleFS = true ∧
      nodeAt sampleFS ["opt"] = some (Node.dir "opt" false [Node.dir "app" false sampleInstall]) ∧
      ((removeDirectory sampleEnv sampleFS ["opt"] [] []).result = true ∧
        (∀ q : Path, nodeAt (removeDirectory sampleEnv sampleFS ["opt"] [] []).fs
          (["opt"] ++ q) = none) ∧
        (∀ (q : Path) (x : Node), nodeAt sampleFS (["opt"] ++ q) = some x →
          x.deletion (["opt"] ++ q) true
            ∈ (removeDirectory sampleEnv sampleFS ["opt"] [] []).trace) ∧
        (removeDirectory sampleEnv sampleFS ["opt"] [] []).trace.Pairwise
          (fun a b => ¬ liesBelow a.target b.target)) :=
  ⟨by decide, rfl,
   removeDirectory_removes_tree sampleEnv sampleFS ["opt"] "opt" false
     [Node.dir "app" false sampleInstall] (by decide) (by simp) rfl
     (fun _ => rfl) (fun _ => rfl)⟩
/-! ## `removeDirectory`: what is kept -/

theorem distinctNames_unique (es : List Node) (h : distinctNames (es.map Node.name) = true)
    (a b : Node) (ha : a ∈ es) (hb : b ∈ es) (hab : a.name = b.name) : a = b := by
  induction es with
  | nil => simp at ha
  | cons x rest ih =>
    simp only [List.map_cons, distinctNames, Bool.and_eq_true, Bool.not_eq_true'] at h
    have hnot : ∀ y ∈ rest, y.name ≠ x.name := by
      intro y hy hyx
      have : (rest.map Node.name).contains x.name = true := by
        simp only [List.contains_iff_exists_mem_beq, List.mem_map, beq_iff_eq]
        exact ⟨y.name, ⟨y, hy, rfl⟩, hyx.symm⟩
      rw [this] at h
      exact absurd h.1 (by decide)
    rcases List.mem_cons.mp ha with rfl | ha2
    · rcases List.mem_cons.mp hb with rfl | hb2
      · rfl
      · exact absurd hab.symm (hnot b hb2)
    · rcases List.mem_cons.mp hb with rfl | hb2
      · exact absurd hab (hnot a ha2)
      · exact ih h.2 ha2 hb2

theorem findEntry_of_mem (es : List Node) (h : distinctNames (es.map Node.name) = true)
    (e : Node) (he : e ∈ es) : findEntry e.name es = some e := by
  cases hf : findEntry e.name es with
  | none =>
    exfalso
    clear h
    induction es with
    | nil => simp at he
    | cons x rest ih =>
      simp only [findEntry] at hf
      by_cases hx : x.name = e.name
      · simp [hx] at hf
      · simp only [hx, if_false] at hf
        rcases List.mem_cons.mp he with rfl | h2
        · exact hx rfl
        · exact ih h2 hf
  | some c =>
    obtain ⟨h1, h2⟩ := findEntry_name _ es c hf
    rw [distinctNames_unique es h c e h2 he h1]

theorem findEntry_filterMap (k : String) (g : Node → Option Node) (es : List Node)
    (hg : ∀ a b, g a = some b → b.name = a.name) (e e2 : Node)
    (h : findEntry k es = some e) (he : g e = some e2) :
    findEntry k (es.filterMap g) = some e2 := by
  induction es with
  | nil => simp [findEntry] at h
  | cons x rest ih =>
    simp only [findEntry] at h
    by_cases hx : x.name = k
    · simp only [hx, if_true, Option.some.injEq] at h
      subst h
      simp only [List.filterMap_cons, he, findEntry, hg x e2 he, hx, if_true]
    · simp only [hx, if_false] at h
      simp only [List.filterMap_cons]
      cases hgx : g x with
      | none => exact ih h
      | some b =>
        have hb : ¬ b.name = k := by rw [hg x b hgx]; exact hx
        simp only [findEntry, hb, if_false]
        exact ih h

theorem findEntry_filter (k : String) (f : Node → Bool) (es : List Node) (e : Node)
    (h : findEntry k es = some e) (he : f e = true) :
    findEntry k (es.filter f) = some e := by
  induction es with
  | nil => simp [findEntry] at h
  | cons x rest ih =>
    simp only [findEntry] at h
    by_cases hx : x.name = k
    · simp only [hx, if_true, Option.some.injEq] at h
      subst h
      simp only [List.filter_cons, he, if_true, findEntry, hx]
    · simp only [hx, if_false] at h
      simp only [List.filter_cons]
      cases hfx : f x
      · simpa using ih h
      · simp only [if_true, findEntry, hx, if_false]
        exact ih h

/-- The entry at a path, after it has been rewritten to an entry of the same name. -/
theorem descend_updateAt (p : Path) (hp : p ≠ []) (f : Node → Option Node) (e e2 : Node)
    (hf : f e = some e2) (hn : e2.name = e.name) :
    ∀ (a : String) (b : Bool) (fs : List Node), descend (Node.dir a b fs) p = some e →
      descend (Node.dir a b (updateAt p f fs)) p = some e2 := by
  induction p with
  | nil => exact absurd rfl hp
  | cons m rest ih =>
    intro a b fs h
    simp only [descend] at h
    cases hc : findEntry m fs with
    | none => rw [hc] at h; simp at h
    | some c =>
      rw [hc] at h
      cases rest with
      | nil =>
        simp only [descend, Option.some.injEq] at h
        subst h
        simp only [updateAt, descend]
        rw [findEntry_updateEntry_some m f fs c e2 hc hf
          (by rw [hn]; exact (findEntry_name m fs c hc).1)]
      | cons m2 rest2 =>
        cases c with
        | file d hh content => simp [descend] at h
        | dir d hh sub =>
          simp only [updateAt, descend]
          rw [findEntry_updateEntry_some m (rewriteEntries (updateAt (m2 :: rest2) f)) fs
            (Node.dir d hh sub) (Node.dir d hh (updateAt (m2 :: rest2) f sub)) hc rfl
            (findEntry_name m fs _ hc).1]
          exact ih (by simp) d hh sub h

/-- The directory at a path after `removeDirectory` has left some of its entries. -/
theorem nodeAt_putDirectory_some (fs : List Node) (p : Path) (n : String) (h : Bool)
    (es left : List Node) (hdir : nodeAt fs p = some (Node.dir n h es)) :
    nodeAt (putDirectory fs p (some left)) p = some (Node.dir n h left) := by
  cases p with
  | nil =>
    simp only [nodeAt, descend, Option.some.injEq, Node.dir.injEq] at hdir
    obtain ⟨rfl, rfl, rfl⟩ := hdir
    rfl
  | cons a rest =>
    simp only [putDirectory]
    exact descend_updateAt (a :: rest) (by simp) (rewriteEntries (fun _ => left))
      (Node.dir n h es) (Node.dir n h left) rfl rfl "" false fs hdir
/-- What the directory pass leaves of an entry has the name of the entry. -/
theorem visitSubdirectory_left_name (env : Env) (exF exD : List String) (p : Path) (a b : Node)
    (h : (match visitSubdirectory env exF exD p a with
      | none => some a
      | some r => r.2.1) = some b) : b.name = a.name := by
  cases hv : visitSubdirectory env exF exD p a with
  | none =>
    rw [hv] at h
    simp only [Option.some.injEq] at h
    rw [h]
  | some r =>
    rw [hv] at h
    obtain ⟨hd, _, rfl⟩ := (visitSubdirectory_eq_some env exF exD p a r).mp hv
    exact (removeSubdirectory_left_dir env exF p a b hd h).2

/-- The entries `removeDirectory` leaves in a directory: each is an excepted or
undeletable file of the listing, an excepted directory of the listing, or what a
recursive call left of a directory of the listing. -/
theorem mem_removeDirectoryAt_left (env : Env) (exF exD : List String) (p : Path)
    (es : List Node) (e : Node)
    (he : e ∈ (removeFiles env exF p (removeSubdirectories env exF exD p es).left).left) :
    ∃ a ∈ es, e.name = a.name ∧
      ((a.isDir = false ∧ e = a ∧
          (exF.contains a.name = true ∨ env.removeOk (p ++ [a.name]) = false)) ∨
        (a.isDir = true ∧ exD.contains a.name = true ∧ e = a) ∨
        (a.isDir = true ∧ exD.contains a.name = false ∧
          (removeSubdirectory env exF p a).2.1 = some e)) := by
  rw [removeFiles_left, List.mem_filter, removeSubdirectories_left, List.mem_filterMap] at he
  obtain ⟨⟨a, ha, hg⟩, hP⟩ := he
  refine ⟨a, ha, visitSubdirectory_left_name env exF exD p a e hg, ?_⟩
  cases hv : visitSubdirectory env exF exD p a with
  | none =>
    rw [hv] at hg
    simp only [Option.some.injEq] at hg
    subst hg
    cases hd : a.isDir
    · left
      refine ⟨rfl, rfl, ?_⟩
      rw [hd] at hP
      revert hP
      cases exF.contains a.name <;> cases env.removeOk (p ++ [a.name]) <;> simp
    · right; left
      rcases (visitSubdirectory_eq_none env exF exD p a).mp hv with h1 | h1
      · rw [hd] at h1; exact absurd h1 (by decide)
      · exact ⟨rfl, h1, rfl⟩
  | some r =>
    rw [hv] at hg
    obtain ⟨hd, hx, rfl⟩ := (visitSubdirectory_eq_some env exF exD p a r).mp hv
    right; right
    exact ⟨hd, hx, hg⟩

/-- A file of the listing whose name is excepted is left in the directory, and is the
entry found under its name. -/
theorem removeDirectoryAt_keeps_file (env : Env) (exF exD : List String) (p : Path)
    (es : List Node) (k : String) (hk : Bool) (content : String)
    (hfind : findEntry k es = some (Node.file k hk content))
    (hex : exF.contains k = true) :
    findEntry k (removeFiles env exF p (removeSubdirectories env exF exD p es).left).left
      = some (Node.file k hk content) := by
  rw [removeFiles_left, removeSubdirectories_left]
  apply findEntry_filter
  · apply findEntry_filterMap k _ es (visitSubdirectory_left_name env exF exD p) _ _ hfind
    rw [(visitSubdirectory_eq_none env exF exD p (Node.file k hk content)).mpr (Or.inl rfl)]
  · simp only [Node.isDir_file, Node.name_file, hex, Bool.false_or, Bool.true_or]

/-- The directory is not removed, and `removeDirectory` returns `false`, when an entry
is left in it. -/
theorem removeDirectoryAt_nonempty (env : Env) (exF exD : List String) (p : Path)
    (es : List Node)
    (h : (removeFiles env exF p (removeSubdirectories env exF exD p es).left).left ≠ []) :
    (removeDirectoryAt env exF exD p es).1 = false ∧
      (removeDirectoryAt env exF exD p es).2.1
        = some (removeFiles env exF p (removeSubdirectories env exF exD p es).left).left := by
  have hne : (removeFiles env exF p (removeSubdirectories env exF exD p es).left).left.isEmpty
      = false := by
    cases hl : (removeFiles env exF p (removeSubdirectories env exF exD p es).left).left with
    | nil => exact absurd hl h
    | cons x xs => rfl
  simp only [removeDirectoryAt, removeFilesAndSelf, hne, Bool.false_and, Bool.and_false,
    Bool.false_eq_true, if_false, and_self]
/-- C8: for a directory whose entries have distinct names and which directly holds a
file `k` whose name is in the file-exception list, `removeDirectory` returns `false`
and does not remove the directory: the directory is still at its path, the file `k` is
in it with the contents it had, and no operation was aimed at the file.  Every sibling
file that is not excepted and whose removal the operating system allows is gone, and
so is every sibling directory that is not in the directory-exception list (which is
empty in the call of the claim), holds no excepted file, and below which the removals
are allowed. -/
theorem removeDirectory_keeps_excepted_file (env : Env) (fs : List Node) (p : Path)
    (n : String) (h : Bool) (es : List Node) (exF exD : List String)
    (k : String) (hk : Bool) (content : String)
    (hdir : nodeAt fs p = some (Node.dir n h es))
    (hnames : distinctNames (es.map Node.name) = true)
    (hfile : Node.file k hk content ∈ es)
    (hex : exF.contains k = true) :
    (removeDirectory env fs p exF exD).result = false ∧
      nodeAt (removeDirectory env fs p exF exD).fs (p ++ [k])
        = some (Node.file k hk content) ∧
      (∀ op ∈ (removeDirectory env fs p exF exD).trace, op.target ≠ p ++ [k]) ∧
      ∃ left : List Node,
        nodeAt (removeDirectory env fs p exF exD).fs p = some (Node.dir n h left) ∧
        Node.file k hk content ∈ left ∧
        (∀ (m : String) (hm : Bool) (c : String), Node.file m hm c ∈ es →
          exF.contains m = false → env.removeOk (p ++ [m]) = true →
          ∀ e ∈ left, e.name ≠ m) ∧
        (∀ (m : String) (hm : Bool) (sub : List Node), Node.dir m hm sub ∈ es →
          exD.contains m = false → holdsExceptedList exF sub = false →
          (∀ q : Path, env.removeOk (p ++ [m] ++ q) = true) →
          (∀ q : Path, env.rmdirOk (p ++ [m] ++ q) = true) →
          ∀ e ∈ left, e.name ≠ m) := by
  have hfind : findEntry k es = some (Node.file k hk content) :=
    findEntry_of_mem es hnames (Node.file k hk content) hfile
  have hkept := removeDirectoryAt_keeps_file env exF exD p es k hk content hfind hex
  have hmem := (findEntry_name k _ _ hkept).2
  have hne : (removeFiles env exF p (removeSubdirectories env exF exD p es).left).left ≠ [] :=
    List.ne_nil_of_mem hmem
  obtain ⟨hres, hleft⟩ := removeDirectoryAt_nonempty env exF exD p es hne
  have hat : nodeAt (removeDirectory env fs p exF exD).fs p = some (Node.dir n h
      (removeFiles env exF p (removeSubdirectories env exF exD p es).left).left) := by
    simp only [removeDirectory, hdir, hleft]
    exact nodeAt_putDirectory_some fs p n h es _ hdir
  refine ⟨?_, ?_, ?_, _, hat, hmem, ?_, ?_⟩
  · simp only [removeDirectory, hdir, hres]
  · rw [nodeAt, descend_append _ _ p [k] hat]
    simp only [descend, hkept]
  · intro op hop
    simp only [removeDirectory, hdir] at hop
    rcases (mem_removeDirectoryAt_trace env exF exD p es op).mp hop with
      ⟨c, hc, hcd, _, hop2⟩ | ⟨c, hc, _, hcx, rfl⟩ | rfl
    · obtain ⟨_, t, ht⟩ := removeSubdirectory_trace_below env exF c p op hop2
      intro heq
      rw [ht, List.append_assoc, List.append_cancel_left_eq] at heq
      simp only [List.singleton_append, List.cons.injEq] at heq
      have := distinctNames_unique es hnames c _ hc hfile heq.1
      rw [this] at hcd
      exact absurd hcd (by simp)
    · intro heq
      simp only [Effect.target, List.append_cancel_left_eq, List.cons.injEq, and_true] at heq
      rw [heq, hex] at hcx
      exact absurd hcx (by decide)
    · intro heq
      have := congrArg List.length heq
      simp [Effect.target] at this
  · intro m hm c hmem2 hmx hmrm e he hname
    obtain ⟨a, ha, hn, hcases⟩ := mem_removeDirectoryAt_left env exF exD p es e he
    have hEq := distinctNames_unique es hnames a _ ha hmem2 (by rw [← hn, hname]; rfl)
    subst hEq
    rcases hcases with ⟨_, _, h1 | h1⟩ | ⟨h1, _⟩ | ⟨h1, _⟩
    · rw [Node.name_file, hmx] at h1; exact absurd h1 (by decide)
    · rw [Node.name_file, hmrm] at h1; exact absurd h1 (by decide)
    · exact absurd h1 (by simp)
    · exact absurd h1 (by simp)
  · intro m hm sub hmem2 hmx hsub hrm hrmdir e he hname
    obtain ⟨a, ha, hn, hcases⟩ := mem_removeDirectoryAt_left env exF exD p es e he
    have hEq := distinctNames_unique es hnames a _ ha hmem2 (by rw [← hn, hname]; rfl)
    subst hEq
    rcases hcases with ⟨h1, _⟩ | ⟨_, h1, _⟩ | ⟨_, _, h1⟩
    · exact absurd h1 (by simp)
    · rw [Node.name_dir, hmx] at h1; exact absurd h1 (by decide)
    · have := (removeSubdirectory_removed env exF (Node.dir m hm sub) rfl hsub p hrm hrmdir).2
      rw [this] at h1
      exact absurd h1 (by simp)
/-- The working directory of the sample, with the file-exception list `keep.txt`. -/
theorem removeDirectory_keeps_excepted_file_witness :
    nodeAt keepFS ["work"] = some (Node.dir "work" false keepEntries) ∧
      distinctNames (keepEntries.map Node.name) = true ∧
      Node.file "keep.txt" false "kept" ∈ keepEntries ∧
      ["keep.txt"].contains "keep.txt" = true ∧
      ((removeDirectory sampleEnv keepFS ["work"] ["keep.txt"] []).result = false ∧
        nodeAt (removeDirectory sampleEnv keepFS ["work"] ["keep.txt"] []).fs
          (["work"] ++ ["keep.txt"]) = some (Node.file "keep.txt" false "kept") ∧
        (∀ op ∈ (removeDirectory sampleEnv keepFS ["work"] ["keep.txt"] []).trace,
          op.target ≠ ["work"] ++ ["keep.txt"]) ∧
        ∃ left : List Node,
          nodeAt (removeDirectory sampleEnv keepFS ["work"] ["keep.txt"] []).fs ["work"]
            = some (Node.dir "work" false left) ∧
          Node.file "keep.txt" false "kept" ∈ left ∧
          (∀ (m : String) (hm : Bool) (c : String), Node.file m hm c ∈ keepEntries →
            ["keep.txt"].contains m = false → sampleEnv.removeOk (["work"] ++ [m]) = true →
            ∀ e ∈ left, e.name ≠ m) ∧
          (∀ (m : String) (hm : Bool) (sub : List Node), Node.dir m hm sub ∈ keepEntries →
            ([] : List String).contains m = false → holdsExceptedList ["keep.txt"] sub = false →
            (∀ q : Path, sampleEnv.removeOk (["work"] ++ [m] ++ q) = true) →
            (∀ q : Path, sampleEnv.rmdirOk (["work"] ++ [m] ++ q) = true) →
            ∀ e ∈ left, e.name ≠ m)) :=
  ⟨rfl, by decide, List.mem_cons_self _ _, by decide,
   removeDirectory_keeps_excepted_file sampleEnv keepFS ["work"] "work" false keepEntries
     ["keep.txt"] [] "keep.txt" false "kept" rfl (by decide) (List.mem_cons_self _ _)
     (by decide)⟩
/-- The entry found under a name in what `removeDirectory` leaves of a listing, when
the directory pass leaves `c2` of the entry `c` found under the name before, and the
file pass keeps `c2`. -/
theorem findEntry_removeDirectoryAt_left (env : Env) (exF exD : List String) (p : Path)
    (es : List Node) (m : String) (c c2 : Node) (hc : findEntry m es = some c)
    (hg : (match visitSubdirectory env exF exD p c with
      | none => some c
      | some r => r.2.1) = some c2)
    (hkeep : (c2.isDir || exF.contains c2.name || !env.removeOk (p ++ [c2.name])) = true) :
    findEntry m (removeFiles env exF p (removeSubdirectories env exF exD p es).left).left
      = some c2 := by
  rw [removeFiles_left, removeSubdirectories_left]
  apply findEntry_filter
  · exact findEntry_filterMap m _ es (visitSubdirectory_left_name env exF exD p) c c2 hc hg
  · exact hkeep

/-- A file with an excepted name that is reached through an entry of the listing is
reached in the same way afterwards, if this holds for the recursive calls. -/
theorem removeDirectoryAt_keeps_below (env : Env) (exF exD : List String) (p : Path)
    (es : List Node)
    (hsub : ∀ c ∈ es, c.isDir = true → ∀ (q : Path) (k : String) (hk : Bool) (content : String),
      descend c q = some (Node.file k hk content) → exF.contains k = true →
      ∃ c2, (removeSubdirectory env exF p c).2.1 = some c2 ∧
        descend c2 q = some (Node.file k hk content))
    (m : String) (rest : Path) (c : Node) (k : String) (hk : Bool) (content : String)
    (hc : findEntry m es = some c) (hx : descend c rest = some (Node.file k hk content))
    (hex : exF.contains k = true) :
    ∃ c2, findEntry m (removeFiles env exF p (removeSubdirectories env exF exD p es).left).left
        = some c2 ∧ descend c2 rest = some (Node.file k hk content) := by
  obtain ⟨hname, hmem⟩ := findEntry_name m es c hc
  cases hv : visitSubdirectory env exF exD p c with
  | none =>
    refine ⟨c, findEntry_removeDirectoryAt_left env exF exD p es m c c hc (by rw [hv]) ?_, hx⟩
    cases c with
    | dir a b sub => rfl
    | file a b cc =>
      cases rest with
      | cons r rs => simp [descend] at hx
      | nil =>
        simp only [descend, Option.some.injEq, Node.file.injEq] at hx
        obtain ⟨rfl, _, _⟩ := hx
        simp only [Node.isDir_file, Node.name_file, hex, Bool.false_or, Bool.true_or]
  | some r =>
    obtain ⟨hd, _, rfl⟩ := (visitSubdirectory_eq_some env exF exD p c r).mp hv
    obtain ⟨c2, h1, h2⟩ := hsub c hmem hd rest k hk content hx hex
    refine ⟨c2, findEntry_removeDirectoryAt_left env exF exD p es m c c2 hc
      (by rw [hv]; exact h1) ?_, h2⟩
    rw [(removeSubdirectory_left_dir env exF p c c2 hd h1).1]
    rfl

/-- A recursive call leaves every file with an excepted name, at any depth below the
directory, where it was. -/
theorem removeSubdirectory_keeps_below (env : Env) (exF : List String) (e : Node) :
    e.isDir = true → ∀ (parent q : Path) (k : String) (hk : Bool) (content : String),
      descend e q = some (Node.file k hk content) → exF.contains k = true →
      ∃ e2, (removeSubdirectory env exF parent e).2.1 = some e2 ∧
        descend e2 q = some (Node.file k hk content) := by
  induction e using Node.induction_mem with
  | hfile n h c => intro hd; simp at hd
  | hdir n h es ih =>
    intro _ parent q k hk content hx hex
    cases q with
    | nil => simp [descend] at hx
    | cons m rest =>
      simp only [descend] at hx
      cases hc : findEntry m es with
      | none => rw [hc] at hx; simp at hx
      | some c =>
        rw [hc] at hx
        obtain ⟨c2, h1, h2⟩ := removeDirectoryAt_keeps_below env exF [] (parent ++ [n]) es
          (fun c hcm hcd => ih c hcm hcd (parent ++ [n])) m rest c k hk content hc hx hex
        have hne := List.ne_nil_of_mem (findEntry_name m _ c2 h1).2
        obtain ⟨_, hleft⟩ := removeDirectoryAt_nonempty env exF [] (parent ++ [n]) es hne
        refine ⟨Node.dir n h
          (removeFiles env exF (parent ++ [n])
            (removeSubdirectories env exF [] (parent ++ [n]) es).left).left, ?_, ?_⟩
        · rw [removeSubdirectory_dir, hleft]
          rfl
        · simp only [descend, h1]
          exact h2

/-- Every file that a recursive call tries to remove has a name that is not
excepted. -/
theorem removeSubdirectory_removeFile_name (env : Env) (exF : List String) (e : Node) :
    ∀ (parent t : Path) (ok : Bool),
      Effect.removeFile t ok ∈ (removeSubdirectory env exF parent e).2.2 →
      ∃ (d : Path) (name : String), t = d ++ [name] ∧ exF.contains name = false := by
  induction e using Node.induction_mem with
  | hfile n h c => intro parent t ok hop; simp [removeSubdirectory] at hop
  | hdir n h es ih =>
    intro parent t ok hop
    rw [removeSubdirectory_dir] at hop
    rcases (mem_removeDirectoryAt_trace env exF [] (parent ++ [n]) es _).mp hop with
      ⟨c, hc, _, _, hop2⟩ | ⟨c, _, _, hcx, heq⟩ | heq
    · exact ih c hc (parent ++ [n]) t ok hop2
    · simp only [Effect.removeFile.injEq] at heq
      exact ⟨parent ++ [n], c.name, heq.1, hcx⟩
    · simp at heq

theorem removeDirectoryAt_removeFile_name (env : Env) (exF exD : List String) (p : Path)
    (es : List Node) (t : Path) (ok : Bool)
    (hop : Effect.removeFile t ok ∈ (removeDirectoryAt env exF exD p es).2.2) :
    ∃ (d : Path) (name : String), t = d ++ [name] ∧ exF.contains name = false := by
  rcases (mem_removeDirectoryAt_trace env exF exD p es _).mp hop with
    ⟨c, _, _, _, hop2⟩ | ⟨c, _, _, hcx, heq⟩ | heq
  · exact removeSubdirectory_removeFile_name env exF c p t ok hop2
  · simp only [Effect.removeFile.injEq] at heq
    exact ⟨p, c.name, heq.1, hcx⟩
  · simp at heq

/-- The two ways `removeDirectory` leaves an existing directory: removed (which it
cannot be at the root), or in place with the entries that are left. -/
theorem removeDirectoryAt_left_cases (env : Env) (exF exD : List String) (p : Path)
    (es : List Node) :
    ((removeDirectoryAt env exF exD p es).2.1 = none ∧ p ≠ []) ∨
      (removeDirectoryAt env exF exD p es).2.1
        = some (removeFiles env exF p (removeSubdirectories env exF exD p es).left).left := by
  simp only [removeDirectoryAt, removeFilesAndSelf]
  cases hrem : ((removeFiles env exF p (removeSubdirectories env exF exD p es).left).left.isEmpty
      && (!p.isEmpty && env.rmdirOk p))
  · right; simp
  · left
    refine ⟨by simp, ?_⟩
    intro hp
    simp [hp] at hrem
/-- C9: `removeDirectory` on a directory of a well-formed filesystem.  (1) An
immediate subdirectory whose name is in the directory-exception list is skipped as a
whole: everything at and below it is afterwards what it was before, and no operation
is aimed at it or below it.  (2) The directory-exception list is not handed down:
below an immediate subdirectory that is not excepted, the `rmdir` of every directory
is attempted, whatever its name is, and the whole subdirectory is gone when it holds
no excepted file and the deletions below it are allowed.  (3) The file-exception list
is applied at every depth: every file with an excepted name, at any depth below the
directory, is afterwards where it was with the contents it had, and every file the
call tries to remove has a name that is not excepted. -/
theorem removeDirectory_exceptions_scope (env : Env) (fs : List Node) (p : Path)
    (n : String) (h : Bool) (es : List Node) (exF exD : List String)
    (hwf : wellFormedFS fs = true)
    (hdir : nodeAt fs p = some (Node.dir n h es)) :
    (∀ (d : String) (hd : Bool) (sub : List Node), Node.dir d hd sub ∈ es →
        exD.contains d = true →
        (∀ q : Path, nodeAt (removeDirectory env fs p exF exD).fs (p ++ [d] ++ q)
          = nodeAt fs (p ++ [d] ++ q)) ∧
        (∀ op ∈ (removeDirectory env fs p exF exD).trace, ∀ t : Path,
          op.target ≠ p ++ [d] ++ t)) ∧
      (∀ (s : String) (hs : Bool) (sub : List Node), Node.dir s hs sub ∈ es →
        exD.contains s = false →
        (∀ (q : Path) (x : Node), nodeAt fs (p ++ [s] ++ q) = some x → x.isDir = true →
          ∃ ok, Effect.rmdir (p ++ [s] ++ q) ok ∈ (removeDirectory env fs p exF exD).trace) ∧
        (holdsExceptedList exF sub = false →
          (∀ q : Path, env.removeOk (p ++ [s] ++ q) = true) →
          (∀ q : Path, env.rmdirOk (p ++ [s] ++ q) = true) →
          ∀ q : Path, nodeAt (removeDirectory env fs p exF exD).fs (p ++ [s] ++ q) = none)) ∧
      (∀ (q : Path) (k : String) (hk : Bool) (content : String),
        nodeAt fs (p ++ q) = some (Node.file k hk content) → exF.contains k = true →
        nodeAt (removeDirectory env fs p exF exD).fs (p ++ q)
          = some (Node.file k hk content)) ∧
      (∀ (t : Path) (ok : Bool),
        Effect.removeFile t ok ∈ (removeDirectory env fs p exF exD).trace →
        ∃ (d : Path) (name : String), t = d ++ [name] ∧ exF.contains name = false) := by
  have hnode : (Node.dir n h es).wellFormed = true :=
    descend_wellFormed (Node.dir "" false fs) p _ hwf hdir
  simp only [Node.wellFormed, Bool.and_eq_true] at hnode
  have hnames := hnode.1
  have hfs : (removeDirectory env fs p exF exD).fs
      = putDirectory fs p (removeDirectoryAt env exF exD p es).2.1 := by
    simp only [removeDirectory, hdir]
  have htrace : (removeDirectory env fs p exF exD).trace
      = (removeDirectoryAt env exF exD p es).2.2 := by
    simp only [removeDirectory, hdir]
  have hbefore : ∀ (m : String) (q : Path) (c : Node), findEntry m es = some c →
      nodeAt fs (p ++ [m] ++ q) = descend c q := by
    intro m q c hc
    rw [nodeAt, List.append_assoc, descend_append _ _ p _ hdir]
    simp only [List.singleton_append, descend, hc]
    rfl
  have hafter : ∀ (m : String) (q : Path) (c2 : Node),
      findEntry m (removeFiles env exF p (removeSubdirectories env exF exD p es).left).left
        = some c2 →
      nodeAt (removeDirectory env fs p exF exD).fs (p ++ [m] ++ q) = descend c2 q := by
    intro m q c2 hc2
    have hne := List.ne_nil_of_mem (findEntry_name m _ c2 hc2).2
    obtain ⟨_, hleft⟩ := removeDirectoryAt_nonempty env exF exD p es hne
    rw [hfs, hleft, nodeAt, List.append_assoc,
      descend_append _ _ p _ (nodeAt_putDirectory_some fs p n h es _ hdir)]
    simp only [List.singleton_append, descend, hc2]
    rfl
  rw [htrace]
  refine ⟨?_, ?_, ?_, ?_⟩
  · intro d hd sub hmem hex
    have hfind := findEntry_of_mem es hnames _ hmem
    simp only [Node.name_dir] at hfind
    constructor
    · intro q
      rw [hbefore d q _ hfind]
      apply hafter d q
      apply findEntry_removeDirectoryAt_left env exF exD p es d _ _ hfind
      · rw [(visitSubdirectory_eq_none env exF exD p (Node.dir d hd sub)).mpr (Or.inr hex)]
      · rfl
    · intro op hop t heq
      rcases (mem_removeDirectoryAt_trace env exF exD p es op).mp hop with
        ⟨c, hc, _, hcx, hop2⟩ | ⟨c, hc, hcd, _, rfl⟩ | rfl
      · obtain ⟨_, t2, ht2⟩ := removeSubdirectory_trace_below env exF c p op hop2
        rw [ht2] at heq
        simp only [List.append_assoc, List.singleton_append, List.append_cancel_left_eq,
          List.cons.injEq] at heq
        rw [heq.1, hex] at hcx
        exact absurd hcx (by decide)
      · simp only [Effect.target, List.append_assoc, List.singleton_append,
          List.append_cancel_left_eq, List.cons.injEq] at heq
        have := distinctNames_unique es hnames c _ hc hmem heq.1
        rw [this] at hcd
        exact absurd hcd (by simp)
      · have := congrArg List.length heq
        simp [Effect.target] at this
  · intro s hs sub hmem hex
    have hfind := findEntry_of_mem es hnames _ hmem
    simp only [Node.name_dir] at hfind
    constructor
    · intro q x hx hxd
      rw [hbefore s q _ hfind] at hx
      obtain ⟨ok, hok⟩ := removeSubdirectory_attempts env exF (Node.dir s hs sub) rfl p q x hx
        (Or.inl hxd)
      refine ⟨ok, ?_⟩
      rw [mem_removeDirectoryAt_trace]
      left
      refine ⟨Node.dir s hs sub, hmem, rfl, hex, ?_⟩
      simpa [Node.deletion, hxd] using hok
    · intro hsub hrm hrmdir q
      have hgone := (removeSubdirectory_removed env exF (Node.dir s hs sub) rfl hsub p
        hrm hrmdir).2
      rcases removeDirectoryAt_left_cases env exF exD p es with ⟨hnone, hp⟩ | hsome
      · rw [hfs, hnone]
        cases p with
        | nil => exact absurd rfl hp
        | cons a rest =>
          rw [List.append_assoc]
          exact nodeAt_updateAt_none (a :: rest) _ (by simp) fs hwf
      · rw [hfs, hsome, nodeAt, List.append_assoc,
          descend_append _ _ p _ (nodeAt_putDirectory_some fs p n h es _ hdir)]
        simp only [List.singleton_append, descend]
        cases hf : findEntry s
            (removeFiles env exF p (removeSubdirectories env exF exD p es).left).left with
        | none => rfl
        | some c2 =>
          exfalso
          obtain ⟨hn2, hm2⟩ := findEntry_name s _ c2 hf
          obtain ⟨a, ha, hna, hcases⟩ := mem_removeDirectoryAt_left env exF exD p es c2 hm2
          have hEq := distinctNames_unique es hnames a _ ha hmem (by rw [← hna, hn2]; rfl)
          subst hEq
          rcases hcases with ⟨h1, _⟩ | ⟨_, h1, _⟩ | ⟨_, _, h1⟩
          · exact absurd h1 (by simp)
          · rw [Node.name_dir, hex] at h1; exact absurd h1 (by decide)
          · rw [hgone] at h1
            exact absurd h1 (by simp)
  · intro q k hk content hx hex
    have hx2 : descend (Node.dir n h es) q = some (Node.file k hk content) := by
      rw [← descend_append (Node.dir "" false fs) (Node.dir n h es) p q hdir]
      exact hx
    cases q with
    | nil => simp [descend] at hx2
    | cons m rest =>
      simp only [descend] at hx2
      cases hc : findEntry m es with
      | none => rw [hc] at hx2; simp at hx2
      | some c =>
        rw [hc] at hx2
        obtain ⟨c2, h1, h2⟩ := removeDirectoryAt_keeps_below env exF exD p es
          (fun c _ hcd => removeSubdirectory_keeps_below env exF c hcd p)
          m rest c k hk content hc hx2 hex
        have := hafter m rest c2 h1
        rw [h2] at this
        simpa using this
  · intro t ok hop
    exact removeDirectoryAt_removeFile_name env exF exD p es t ok hop
/-- The working directory of the sample with the exception lists `keep.txt` and
`data`: the directory `data` is kept as a whole, the directory `old/data` is not, and
the file `nested/inner/keep.txt` is kept. -/
theorem removeDirectory_exceptions_scope_witness :
    wellFormedFS keepFS = true ∧
      nodeAt keepFS ["work"] = some (Node.dir "work" false keepEntries) ∧
      ((∀ q : Path,
          nodeAt (removeDirectory sampleEnv keepFS ["work"] ["keep.txt"] ["data"]).fs
            (["work"] ++ ["data"] ++ q) = nodeAt keepFS (["work"] ++ ["data"] ++ q)) ∧
        (∀ op ∈ (removeDirectory sampleEnv keepFS ["work"] ["keep.txt"] ["data"]).trace,
          ∀ t : Path, op.target ≠ ["work"] ++ ["data"] ++ t)) ∧
      (∃ ok, Effect.rmdir (["work"] ++ ["old"] ++ ["data"]) ok
        ∈ (removeDirectory sampleEnv keepFS ["work"] ["keep.txt"] ["data"]).trace) ∧
      (∀ q : Path,
        nodeAt (removeDirectory sampleEnv keepFS ["work"] ["keep.txt"] ["data"]).fs
          (["work"] ++ ["old"] ++ q) = none) ∧
      nodeAt (removeDirectory sampleEnv keepFS ["work"] ["keep.txt"] ["data"]).fs
        (["work"] ++ ["nested", "inner", "keep.txt"])
        = some (Node.file "keep.txt" false "inner") :=
  ⟨by decide, rfl,
   (removeDirectory_exceptions_scope sampleEnv keepFS ["work"] "work" false keepEntries
      ["keep.txt"] ["data"] (by decide) rfl).1 "data" false
      [Node.file "c.txt" false "c", Node.file "keep.txt" false "deep"]
      (by simp [keepEntries]) (by decide),
   ((removeDirectory_exceptions_scope sampleEnv keepFS ["work"] "work" false keepEntries
      ["keep.txt"] ["data"] (by decide) rfl).2.1 "old" false
      [Node.file "b.txt" false "b", Node.dir "data" false []]
      (by simp [keepEntries]) (by decide)).1 ["data"] (Node.dir "data" false []) rfl rfl,
   ((removeDirectory_exceptions_scope sampleEnv keepFS ["work"] "work" false keepEntries
      ["keep.txt"] ["data"] (by decide) rfl).2.1 "old" false
      [Node.file "b.txt" false "b", Node.dir "data" false []]
      (by simp [keepEntries]) (by decide)).2 (by decide) (fun _ => rfl) (fun _ => rfl),
   (removeDirectory_exceptions_scope sampleEnv keepFS ["work"] "work" false keepEntries
      ["keep.txt"] ["data"] (by decide) rfl).2.2.1 ["nested", "inner", "keep.txt"]
      "keep.txt" false "inner" rfl (by decide)⟩
/-! ## `copyDirectory` -/

/-- C10, at an input on which it fails: `/A` holds the visible file `app`, the hidden
file `.config` and the hidden directory `.plugins`, `/B` is an empty directory and
every operation of the operating system works.  `copyDirectory("/A", "/B")` returns
`true` and every operation it attempted succeeded, the visible file is in `/B` with
its contents, but `/B/.config`, `/B/.plugins` and `/B/.plugins/reader` do not exist:
the listings `entryList(QDir::Dirs | QDir::NoDotAndDotDot)` and
`entryList(QDir::Files)` leave hidden entries out. -/
theorem copyDirectory_skips_hidden :
    wellFormedFS hiddenFS = true ∧
      nodeAt hiddenFS ["B"] = some (Node.dir "B" false []) ∧
      (copyDirectory sampleEnv hiddenFS ["A"] ["B"]).result = true ∧
      (copyDirectory sampleEnv hiddenFS ["A"] ["B"]).trace.all Effect.ok = true ∧
      nodeAt (copyDirectory sampleEnv hiddenFS ["A"] ["B"]).fs ["B", "app"]
        = some (Node.file "app" false "version 2.0") ∧
      nodeAt hiddenFS ["A", ".config"] = some (Node.file ".config" true "settings") ∧
      nodeAt (copyDirectory sampleEnv hiddenFS ["A"] ["B"]).fs ["B", ".config"] = none ∧
      nodeAt hiddenFS ["A", ".plugins", "reader"] = some (Node.file "reader" false "plugin") ∧
      nodeAt (copyDirectory sampleEnv hiddenFS ["A"] ["B"]).fs ["B", ".plugins"] = none ∧
      nodeAt (copyDirectory sampleEnv hiddenFS ["A"] ["B"]).fs ["B", ".plugins", "reader"]
        = none :=
  ⟨by decide, rfl, by decide, by decide, rfl, rfl, rfl, rfl, rfl, rfl⟩
/-! ## `copyDirectory` into an empty directory -/

theorem findEntry_append (n : String) (a b : List Node) :
    findEntry n (a ++ b) = (findEntry n a).orElse (fun _ => findEntry n b) := by
  induction a with
  | nil => simp [findEntry]
  | cons x rest ih =>
    simp only [List.cons_append, findEntry]
    split
    · rfl
    · exact ih

theorem findEntry_append_none (n : String) (a : List Node) (x : Node)
    (ha : findEntry n a = none) (hx : x.name ≠ n) : findEntry n (a ++ [x]) = none := by
  rw [findEntry_append, ha]
  simp [findEntry, hx]

theorem Node.mirror_name (e : Node) : e.mirror.name = e.name := by
  cases e <;> simp [Node.mirror]

theorem Node.mirror_isDir (e : Node) : e.mirror.isDir = e.isDir := by
  cases e <;> simp [Node.mirror]

theorem Node.mirror_contents (e : Node) : e.mirror.contents = e.contents := by
  cases e <;> simp [Node.mirror, Node.contents]

theorem mem_mirrorFiles (es : List Node) (x : Node) :
    x ∈ mirrorFiles es ↔ ∃ e ∈ es, e.isDir = false ∧ x = e.mirror := by
  induction es with
  | nil => simp [mirrorFiles]
  | cons e rest ih =>
    cases e with
    | file n h c =>
      simp only [mirrorFiles, List.mem_cons, ih]
      constructor
      · rintro (rfl | ⟨e, he, hd, rfl⟩)
        · exact ⟨Node.file n h c, Or.inl rfl, rfl, by simp [Node.mirror]⟩
        · exact ⟨e, Or.inr he, hd, rfl⟩
      · rintro ⟨e, (rfl | he), hd, rfl⟩
        · left; simp [Node.mirror]
        · right; exact ⟨e, he, hd, rfl⟩
    | dir n h sub =>
      simp only [mirrorFiles, List.mem_cons, ih]
      constructor
      · rintro ⟨e, he, hd, rfl⟩
        exact ⟨e, Or.inr he, hd, rfl⟩
      · rintro ⟨e, (rfl | he), hd, rfl⟩
        · simp at hd
        · exact ⟨e, he, hd, rfl⟩

theorem mem_mirrorDirs (es : List Node) (x : Node) :
    x ∈ mirrorDirs es ↔ ∃ e ∈ es, e.isDir = true ∧ x = e.mirror := by
  induction es with
  | nil => simp [mirrorDirs]
  | cons e rest ih =>
    simp only [mirrorDirs]
    cases hd : e.isDir
    · simp only [Bool.false_eq_true, if_false, ih, List.mem_cons]
      constructor
      · rintro ⟨a, ha, had, rfl⟩
        exact ⟨a, Or.inr ha, had, rfl⟩
      · rintro ⟨a, (rfl | ha), had, rfl⟩
        · rw [hd] at had; exact absurd had (by decide)
        · exact ⟨a, ha, had, rfl⟩
    · simp only [if_true, List.mem_cons, ih]
      constructor
      · rintro (rfl | ⟨a, ha, had, rfl⟩)
        · exact ⟨e, Or.inl rfl, hd, rfl⟩
        · exact ⟨a, Or.inr ha, had, rfl⟩
      · rintro ⟨a, (rfl | ha), had, rfl⟩
        · left; rfl
        · right; exact ⟨a, ha, had, rfl⟩

theorem findEntry_isSome_of_mem (l : List Node) (x : Node) (hx : x ∈ l) :
    ∃ y, findEntry x.name l = some y := by
  induction l with
  | nil => simp at hx
  | cons e rest ih =>
    simp only [findEntry]
    by_cases he : e.name = x.name
    · exact ⟨e, by simp [he]⟩
    · simp only [he, if_false]
      rcases List.mem_cons.mp hx with rfl | h2
      · exact absurd rfl he
      · exact ih h2

/-- In a listing with distinct names, the entry found under a name in the rebuilt
listing is the rebuilt entry found under the name in the listing. -/
theorem findEntry_mirror (es : List Node) (hnames : distinctNames (es.map Node.name) = true)
    (m : String) :
    findEntry m (mirrorDirs es ++ mirrorFiles es) = (findEntry m es).map Node.mirror := by
  have hmem : ∀ x, x ∈ mirrorDirs es ++ mirrorFiles es ↔ ∃ e ∈ es, x = e.mirror := by
    intro x
    rw [List.mem_append, mem_mirrorDirs, mem_mirrorFiles]
    constructor
    · rintro (⟨e, he, _, rfl⟩ | ⟨e, he, _, rfl⟩) <;> exact ⟨e, he, rfl⟩
    · rintro ⟨e, he, rfl⟩
      cases hd : e.isDir
      · right; exact ⟨e, he, hd, rfl⟩
      · left; exact ⟨e, he, hd, rfl⟩
  cases hf : findEntry m es with
  | none =>
    cases hg : findEntry m (mirrorDirs es ++ mirrorFiles es) with
    | none => rfl
    | some x =>
      exfalso
      obtain ⟨hn, hx⟩ := findEntry_name m _ x hg
      obtain ⟨e, he, rfl⟩ := (hmem x).mp hx
      rw [Node.mirror_name] at hn
      obtain ⟨y, hy⟩ := findEntry_isSome_of_mem es e he
      rw [hn, hf] at hy
      exact absurd hy (by simp)
  | some e =>
    obtain ⟨hn, he⟩ := findEntry_name m es e hf
    have hin : e.mirror ∈ mirrorDirs es ++ mirrorFiles es := (hmem _).mpr ⟨e, he, rfl⟩
    obtain ⟨y, hy⟩ := findEntry_isSome_of_mem _ _ hin
    rw [Node.mirror_name, hn] at hy
    rw [hy]
    obtain ⟨hyn, hym⟩ := findEntry_name m _ y hy
    obtain ⟨e2, he2, rfl⟩ := (hmem y).mp hym
    rw [Node.mirror_name] at hyn
    rw [distinctNames_unique es hnames e2 e he2 he (by rw [hyn, hn])]
    rfl

/-- Below a well-formed entry and below its rebuilt image the same paths exist, with
directories at the same paths and files of the same contents. -/
theorem descend_mirror (q : Path) : ∀ e : Node, e.wellFormed = true →
    (descend e.mirror q).map Node.contents = (descend e q).map Node.contents := by
  induction q with
  | nil =>
    intro e _
    simp only [descend, Option.map_some', Node.mirror_contents]
  | cons m rest ih =>
    intro e hwf
    cases e with
    | file n h c => simp [Node.mirror, descend]
    | dir n h es =>
      simp only [Node.wellFormed, Bool.and_eq_true] at hwf
      simp only [Node.mirror, descend, findEntry_mirror es hwf.1 m]
      cases hf : findEntry m es with
      | none => rfl
      | some c =>
        exact ih c (wellFormedList_mem es hwf.2 c (findEntry_name m es c hf).2)
theorem visibleList_mem (es : List Node) (h : visibleList es = true) (e : Node) (he : e ∈ es) :
    e.visible = true := by
  induction es with
  | nil => simp at he
  | cons x rest ih =>
    simp only [visibleList, Bool.and_eq_true] at h
    rcases List.mem_cons.mp he with rfl | h2
    · exact h.1
    · exact ih h.2 h2

/-- The file pass of `copyDirectory` on a destination that holds none of the names:
every visible file of the source is added to the destination. -/
theorem copyFiles_into (env : Env) (hcp : ∀ a b : Path, env.copyOk a b = true)
    (source destination : Path) (es : List Node) :
    ∀ acc : List Node, distinctNames (es.map Node.name) = true →
      (∀ e ∈ es, e.isDir = false → e.isHidden = false) →
      (∀ e ∈ es, e.isDir = false → findEntry e.name acc = none) →
      (copyFiles env source destination es (Dest.present acc)).dest
        = Dest.present (acc ++ mirrorFiles es) := by
  induction es with
  | nil => intro acc _ _ _; simp [copyFiles, mirrorFiles]
  | cons e rest ih =>
    intro acc hnames hvis hfree
    simp only [List.map_cons, distinctNames, Bool.and_eq_true, Bool.not_eq_true'] at hnames
    cases e with
    | dir n h sub =>
      simp only [copyFiles, mirrorFiles]
      exact ih acc hnames.2 (fun e he => hvis e (List.mem_cons_of_mem _ he))
        (fun e he => hfree e (List.mem_cons_of_mem _ he))
    | file f h content =>
      have hh : h = false := hvis _ (List.mem_cons_self _ _) rfl
      have hf : findEntry f acc = none := hfree _ (List.mem_cons_self _ _) rfl
      subst hh
      have hstep : (copyFileEntry env source destination f content (Dest.present acc)).dest
          = Dest.present (acc ++ [Node.file f false content]) := by
        simp [copyFileEntry, copyOneFile, hf, hcp]
      simp only [copyFiles, Bool.false_eq_true, if_false, hstep, mirrorFiles]
      rw [ih (acc ++ [Node.file f false content]) hnames.2
        (fun e he => hvis e (List.mem_cons_of_mem _ he))]
      · simp
      · intro e he hd
        apply findEntry_append_none
        · exact hfree e (List.mem_cons_of_mem _ he) hd
        · intro heq
          have : (rest.map Node.name).contains f = true := by
            simp only [List.contains_iff_exists_mem_beq, List.mem_map, beq_iff_eq]
            exact ⟨e.name, ⟨e, he, rfl⟩, heq⟩
          rw [Node.name_file, this] at hnames
          exact absurd hnames.1 (by decide)

/-- The copy of a well-formed tree without hidden entries into an empty directory,
when the directories can be made and the files copied: the directory pass adds the
rebuilt subdirectories to a destination that holds none of the names, and a recursive
call fills an empty directory with the rebuilt entries. -/
theorem copy_into (env : Env) (hmk : ∀ a : Path, env.mkpathOk a = true)
    (hcp : ∀ a b : Path, env.copyOk a b = true) :
    (∀ e : Node, e.wellFormed = true → e.visible = true → e.isDir = true →
        ∀ source destination : Path,
          (copySubdirectory env source destination e (Dest.present [])).dest
            = Dest.present (match e.mirror with
                | Node.dir _ _ sub => sub
                | Node.file _ _ _ => [])) ∧
      (∀ es : List Node, wellFormedList es = true → visibleList es = true →
        distinctNames (es.map Node.name) = true →
        ∀ (source destination : Path) (acc : List Node),
          (∀ e ∈ es, findEntry e.name acc = none) →
          (copySubdirectories env source destination es (Dest.present acc)).dest
            = Dest.present (acc ++ mirrorDirs es)) := by
  apply Node.induction_on
  · intro n h c _ _ hd
    simp at hd
  · intro n h es ih hwf hvis _ source destination
    simp only [Node.wellFormed, Bool.and_eq_true] at hwf
    simp only [Node.visible, Bool.and_eq_true] at hvis
    have hdirs := ih hwf.2 hvis.2 hwf.1 (source ++ [n]) (destination ++ [n]) []
      (fun _ _ => rfl)
    simp only [copySubdirectory, hdirs, List.nil_append, Node.mirror]
    apply copyFiles_into env hcp _ _ es (mirrorDirs es) hwf.1
    · intro e he hd
      have := visibleList_mem es hvis.2 e he
      cases e with
      | dir a b sub => simp at hd
      | file a b c => simpa [Node.visible] using this
    · intro e he hd
      cases hf : findEntry e.name (mirrorDirs es) with
      | none => rfl
      | some x =>
        exfalso
        obtain ⟨hn, hx⟩ := findEntry_name _ _ x hf
        obtain ⟨e2, he2, hd2, rfl⟩ := (mem_mirrorDirs es x).mp hx
        rw [Node.mirror_name] at hn
        have := distinctNames_unique es hwf.1 e2 e he2 he hn
        rw [this, hd] at hd2
        exact absurd hd2 (by decide)
  · intro _ _ _ source destination acc _
    simp [copySubdirectories, mirrorDirs]
  · intro e es ihe ihes hwf hvis hnames source destination acc hfree
    simp only [wellFormedList, Bool.and_eq_true] at hwf
    simp only [visibleList, Bool.and_eq_true] at hvis
    simp only [List.map_cons, distinctNames, Bool.and_eq_true, Bool.not_eq_true'] at hnames
    have hfree0 := hfree e (List.mem_cons_self _ _)
    cases hd : e.isDir
    · simp only [copySubdirectories, mirrorDirs, hd, Bool.false_and, Bool.false_eq_true, if_false]
      exact ihes hwf.2 hvis.2 hnames.2 source destination acc
        (fun x hx => hfree x (List.mem_cons_of_mem _ hx))
    · have hhid : e.isHidden = false := by
        cases e with
        | file a b c => simp at hd
        | dir a b sub =>
          simp only [Node.visible, Bool.and_eq_true, Bool.not_eq_true'] at hvis
          exact hvis.1.1
      have hmade : mkpathChild env destination e.name (Dest.present acc)
          = (Dest.present [], true) := by
        simp [mkpathChild, Dest.child, hfree0, hmk]
      have hsub := ihe hwf.1 hvis.1 hd source destination
      have hset : ∀ sub : List Node,
          (Dest.present acc).setChild e.name (Dest.present sub)
            = Dest.present (acc ++ [Node.dir e.name false sub]) := by
        intro sub
        simp [Dest.setChild, hfree0]
      simp only [copySubdirectories, hd, hhid, Bool.not_false, Bool.and_self, if_true, hmade,
        hsub, hset, mirrorDirs]
      rw [ihes hwf.2 hvis.2 hnames.2 source destination _ ?_]
      · cases e with
        | file a b c => simp at hd
        | dir a b sub => simp [Node.mirror]
      · intro x hx
        apply findEntry_append_none
        · exact hfree x (List.mem_cons_of_mem _ hx)
        · intro heq
          have : (es.map Node.name).contains e.name = true := by
            simp only [List.contains_iff_exists_mem_beq, List.mem_map, beq_iff_eq]
            exact ⟨x.name, ⟨x, hx, rfl⟩, by simpa using heq⟩
          rw [this] at hnames
          exact absurd hnames.1 (by decide)
theorem destAt_of_descend (p : Path) : ∀ (a : String) (b : Bool) (fs : List Node)
    (n : String) (h : Bool) (es : List Node),
    descend (Node.dir a b fs) p = some (Node.dir n h es) → destAt fs p = Dest.present es := by
  induction p with
  | nil =>
    intro a b fs n h es hd
    simp only [descend, Option.some.injEq, Node.dir.injEq] at hd
    simp only [destAt, hd.2.2]
  | cons m rest ih =>
    intro a b fs n h es hd
    simp only [descend] at hd
    cases hc : findEntry m fs with
    | none => rw [hc] at hd; simp at hd
    | some c =>
      rw [hc] at hd
      cases c with
      | file d hh content =>
        cases rest with
        | nil => simp [descend] at hd
        | cons r rs => simp [descend] at hd
      | dir d hh sub =>
        simp only [destAt, hc]
        exact ih d hh sub n h es hd

theorem descend_plantDirectory (new : List Node) (p : Path) :
    ∀ (a : String) (b : Bool) (fs : List Node) (n : String) (h : Bool) (es : List Node),
    descend (Node.dir a b fs) p = some (Node.dir n h es) →
    descend (Node.dir a b (plantDirectory p new fs)) p = some (Node.dir n h new) := by
  induction p with
  | nil =>
    intro a b fs n h es hd
    simp only [descend, Option.some.injEq, Node.dir.injEq] at hd
    simp only [plantDirectory, descend, hd.1, hd.2.1]
  | cons m rest ih =>
    intro a b fs n h es hd
    simp only [descend] at hd
    cases hc : findEntry m fs with
    | none => rw [hc] at hd; simp at hd
    | some c =>
      rw [hc] at hd
      cases c with
      | file d hh content =>
        cases rest with
        | nil => simp [descend] at hd
        | cons r rs => simp [descend] at hd
      | dir d hh sub =>
        simp only [plantDirectory, hc, descend]
        rw [findEntry_updateEntry_some m _ fs (Node.dir d hh sub)
          (Node.dir d hh (plantDirectory rest new sub)) hc rfl (findEntry_name m fs _ hc).1]
        exact ih d hh sub n h es hd

/-- The round trip of `copyDirectory` for a source without hidden entries: when the
source is a well-formed directory tree in which nothing is hidden, the destination is
an existing empty directory that does not lie inside the source, and the operating
system lets every directory be made and every file be copied, `copyDirectory` returns
`true`, and afterwards the same relative paths exist below the destination as below the
source, with a directory where the source has a directory and a file of the same
contents where the source has a file. -/
theorem copyDirectory_mirrors_visible (env : Env) (fs : List Node) (source destination : Path)
    (a : String) (ha : Bool) (es : List Node) (b : String) (hb : Bool)
    (hsource : nodeAt fs source = some (Node.dir a ha es))
    (hdestination : nodeAt fs destination = some (Node.dir b hb []))
    (_hapart : apart destination source = true)
    (hwf : wellFormedFS fs = true) (hvis : visibleList es = true)
    (hmk : ∀ p : Path, env.mkpathOk p = true)
    (hcp : ∀ p q : Path, env.copyOk p q = true) :
    (copyDirectory env fs source destination).result = true ∧
      ∀ q : Path,
        (nodeAt (copyDirectory env fs source destination).fs (destination ++ q)).map Node.contents
          = (nodeAt fs (source ++ q)).map Node.contents := by
  have hnode : (Node.dir a ha es).wellFormed = true :=
    descend_wellFormed (Node.dir "" false fs) source _ hwf hsource
  have hnode2 := hnode
  simp only [Node.wellFormed, Bool.and_eq_true] at hnode2
  have hdest : destAt fs destination = Dest.present [] :=
    destAt_of_descend destination "" false fs b hb [] hdestination
  have hdirs := (copy_into env hmk hcp).2 es hnode2.2 hvis hnode2.1 source destination []
    (fun _ _ => rfl)
  have hfiles := copyFiles_into env hcp source destination es (mirrorDirs es) hnode2.1
    (fun e he hd => by
      have := visibleList_mem es hvis e he
      cases e with
      | dir x y sub => simp at hd
      | file x y c => simpa [Node.visible] using this)
    (fun e he hd => by
      cases hf : findEntry e.name (mirrorDirs es) with
      | none => rfl
      | some x =>
        exfalso
        obtain ⟨hn, hx⟩ := findEntry_name _ _ x hf
        obtain ⟨e2, he2, hd2, rfl⟩ := (mem_mirrorDirs es x).mp hx
        rw [Node.mirror_name] at hn
        have := distinctNames_unique es hnode2.1 e2 e he2 he hn
        rw [this, hd] at hd2
        exact absurd hd2 (by decide))
  have hcopy : (copyDirectoryAt env source destination es (Dest.present [])).dest
      = Dest.present (mirrorDirs es ++ mirrorFiles es) := by
    simp only [copyDirectoryAt, hdirs, List.nil_append, hfiles]
  simp only [copyDirectory, hsource, hdest, hcopy, putDest, true_and]
  intro q
  rw [nodeAt, descend_append _ _ destination q
    (descend_plantDirectory (mirrorDirs es ++ mirrorFiles es) destination "" false fs b hb []
      hdestination),
    nodeAt, descend_append _ _ source q hsource]
  cases q with
  | nil => simp [descend, Node.contents]
  | cons m rest =>
    have := descend_mirror (m :: rest) (Node.dir a ha es) hnode
    simp only [Node.mirror] at this
    rw [descend_dir_name b a hb false _ (m :: rest) (by simp)]
    exact this

/-- The unpacked update of the sample run, copied into a new empty directory. -/
theorem copyDirectory_mirrors_visible_witness :
    apart ["new"] ["tmp", "rssguard", "rssguard"] = true ∧
    nodeAt (plantDirectory ["new"] [] (sampleEnv.extractor [] sampleFS).fs)
        ["tmp", "rssguard", "rssguard"]
        = some (Node.dir "rssguard" false
            [Node.file "app" false "version 2.0",
             Node.dir "l10n" false [Node.file "cs.qm" false "cs"]]) ∧
      (copyDirectory sampleEnv (plantDirectory ["new"] [] (sampleEnv.extractor [] sampleFS).fs)
        ["tmp", "rssguard", "rssguard"] ["new"]).result = true ∧
      ∀ q : Path,
        (nodeAt (copyDirectory sampleEnv
            (plantDirectory ["new"] [] (sampleEnv.extractor [] sampleFS).fs)
            ["tmp", "rssguard", "rssguard"] ["new"]).fs (["new"] ++ q)).map Node.contents
          = (nodeAt (plantDirectory ["new"] [] (sampleEnv.extractor [] sampleFS).fs)
              (["tmp", "rssguard", "rssguard"] ++ q)).map Node.contents :=
  ⟨rfl, rfl,
   copyDirectory_mirrors_visible sampleEnv
     (plantDirectory ["new"] [] (sampleEnv.extractor [] sampleFS).fs)
     ["tmp", "rssguard", "rssguard"] ["new"] "rssguard" false
     [Node.file "app" false "version 2.0", Node.dir "l10n" false [Node.file "cs.qm" false "cs"]]
     "new" false rfl rfl rfl (by decide) (by decide) (fun _ => rfl) (fun _ _ => rfl)⟩
/-! ## The lookup of a path string -/

theorem existsPath_empty (fs : List Node) (currentDir : Path) :
    existsPath fs currentDir "" = false := by
  simp [existsPath, statPath, locatePath]

theorem existsPath_sample :
    existsPath sampleFS [] "/tmp/update.7z" = true ∧
    existsPath sampleFS [] "/tmp/../tmp/update.7z" = true ∧
    existsPath sampleFS [] "/tmp/./update.7z" = true ∧
    existsPath sampleFS ["tmp"] "update.7z" = true ∧
    existsPath sampleFS ["tmp"] "../tmp/update.7z" = true ∧
    existsPath sampleFS [] "/tmp" = true ∧
    existsPath sampleFS [] "/tmp/" = true ∧
    existsPath sampleFS [] "/" = true ∧
    existsPath sampleFS [] "" = false ∧
    existsPath sampleFS [] "/tmp/update.7z/" = false ∧
    existsPath sampleFS [] "/tmp/update.7z/.." = false ∧
    existsPath sampleFS [] "/missing/../tmp/update.7z" = false ∧
    existsPath sampleFS [] "/tmp/missing.7z" = false := by
  refine ⟨?_, ?_, ?_, ?_, ?_, ?_, ?_, ?_, ?_, ?_, ?_, ?_, ?_⟩ <;> decide

theorem walkPath_clean (fs : List Node) (comps : List String) :
    ∀ (cur p : Path), walkPath fs cur comps = some p →
    p = cleanComponents cur (comps.filter (fun c => decide (c ≠ ""))) := by
  induction comps with
  | nil =>
    intro cur p h
    simp only [walkPath, Option.some.injEq] at h
    simp [cleanComponents, h]
  | cons c rest ih =>
    intro cur p h
    simp only [walkPath] at h
    cases hd : dirExists fs cur with
    | false => rw [hd] at h; simp at h
    | true =>
      rw [hd] at h
      simp only [if_true] at h
      by_cases h0 : c = ""
      · simp only [h0, true_or, if_true] at h
        simp only [h0, List.filter_cons, ne_eq, not_true_eq_false, decide_False,
          Bool.false_eq_true, if_false]
        exact ih cur p h
      · have hkeep : (List.filter (fun c => decide (c ≠ "")) (c :: rest))
            = c :: List.filter (fun c => decide (c ≠ "")) rest := by
          simp [List.filter_cons, h0]
        rw [hkeep]
        simp only [cleanComponents]
        by_cases h1 : c = "."
        · simp only [h1, or_true, if_true] at h ⊢
          exact ih cur p h
        · simp only [h0, h1, or_self, if_false] at h ⊢
          by_cases h2 : c = ".."
          · simp only [h2, if_true] at h ⊢
            exact ih _ p h
          · simp only [h2, if_false] at h ⊢
            exact ih _ p h

/-- The place the operating system finds for a path string is the one of its cleaned
absolute path. -/
theorem locatePath_resolvePath (fs : List Node) (currentDir : Path) (s : String) (p : Path)
    (h : locatePath fs currentDir s = some p) : p = resolvePath currentDir s := by
  simp only [locatePath] at h
  split at h
  · cases h
  · have := walkPath_clean fs _ _ p h
    rw [this, resolvePath, List.filter_map]
    congr 2
    apply List.filter_congr
    intro x _
    cases x with
    | nil => rfl
    | cons a l => simp [String.ext_iff]

theorem resolvePath_sample :
    resolvePath [] "/tmp/../tmp/update.7z" = ["tmp", "update.7z"] ∧
    resolvePath ["opt", "app"] "../../tmp/./update.7z" = ["tmp", "update.7z"] ∧
    absolutePath [] "/tmp/../tmp/update.7z" = "/tmp" ∧
    resolvePath ["opt"] "" = ["opt"] := by
  refine ⟨?_, ?_, ?_, ?_⟩ <;> decide

/-! ## The archive as a gating stage -/

/-- C16: in a run with 5 arguments in which the update archive named by the fifth
argument does not exist (`QFile::exists` is `false` for it: nothing is at the place the
string names, the string names no place, or it is empty), `printUpdateInformation`
returns `false` and `startUpgrade` ends in `ExitError` with the filesystem unchanged
and without having attempted any operation: no quit message has been sent, nothing has
been removed, renamed, extracted or copied. -/
theorem startUpgrade_missing_archive (env : Env) (u : Updater)
    (hargs : env.arguments.length = 5)
    (hmissing : existsPath u.fs env.currentDir (env.arguments.getD 4 "") = false) :
    (printUpdateInformation env (printArguments (saveArguments env
        (printText (printHeading u "Welcome to RSS Guard updater")
          "Analyzing updater arguments.")))).1 = false ∧
      (startUpgrade env u).m_state = UpdaterState.ExitError ∧
      (startUpgrade env u).fs = u.fs ∧
      (startUpgrade env u).effects = u.effects := by
  generalize hw : printArguments (saveArguments env
    (printText (printHeading u "Welcome to RSS Guard updater")
      "Analyzing updater arguments.")) = w
  have hfs : w.fs = u.fs := by rw [← hw]; rfl
  have heff : w.effects = u.effects := by rw [← hw]; rfl
  have hpath : w.m_parsedArguments.update_file_path = env.arguments.getD 4 "" := by
    rw [← hw]; rfl
  have hinfo : (printUpdateInformation env w).1 = false := by
    rw [printUpdateInformation_fst, hfs, hpath, hmissing]
  refine ⟨hinfo, ?_⟩
  have hstages : (runStages env w).1 = false ∧ (runStages env w).2.fs = u.fs ∧
      (runStages env w).2.effects = u.effects := by
    simp only [runStages, hinfo, Bool.not_false, if_true, printUpdateInformation_fs,
      printUpdateInformation_effects, hfs, heff, and_self]
  simp only [startUpgrade, hargs, ne_eq, not_true_eq_false, if_false, hw, hstages.1,
    Bool.not_false, if_true, printText_fs, printText_effects, hstages.2.1, hstages.2.2]
  exact ⟨trivial, trivial, trivial⟩

/-- The sample run on a filesystem without the downloaded archive, and the run whose
fifth argument is the empty string. -/
theorem startUpgrade_missing_archive_witness :
    sampleEnv.arguments.length = 5 ∧
      existsPath (Updater.new [Node.dir "opt" false [Node.dir "app" false sampleInstall]]).fs
        sampleEnv.currentDir (sampleEnv.arguments.getD 4 "") = false ∧
      (startUpgrade sampleEnv
        (Updater.new [Node.dir "opt" false [Node.dir "app" false sampleInstall]])).m_state
          = UpdaterState.ExitError ∧
      (startUpgrade sampleEnv
        (Updater.new [Node.dir "opt" false [Node.dir "app" false sampleInstall]])).effects
          = (Updater.new [Node.dir "opt" false [Node.dir "app" false sampleInstall]]).effects ∧
      ({ sampleEnv with arguments := ["X", "1.0", "2.0", "/opt/app/app", ""] } :
        Env).arguments.length = 5 ∧
      (startUpgrade { sampleEnv with arguments := ["X", "1.0", "2.0", "/opt/app/app", ""] }
        (Updater.new sampleFS)).m_state = UpdaterState.ExitError ∧
      (startUpgrade { sampleEnv with arguments := ["X", "1.0", "2.0", "/opt/app/app", ""] }
        (Updater.new sampleFS)).fs = sampleFS ∧
      (startUpgrade { sampleEnv with arguments := ["X", "1.0", "2.0", "/opt/app/app", ""] }
        (Updater.new sampleFS)).effects = [] :=
  ⟨by decide, by decide,
   (startUpgrade_missing_archive sampleEnv
     (Updater.new [Node.dir "opt" false [Node.dir "app" false sampleInstall]])
     (by decide) (by decide)).2.1,
   (startUpgrade_missing_archive sampleEnv
     (Updater.new [Node.dir "opt" false [Node.dir "app" false sampleInstall]])
     (by decide) (by decide)).2.2.2,
   by decide,
   (startUpgrade_missing_archive
     { sampleEnv with arguments := ["X", "1.0", "2.0", "/opt/app/app", ""] }
     (Updater.new sampleFS) (by decide) (by decide)).2.1,
   (startUpgrade_missing_archive
     { sampleEnv with arguments := ["X", "1.0", "2.0", "/opt/app/app", ""] }
     (Updater.new sampleFS) (by decide) (by decide)).2.2.1,
   (startUpgrade_missing_archive
     { sampleEnv with arguments := ["X", "1.0", "2.0", "/opt/app/app", ""] }
     (Updater.new sampleFS) (by decide) (by decide)).2.2.2⟩
/-! ## The exit of the updater -/

/-- C15, at an input on which it fails: a key other than the copy shortcut, pressed in
the state `ExitError`, makes the application quit with the exit code 0, the same code
as in the state `ExitNormal`. -/
theorem keyPressEvent_same_exit_code :
    keyPressEvent { Updater.new [] with m_state := UpdaterState.ExitError } false = some 0 ∧
      keyPressEvent { Updater.new [] with m_state := UpdaterState.ExitError } false
        = keyPressEvent { Updater.new [] with m_state := UpdaterState.ExitNormal } false :=
  ⟨rfl, rfl⟩

/-- C15 as amended: a key other than the copy shortcut makes the application quit
through `qApp->quit()`, that is with the exit code 0, in both terminal states, and
does nothing in the state `NoState`; the copy shortcut never makes it quit. -/
theorem keyPressEvent_quits_with_zero (u : Updater) :
    keyPressEvent u true = none ∧
      (u.m_state = UpdaterState.NoState → keyPressEvent u false = none) ∧
      (u.m_state = UpdaterState.ExitNormal → keyPressEvent u false = some 0) ∧
      (u.m_state = UpdaterState.ExitError → keyPressEvent u false = some 0) := by
  refine ⟨rfl, ?_, ?_, ?_⟩ <;> intro h <;> simp [keyPressEvent, h]

/-- The two terminal states of a run. -/
theorem keyPressEvent_quits_with_zero_witness :
    ({ Updater.new [] with m_state := UpdaterState.ExitError } : Updater).m_state
        = UpdaterState.ExitError ∧
      keyPressEvent { Updater.new [] with m_state := UpdaterState.ExitError } false = some 0 ∧
      keyPressEvent { Updater.new [] with m_state := UpdaterState.ExitNormal } false = some 0 :=
  ⟨rfl,
   (keyPressEvent_quits_with_zero
     { Updater.new [] with m_state := UpdaterState.ExitError }).2.2.2 rfl,
   (keyPressEvent_quits_with_zero
     { Updater.new [] with m_state := UpdaterState.ExitNormal }).2.2.1 rfl⟩

/-! ## The preparation cleanup after the quit loop -/

/-- C14: when the loop that quits the running instance has been left with success, in
the state `v`, `doPreparationCleanup` returns `false` exactly when a directory exists
at the extraction temp path and `removeDirectory` fails on it; then the only
operations attempted after the loop are those of that removal, so that neither the
removal of the installation nor the rename of the updater executable has been
attempted.  Otherwise it returns `true`, whatever the results of the removal of the
installation (with the extractor executable and the directory `data` excepted) and of
the rename to the suffix `.old` are: the operations attempted after the loop are those
of the removal of the temp directory (if it exists), of the removal of the
installation and the rename, and a failure of either of the last two adds its line to
the output. -/
theorem doPreparationCleanup_after_quit_loop (env : Env) (u v : Updater)
    (hloop : checkRunningInstances env [1, 2, 3, 4]
      (printHeading (printNewline u) "Initial cleanup") = (true, v)) :
    ((doPreparationCleanup env u).1 = false ↔
        (dirExists v.fs (resolvePath env.currentDir v.m_parsedArguments.output_temp_path) = true ∧
          (removeDirectory env v.fs
            (resolvePath env.currentDir v.m_parsedArguments.output_temp_path) [] []).result
              = false)) ∧
      ((doPreparationCleanup env u).1 = false →
        (doPreparationCleanup env u).2.effects = v.effects ++
          (removeDirectory env v.fs
            (resolvePath env.currentDir v.m_parsedArguments.output_temp_path) [] []).trace ∧
        (doPreparationCleanup env u).2.fs =
          (removeDirectory env v.fs
            (resolvePath env.currentDir v.m_parsedArguments.output_temp_path) [] []).fs) ∧
      ((doPreparationCleanup env u).1 = true →
        ∃ (fs1 : List Node) (cleared : List Effect),
          (fs1 = v.fs ∧ cleared = [] ∧
              dirExists v.fs
                (resolvePath env.currentDir v.m_parsedArguments.output_temp_path) = false ∨
            fs1 = (removeDirectory env v.fs
                (resolvePath env.currentDir v.m_parsedArguments.output_temp_path) [] []).fs ∧
              cleared = (removeDirectory env v.fs
                (resolvePath env.currentDir v.m_parsedArguments.output_temp_path) [] []).trace ∧
              (removeDirectory env v.fs
                (resolvePath env.currentDir v.m_parsedArguments.output_temp_path) [] []).result
                  = true) ∧
          (doPreparationCleanup env u).2.effects = v.effects ++ cleared ++
            (removeDirectory env fs1
              (resolvePath env.currentDir v.m_parsedArguments.rssguard_path)
              [env.defs.app7zaExecutable] ["data"]).trace ++
            [Effect.rename
              (resolvePath env.currentDir v.m_parsedArguments.updater_path)
              (resolvePath env.currentDir (v.m_parsedArguments.updater_path ++ ".old"))
              (renameFile env
                (removeDirectory env fs1
                  (resolvePath env.currentDir v.m_parsedArguments.rssguard_path)
                  [env.defs.app7zaExecutable] ["data"]).fs
                (resolvePath env.currentDir v.m_parsedArguments.updater_path)
                (resolvePath env.currentDir (v.m_parsedArguments.updater_path ++ ".old"))).1] ∧
          ((removeDirectory env fs1
              (resolvePath env.currentDir v.m_parsedArguments.rssguard_path)
              [env.defs.app7zaExecutable] ["data"]).result = false →
            "Full cleanup of actual RSS Guard installation failed."
              ∈ (doPreparationCleanup env u).2.m_txtOutput) ∧
          ((renameFile env
              (removeDirectory env fs1
                (resolvePath env.currentDir v.m_parsedArguments.rssguard_path)
                [env.defs.app7zaExecutable] ["data"]).fs
              (resolvePath env.currentDir v.m_parsedArguments.updater_path)
              (resolvePath env.currentDir (v.m_parsedArguments.updater_path ++ ".old"))).1
                = false →
            "Updater executable was not renamed and it will not be updated."
              ∈ (doPreparationCleanup env u).2.m_txtOutput)) := by
  have hdo : doPreparationCleanup env u = removeOldFolders env v := by
    simp only [doPreparationCleanup, hloop, Bool.not_true, Bool.false_eq_true, if_false]
  rw [hdo]
  generalize ht : resolvePath env.currentDir v.m_parsedArguments.output_temp_path = temp
  generalize hi : resolvePath env.currentDir v.m_parsedArguments.rssguard_path = install
  generalize hu : resolvePath env.currentDir v.m_parsedArguments.updater_path = updater
  generalize ho : resolvePath env.currentDir (v.m_parsedArguments.updater_path ++ ".old") = old
  cases hex : dirExists v.fs temp
  · refine ⟨?_, ?_, ?_⟩
    · simp [removeOldFolders, ht, hex]
    · simp [removeOldFolders, ht, hex]
    · intro _
      refine ⟨v.fs, [], Or.inl ⟨rfl, rfl, rfl⟩, ?_⟩
      cases h2 : (removeDirectory env v.fs install [env.defs.app7zaExecutable] ["data"]).result <;>
        cases h3 : (renameFile env
          (removeDirectory env v.fs install [env.defs.app7zaExecutable] ["data"]).fs
          updater old).1 <;>
        simp [removeOldFolders, ht, hi, hu, ho, hex, h2, h3, printText]
  · cases hres : (removeDirectory env v.fs temp [] []).result
    · refine ⟨?_, ?_, ?_⟩
      · simp [removeOldFolders, ht, hex, hres]
      · simp [removeOldFolders, ht, hex, hres, printText]
      · simp [removeOldFolders, ht, hex, hres]
    · refine ⟨?_, ?_, ?_⟩
      · simp [removeOldFolders, ht, hex, hres]
      · simp [removeOldFolders, ht, hex, hres]
      · intro _
        refine ⟨(removeDirectory env v.fs temp [] []).fs,
          (removeDirectory env v.fs temp [] []).trace, Or.inr ⟨rfl, rfl, rfl⟩, ?_⟩
        cases h2 : (removeDirectory env (removeDirectory env v.fs temp [] []).fs install
            [env.defs.app7zaExecutable] ["data"]).result <;>
          cases h3 : (renameFile env
            (removeDirectory env (removeDirectory env v.fs temp [] []).fs install
              [env.defs.app7zaExecutable] ["data"]).fs
            updater old).1 <;>
          simp [removeOldFolders, ht, hi, hu, ho, hex, hres, h2, h3, printText]

/-- The sample run, in the state in which the arguments have been saved. -/
theorem doPreparationCleanup_after_quit_loop_witness :
    checkRunningInstances sampleEnv [1, 2, 3, 4]
        (printHeading (printNewline (saveArguments sampleEnv (Updater.new sampleFS)))
          "Initial cleanup")
      = (true, (checkRunningInstances sampleEnv [1, 2, 3, 4]
          (printHeading (printNewline (saveArguments sampleEnv (Updater.new sampleFS)))
            "Initial cleanup")).2) ∧
      ((doPreparationCleanup sampleEnv (saveArguments sampleEnv (Updater.new sampleFS))).1
          = false ↔
        (dirExists (checkRunningInstances sampleEnv [1, 2, 3, 4]
            (printHeading (printNewline (saveArguments sampleEnv (Updater.new sampleFS)))
              "Initial cleanup")).2.fs
          (resolvePath sampleEnv.currentDir (checkRunningInstances sampleEnv [1, 2, 3, 4]
            (printHeading (printNewline (saveArguments sampleEnv (Updater.new sampleFS)))
              "Initial cleanup")).2.m_parsedArguments.output_temp_path) = true ∧
          (removeDirectory sampleEnv (checkRunningInstances sampleEnv [1, 2, 3, 4]
            (printHeading (printNewline (saveArguments sampleEnv (Updater.new sampleFS)))
              "Initial cleanup")).2.fs
            (resolvePath sampleEnv.currentDir (checkRunningInstances sampleEnv [1, 2, 3, 4]
              (printHeading (printNewline (saveArguments sampleEnv (Updater.new sampleFS)))
                "Initial cleanup")).2.m_parsedArguments.output_temp_path) [] []).result
              = false)) :=
  ⟨Prod.ext rfl rfl,
   (doPreparationCleanup_after_quit_loop sampleEnv
     (saveArguments sampleEnv (Updater.new sampleFS))
     (checkRunningInstances sampleEnv [1, 2, 3, 4]
       (printHeading (printNewline (saveArguments sampleEnv (Updater.new sampleFS)))
         "Initial cleanup")).2
     (Prod.ext rfl rfl)).1⟩
/-! ## Extraction and copying -/

theorem startUpgrade_of_failed_stages (env : Env) (u : Updater)
    (h : (runStages env (printArguments (saveArguments env
      (printText (printHeading u "Welcome to RSS Guard updater")
        "Analyzing updater arguments.")))).1 = false) :
    (startUpgrade env u).m_state = UpdaterState.ExitError := by
  by_cases hargs : env.arguments.length = 5
  · simp only [startUpgrade, hargs, ne_eq, not_true_eq_false, if_false, h, Bool.not_false,
      if_true]
  · simp [startUpgrade, hargs, printText]

/-- C13 as amended: `doExtractionAndCopying` calls `copyDirectory` exactly when the
extractor ended normally with the exit code 0 and the extraction temp path then has
exactly one immediate subdirectory that is not hidden, which is then copied into the
directory of the installation.  If the exit code is not 0, or the extractor ended
abnormally, or the number of immediate subdirectories that are not hidden is not 1, it
returns `false` after the start of the extractor as its only operation: it has copied
nothing, and the filesystem is as the extractor left it.  A run of `startUpgrade` in
which `doExtractionAndCopying` returns `false` ends in `ExitError`. -/
theorem doExtractionAndCopying_gate (env : Env) (u : Updater) (run : ExtractorRun)
    (hrun : env.extractor
      ["x", "-r", "-y", "-o" ++ u.m_parsedArguments.output_temp_path,
        u.m_parsedArguments.update_file_path] u.fs = run) :
    ((run.exitCode ≠ 0 ∨ run.normalExit = false ∨
          (visibleDirectories run.fs
            (resolvePath env.currentDir u.m_parsedArguments.output_temp_path)).length ≠ 1) →
        (doExtractionAndCopying env u).1 = false ∧
        (doExtractionAndCopying env u).2.fs = run.fs ∧
        (doExtractionAndCopying env u).2.effects = u.effects ++
          [Effect.startExtractor env.defs.app7zaExecutable
            ["x", "-r", "-y", "-o" ++ u.m_parsedArguments.output_temp_path,
              u.m_parsedArguments.update_file_path]]) ∧
      (∀ single : Node, run.exitCode = 0 → run.normalExit = true →
        visibleDirectories run.fs
          (resolvePath env.currentDir u.m_parsedArguments.output_temp_path) = [single] →
        (doExtractionAndCopying env u).1 =
          (copyDirectory env run.fs
            (resolvePath env.currentDir u.m_parsedArguments.output_temp_path ++ [single.name])
            (resolvePath env.currentDir u.m_parsedArguments.rssguard_path)).result ∧
        (doExtractionAndCopying env u).2.fs =
          (copyDirectory env run.fs
            (resolvePath env.currentDir u.m_parsedArguments.output_temp_path ++ [single.name])
            (resolvePath env.currentDir u.m_parsedArguments.rssguard_path)).fs ∧
        (doExtractionAndCopying env u).2.effects = u.effects ++
          [Effect.startExtractor env.defs.app7zaExecutable
            ["x", "-r", "-y", "-o" ++ u.m_parsedArguments.output_temp_path,
              u.m_parsedArguments.update_file_path]] ++
          (copyDirectory env run.fs
            (resolvePath env.currentDir u.m_parsedArguments.output_temp_path ++ [single.name])
            (resolvePath env.currentDir u.m_parsedArguments.rssguard_path)).trace) ∧
      (∀ u0 : Updater,
        (doExtractionAndCopying env (doPreparationCleanup env (printUpdateInformation env
          (printArguments (saveArguments env (printText
            (printHeading u0 "Welcome to RSS Guard updater")
            "Analyzing updater arguments.")))).2).2).1 = false →
        (startUpgrade env u0).m_state = UpdaterState.ExitError) := by
  generalize ht : resolvePath env.currentDir u.m_parsedArguments.output_temp_path = temp
  generalize hi : resolvePath env.currentDir u.m_parsedArguments.rssguard_path = install
  refine ⟨?_, ?_, ?_⟩
  · intro hfail
    by_cases hcode : run.exitCode = 0
    · cases hnormal : run.normalExit
      · simp [doExtractionAndCopying, hrun, ht, hi, hcode, hnormal, printText, printNewline,
          printHeading]
      · have hlen : (visibleDirectories run.fs temp).length ≠ 1 := by
          rcases hfail with h | h | h
          · exact absurd hcode h
          · rw [hnormal] at h; exact absurd h (by decide)
          · exact h
        cases hv : visibleDirectories run.fs temp with
        | nil =>
          simp [doExtractionAndCopying, hrun, ht, hi, hcode, hnormal, hv, printText,
            printNewline, printHeading]
        | cons a rest =>
          cases rest with
          | nil => rw [hv] at hlen; exact absurd rfl hlen
          | cons b rest2 =>
            simp [doExtractionAndCopying, hrun, ht, hi, hcode, hnormal, hv, printText,
              printNewline, printHeading]
    · simp [doExtractionAndCopying, hrun, ht, hi, hcode, printText, printNewline,
        printHeading]
  · intro single hcode hnormal hv
    have hres : (copyDirectory env run.fs (temp ++ [single.name]) install).result = true ∨
        (copyDirectory env run.fs (temp ++ [single.name]) install).result = false := by
      cases (copyDirectory env run.fs (temp ++ [single.name]) install).result
      · exact Or.inr rfl
      · exact Or.inl rfl
    rcases hres with hres | hres <;>
      simp [doExtractionAndCopying, hrun, ht, hi, hcode, hnormal, hv, hres, printText,
        printNewline, printHeading]
  · intro u0 hfalse
    apply startUpgrade_of_failed_stages
    simp only [runStages]
    split
    · rfl
    · split
      · rfl
      · exact hfalse
/-- C13, at an input on which it fails: the extractor ends normally with the exit code
0 and leaves two immediate subdirectories in the extraction temp path `/tmp/rssguard`,
the folder `rssguard` and the hidden folder `.meta`.  The listing
`entryInfoList(QDir::Dirs | QDir::NoDotAndDotDot | QDir::NoSymLinks)` leaves the
hidden one out, so `doExtractionAndCopying` goes on, returns `true` and has copied the
new executable into the installation. -/
theorem doExtractionAndCopying_hidden_subdirectory :
    (immediateSubdirectories
        (hiddenRootEnv.extractor [] (saveArguments hiddenRootEnv (Updater.new sampleFS)).fs).fs
        ["tmp", "rssguard"]).length = 2 ∧
      (hiddenRootEnv.extractor []
        (saveArguments hiddenRootEnv (Updater.new sampleFS)).fs).exitCode = 0 ∧
      (hiddenRootEnv.extractor []
        (saveArguments hiddenRootEnv (Updater.new sampleFS)).fs).normalExit = true ∧
      resolvePath hiddenRootEnv.currentDir
        (saveArguments hiddenRootEnv (Updater.new sampleFS)).m_parsedArguments.output_temp_path
          = ["tmp", "rssguard"] ∧
      (doExtractionAndCopying hiddenRootEnv
        (saveArguments hiddenRootEnv (Updater.new sampleFS))).1 = true ∧
      nodeAt (saveArguments hiddenRootEnv (Updater.new sampleFS)).fs ["opt", "app", "app"]
        = some (Node.file "app" false "version 1.0") ∧
      nodeAt (doExtractionAndCopying hiddenRootEnv
        (saveArguments hiddenRootEnv (Updater.new sampleFS))).2.fs ["opt", "app", "app"]
        = some (Node.file "app" false "version 2.0") :=
  ⟨by decide, by decide, by decide, by decide, by decide, rfl, rfl⟩

/-- The sample run: the archive unpacks the single folder `rssguard`. -/
theorem doExtractionAndCopying_gate_witness :
    visibleDirectories
        (sampleEnv.extractor
          ["x", "-r", "-y",
            "-o" ++ (saveArguments sampleEnv (Updater.new sampleFS)).m_parsedArguments.output_temp_path,
            (saveArguments sampleEnv (Updater.new sampleFS)).m_parsedArguments.update_file_path]
          (saveArguments sampleEnv (Updater.new sampleFS)).fs).fs
        (resolvePath sampleEnv.currentDir
          (saveArguments sampleEnv (Updater.new sampleFS)).m_parsedArguments.output_temp_path)
      = [Node.dir "rssguard" false
          [Node.file "app" false "version 2.0",
           Node.dir "l10n" false [Node.file "cs.qm" false "cs"]]] ∧
      (doExtractionAndCopying sampleEnv (saveArguments sampleEnv (Updater.new sampleFS))).1 =
        (copyDirectory sampleEnv
          (sampleEnv.extractor
            ["x", "-r", "-y",
              "-o" ++ (saveArguments sampleEnv (Updater.new sampleFS)).m_parsedArguments.output_temp_path,
              (saveArguments sampleEnv (Updater.new sampleFS)).m_parsedArguments.update_file_path]
            (saveArguments sampleEnv (Updater.new sampleFS)).fs).fs
          (resolvePath sampleEnv.currentDir
            (saveArguments sampleEnv (Updater.new sampleFS)).m_parsedArguments.output_temp_path
            ++ [(Node.dir "rssguard" false
              [Node.file "app" false "version 2.0",
               Node.dir "l10n" false [Node.file "cs.qm" false "cs"]]).name])
          (resolvePath sampleEnv.currentDir
            (saveArguments sampleEnv (Updater.new sampleFS)).m_parsedArguments.rssguard_path)).result :=
  ⟨rfl,
   ((doExtractionAndCopying_gate sampleEnv (saveArguments sampleEnv (Updater.new sampleFS))
      _ rfl).2.1 _ rfl rfl rfl).1⟩
/-! ## `copyDirectory`: the returned value and the output -/

/-- The body of the loop over the files prints exactly one line: that the file has
been copied, that it could not be copied, or that the file in its place could not be
removed. -/
theorem copyFileEntry_output (env : Env) (source destination : Path) (f content : String)
    (d : Dest) :
    ∃ line, (copyFileEntry env source destination f content d).output = [line] ∧
      (line = "Copied file " ++ f ∨
        line = "Failed to copy file " ++ pathString (source ++ [f]) ∨
        line = "Failed to remove file " ++ pathString (source ++ [f])) := by
  have hone : ∀ d2 : Dest, ∃ line,
      (copyOneFile env source destination f content d2).output = [line] ∧
      (line = "Copied file " ++ f ∨
        line = "Failed to copy file " ++ pathString (source ++ [f]) ∨
        line = "Failed to remove file " ++ pathString (source ++ [f])) := by
    intro d2
    cases d2 with
    | absent => exact ⟨_, rfl, Or.inr (Or.inl rfl)⟩
    | blocked => exact ⟨_, rfl, Or.inr (Or.inl rfl)⟩
    | present es =>
      simp only [copyOneFile]
      split
      · exact ⟨_, rfl, Or.inl rfl⟩
      · exact ⟨_, rfl, Or.inr (Or.inl rfl)⟩
  cases d with
  | absent => exact hone _
  | blocked => exact hone _
  | present es =>
    simp only [copyFileEntry]
    split
    · exact hone _
    · split
      · exact hone _
      · exact ⟨_, rfl, Or.inr (Or.inr rfl)⟩
    · exact ⟨_, rfl, Or.inr (Or.inr rfl)⟩

theorem copyFiles_output_length (env : Env) (source destination : Path) (es : List Node) :
    ∀ d : Dest, (copyFiles env source destination es d).output.length = listedFiles es := by
  induction es with
  | nil => intro d; rfl
  | cons e rest ih =>
    intro d
    cases e with
    | dir n h sub =>
      simp only [copyFiles, ih, listedFiles, List.filter_cons, Node.isDir_dir, Bool.not_true,
        Bool.false_and, Bool.false_eq_true, if_false]
    | file f h content =>
      cases h
      · obtain ⟨line, hline, _⟩ := copyFileEntry_output env source destination f content d
        simp only [copyFiles, Bool.false_eq_true, if_false, List.length_append, hline, ih,
          listedFiles, List.filter_cons, Node.isDir_file, Node.isHidden, Bool.not_false,
          Bool.and_self, if_true, List.length_cons, List.length_nil]
        omega
      · simp only [copyFiles, if_true, ih, listedFiles, List.filter_cons, Node.isDir_file,
          Node.isHidden, Bool.not_false, Bool.not_true, Bool.and_false, Bool.false_eq_true,
          if_false]

/-- The number of lines a recursive call and the directory pass print, whatever the
outcomes of the operations and whatever is at the destination. -/
theorem copy_output_length (env : Env) :
    (∀ e : Node, ∀ (source destination : Path) (d : Dest),
        (copySubdirectory env source destination e d).output.length = e.copyAttempts) ∧
      (∀ es : List Node, ∀ (source destination : Path) (d : Dest),
        (copySubdirectories env source destination es d).output.length
          = copyAttemptsBelow es) := by
  apply Node.induction_on
  · intro n h c source destination d
    rfl
  · intro n h es ih source destination d
    simp only [copySubdirectory, List.length_append, ih, copyFiles_output_length,
      Node.copyAttempts]
  · intro source destination d
    rfl
  · intro e es ihe ihes source destination d
    simp only [copySubdirectories, copyAttemptsBelow]
    split
    · simp only [List.length_append, ihe, ihes]
    · simp only [ihes, Nat.zero_add]

/-- The line printed by the loop body for a file tells its outcome: `Copied file`
after a successful copy, `Failed to copy file` after a failed copy, and
`Failed to remove file` after a failed removal, in which case no copy is attempted. -/
theorem copyFileEntry_line (env : Env) (source destination : Path) (f content : String)
    (d : Dest) :
    ∃ line, (copyFileEntry env source destination f content d).output = [line] ∧
      ((line = "Copied file " ++ f ∧
          Effect.copyFile (source ++ [f]) (destination ++ [f]) true
            ∈ (copyFileEntry env source destination f content d).trace) ∨
       (line = "Failed to copy file " ++ pathString (source ++ [f]) ∧
          Effect.copyFile (source ++ [f]) (destination ++ [f]) false
            ∈ (copyFileEntry env source destination f content d).trace) ∨
       (line = "Failed to remove file " ++ pathString (source ++ [f]) ∧
          (copyFileEntry env source destination f content d).trace
            = [Effect.removeFile (destination ++ [f]) false])) := by
  have hone : ∀ d2 : Dest, ∃ line,
      (copyOneFile env source destination f content d2).output = [line] ∧
      ((line = "Copied file " ++ f ∧
          (copyOneFile env source destination f content d2).trace
            = [Effect.copyFile (source ++ [f]) (destination ++ [f]) true]) ∨
       (line = "Failed to copy file " ++ pathString (source ++ [f]) ∧
          (copyOneFile env source destination f content d2).trace
            = [Effect.copyFile (source ++ [f]) (destination ++ [f]) false])) := by
    intro d2
    cases d2 with
    | absent => exact ⟨_, rfl, Or.inr ⟨rfl, rfl⟩⟩
    | blocked => exact ⟨_, rfl, Or.inr ⟨rfl, rfl⟩⟩
    | present ds =>
      simp only [copyOneFile]
      cases hc : ((findEntry f ds).isNone &&
          env.copyOk (source ++ [f]) (destination ++ [f])) with
      | true => exact ⟨_, rfl, Or.inl ⟨by simp, rfl⟩⟩
      | false => exact ⟨_, rfl, Or.inr ⟨by simp, rfl⟩⟩
  have hlift : ∀ d2 : Dest, ∃ line,
      (copyOneFile env source destination f content d2).output = [line] ∧
      ((line = "Copied file " ++ f ∧
          Effect.copyFile (source ++ [f]) (destination ++ [f]) true
            ∈ (copyOneFile env source destination f content d2).trace) ∨
       (line = "Failed to copy file " ++ pathString (source ++ [f]) ∧
          Effect.copyFile (source ++ [f]) (destination ++ [f]) false
            ∈ (copyOneFile env source destination f content d2).trace)) := by
    intro d2
    obtain ⟨line, hout, hcase⟩ := hone d2
    refine ⟨line, hout, ?_⟩
    rcases hcase with ⟨hl, ht⟩ | ⟨hl, ht⟩
    · exact Or.inl ⟨hl, by rw [ht]; simp⟩
    · exact Or.inr ⟨hl, by rw [ht]; simp⟩
  have hwrap : ∀ d2 : Dest, ∃ line,
      (copyOneFile env source destination f content d2).output = [line] ∧
      ((line = "Copied file " ++ f ∧
          Effect.copyFile (source ++ [f]) (destination ++ [f]) true
            ∈ (copyOneFile env source destination f content d2).trace) ∨
       (line = "Failed to copy file " ++ pathString (source ++ [f]) ∧
          Effect.copyFile (source ++ [f]) (destination ++ [f]) false
            ∈ (copyOneFile env source destination f content d2).trace) ∨
       (line = "Failed to remove file " ++ pathString (source ++ [f]) ∧
          (copyOneFile env source destination f content d2).trace
            = [Effect.removeFile (destination ++ [f]) false])) := by
    intro d2
    obtain ⟨line, hout, hcase⟩ := hlift d2
    refine ⟨line, hout, ?_⟩
    rcases hcase with h | h
    · exact Or.inl h
    · exact Or.inr (Or.inl h)
  cases d with
  | absent => exact hwrap _
  | blocked => exact hwrap _
  | present ds =>
    simp only [copyFileEntry]
    cases hf : findEntry f ds with
    | none => exact hwrap _
    | some x =>
      cases x with
      | dir n hh sub => exact ⟨_, rfl, Or.inr (Or.inr ⟨rfl, rfl⟩)⟩
      | file n hh c =>
        simp only []
        cases env.removeOk (destination ++ [f]) with
        | false => exact ⟨_, rfl, Or.inr (Or.inr ⟨rfl, rfl⟩)⟩
        | true =>
          simp only [if_true]
          obtain ⟨line, hout, hcase⟩ := hlift (Dest.present (updateEntry f (fun _ => none) ds))
          refine ⟨line, hout, ?_⟩
          rcases hcase with ⟨hl, ht⟩ | ⟨hl, ht⟩
          · exact Or.inl ⟨hl, List.mem_cons_of_mem _ ht⟩
          · exact Or.inr (Or.inl ⟨hl, List.mem_cons_of_mem _ ht⟩)

/-- C12: `copyDirectory` returns `true` exactly when the source is an existing
directory, whatever the outcomes of the directory creations, removals and copies are.
The loop body for a file prints exactly one line, which tells the outcome of the
attempt: copied, failed to copy, or failed to remove.  For an existing source directory
and a destination that do not lie inside one another, the number of lines printed is
the number of files listed in the source tree, one line for each of them, whatever the
outcomes are and whatever is at the destination: a failure stops nothing. -/
theorem copyDirectory_best_effort (env env2 : Env) (fs : List Node)
    (source destination : Path) :
    (copyDirectory env fs source destination).result = dirExists fs source ∧
      (apart destination source = true →
        ∀ (a : String) (h : Bool) (es : List Node),
        nodeAt fs source = some (Node.dir a h es) →
        (copyDirectory env fs source destination).result = true ∧
        (copyDirectory env fs source destination).output.length
          = copyAttemptsBelow es + listedFiles es ∧
        (copyDirectory env2 fs source destination).output.length
          = (copyDirectory env fs source destination).output.length) ∧
      (∀ (f content : String) (d : Dest), ∃ line,
        (copyFileEntry env source destination f content d).output = [line] ∧
        ((line = "Copied file " ++ f ∧
            Effect.copyFile (source ++ [f]) (destination ++ [f]) true
              ∈ (copyFileEntry env source destination f content d).trace) ∨
         (line = "Failed to copy file " ++ pathString (source ++ [f]) ∧
            Effect.copyFile (source ++ [f]) (destination ++ [f]) false
              ∈ (copyFileEntry env source destination f content d).trace) ∨
         (line = "Failed to remove file " ++ pathString (source ++ [f]) ∧
            (copyFileEntry env source destination f content d).trace
              = [Effect.removeFile (destination ++ [f]) false]))) := by
  have hlen : ∀ (e : Env) (es : List Node) (d : Dest),
      (copyDirectoryAt e source destination es d).output.length
        = copyAttemptsBelow es + listedFiles es := by
    intro e es d
    simp only [copyDirectoryAt, List.length_append, (copy_output_length e).2,
      copyFiles_output_length]
  refine ⟨?_, ?_, fun f content d => copyFileEntry_line env source destination f content d⟩
  · simp only [copyDirectory, dirExists]
    split <;> rename_i hnode
    · simp only [hnode]
    · cases hn : nodeAt fs source with
      | none => rfl
      | some x =>
        cases x with
        | file a b c => rfl
        | dir a b es => exact absurd hn (hnode a b es)
  · intro _ a h es hsource
    simp only [copyDirectory, hsource, hlen, true_and]

/-- The unpacked update with hidden entries, copied on a system that lets nothing be
copied. -/
theorem copyDirectory_best_effort_witness :
    apart ["B"] ["A"] = true ∧
      nodeAt hiddenFS ["A"] = some (Node.dir "A" false
        [Node.file "app" false "version 2.0",
         Node.file ".config" true "settings",
         Node.dir ".plugins" true [Node.file "reader" false "plugin"]]) ∧
      (copyDirectory { sampleEnv with copyOk := fun _ _ => false } hiddenFS ["A"] ["B"]).result
        = true ∧
      (copyDirectory sampleEnv hiddenFS ["A"] ["B"]).output.length
        = (copyDirectory { sampleEnv with copyOk := fun _ _ => false }
            hiddenFS ["A"] ["B"]).output.length :=
  ⟨rfl, rfl,
   ((copyDirectory_best_effort { sampleEnv with copyOk := fun _ _ => false } sampleEnv
      hiddenFS ["A"] ["B"]).2.1 rfl _ _ _ rfl).1,
   ((copyDirectory_best_effort { sampleEnv with copyOk := fun _ _ => false } sampleEnv
      hiddenFS ["A"] ["B"]).2.1 rfl _ _ _ rfl).2.2⟩

/-! ## Copying: what a step leaves alone -/

theorem Dest.lookup_cons (d : Dest) (m : String) (rest : Path) :
    d.lookup (m :: rest) = (d.find m).bind (fun c => descend c rest) := by
  cases d with
  | absent => rfl
  | blocked => rfl
  | present ds =>
    simp only [Dest.lookup, Dest.find, descend]
    cases findEntry m ds <;> rfl

theorem findEntry_updateEntry_other (m n : String) (f : Node → Option Node)
    (hne : m ≠ n) (hname : ∀ e e2, f e = some e2 → e2.name = e.name) (ds : List Node) :
    findEntry m (updateEntry n f ds) = findEntry m ds := by
  induction ds with
  | nil => rfl
  | cons e es ih =>
    simp only [updateEntry]
    by_cases he : e.name = n
    · have hem : e.name ≠ m := fun h => hne (h.symm.trans he)
      simp only [he, if_true]
      cases hf : f e with
      | none => simp [findEntry, hem]
      | some e2 =>
        have h2 : e2.name ≠ m := by rw [hname e e2 hf]; exact hem
        simp [findEntry, hem, h2]
    · simp only [he, if_false, findEntry, ih]

theorem rewriteEntries_name (g : List Node → List Node) (e e2 : Node)
    (h : rewriteEntries g e = some e2) : e2.name = e.name := by
  cases e with
  | file n hh c => simp only [rewriteEntries, Option.some.injEq] at h; rw [← h]
  | dir n hh sub => simp only [rewriteEntries, Option.some.injEq] at h; rw [← h]; rfl

theorem Dest.setChild_find_other (d c : Dest) (m n : String) (hne : m ≠ n) :
    (d.setChild n c).find m = d.find m := by
  have hnm : n ≠ m := fun h => hne h.symm
  cases c with
  | absent => rfl
  | blocked => rfl
  | present sub =>
    cases d with
    | blocked => rfl
    | absent => simp [Dest.setChild, Dest.find, findEntry, Node.name, hnm]
    | present ds =>
      simp only [Dest.setChild]
      cases hf : findEntry n ds with
      | none =>
        simp only [Dest.find, findEntry_append]
        cases findEntry m ds with
        | none => simp [findEntry, Node.name, hnm]
        | some x => rfl
      | some x =>
        simp only [Dest.find]
        exact findEntry_updateEntry_other m n _ hne (fun e e2 h => rewriteEntries_name _ e e2 h) ds

theorem copyOneFile_find_other (env : Env) (source destination : Path) (f content m : String)
    (hne : m ≠ f) (d : Dest) :
    (copyOneFile env source destination f content d).dest.find m = d.find m := by
  have hfm : f ≠ m := fun h => hne h.symm
  cases d with
  | absent => rfl
  | blocked => rfl
  | present ds =>
    simp only [copyOneFile, Dest.find]
    split
    · rw [findEntry_append]
      cases findEntry m ds with
      | none => simp [findEntry, Node.name, hfm]
      | some x => rfl
    · rfl

theorem copyFileEntry_find_other (env : Env) (source destination : Path) (f content m : String)
    (hne : m ≠ f) (d : Dest) :
    (copyFileEntry env source destination f content d).dest.find m = d.find m := by
  cases d with
  | absent => exact copyOneFile_find_other env source destination f content m hne _
  | blocked => exact copyOneFile_find_other env source destination f content m hne _
  | present ds =>
    simp only [copyFileEntry]
    cases hf : findEntry f ds with
    | none => exact copyOneFile_find_other env source destination f content m hne _
    | some x =>
      cases x with
      | dir n hh sub => rfl
      | file n hh c =>
        simp only []
        cases env.removeOk (destination ++ [f]) with
        | false => rfl
        | true =>
          simp only [if_true]
          rw [copyOneFile_find_other env source destination f content m hne]
          simp only [Dest.find]
          exact findEntry_updateEntry_other m f _ hne (fun e e2 h => by simp at h) ds

theorem copyFiles_find_other (env : Env) (source destination : Path) (m : String)
    (es : List Node) :
    (∀ e ∈ es, e.isDir = false → e.isHidden = false → e.name ≠ m) →
    ∀ d : Dest, (copyFiles env source destination es d).dest.find m = d.find m := by
  induction es with
  | nil => intro _ d; rfl
  | cons e rest ih =>
    intro hes d
    have hrest := ih (fun x hx => hes x (List.mem_cons_of_mem _ hx))
    cases e with
    | dir n hh sub => simp only [copyFiles]; exact hrest d
    | file f hh content =>
      cases hh with
      | true => simp only [copyFiles, if_true]; exact hrest d
      | false =>
        have hne : m ≠ f := fun h => hes _ (List.mem_cons_self _ _) rfl rfl h.symm
        simp only [copyFiles, Bool.false_eq_true, if_false]
        rw [hrest, copyFileEntry_find_other env source destination f content m hne]

theorem copySubdirectories_find_other (env : Env) (source destination : Path) (m : String)
    (es : List Node) :
    (∀ e ∈ es, e.isDir = true → e.isHidden = false → e.name ≠ m) →
    ∀ d : Dest, (copySubdirectories env source destination es d).dest.find m = d.find m := by
  induction es with
  | nil => intro _ d; rfl
  | cons e rest ih =>
    intro hes d
    have hrest := ih (fun x hx => hes x (List.mem_cons_of_mem _ hx))
    simp only [copySubdirectories]
    split
    · rename_i hv
      simp only [Bool.and_eq_true, Bool.not_eq_true', ] at hv
      have hne : m ≠ e.name := fun h => hes e (List.mem_cons_self _ _) hv.1 hv.2 h.symm
      simp only []
      rw [hrest, Dest.setChild_find_other _ _ m e.name hne]
    · exact hrest d

/-! ## Copying: the kind of a destination -/

theorem Dest.setChild_present (ds : List Node) (n : String) (c : Dest) :
    ∃ ds2, (Dest.present ds).setChild n c = Dest.present ds2 := by
  cases c with
  | absent => exact ⟨ds, rfl⟩
  | blocked => exact ⟨ds, rfl⟩
  | present sub =>
    simp only [Dest.setChild]
    cases findEntry n ds with
    | none => exact ⟨_, rfl⟩
    | some x => exact ⟨_, rfl⟩

theorem copyFileEntry_present (env : Env) (source destination : Path) (f content : String)
    (ds : List Node) :
    ∃ ds2, (copyFileEntry env source destination f content (Dest.present ds)).dest
      = Dest.present ds2 := by
  simp only [copyFileEntry]
  cases findEntry f ds with
  | none => exact ⟨_, rfl⟩
  | some x =>
    cases x with
    | dir n hh sub => exact ⟨_, rfl⟩
    | file n hh c =>
      simp only []
      cases env.removeOk (destination ++ [f]) with
      | false => exact ⟨_, rfl⟩
      | true => exact ⟨_, rfl⟩

theorem copyFiles_blocked (env : Env) (source destination : Path) (es : List Node) :
    (copyFiles env source destination es Dest.blocked).dest = Dest.blocked := by
  induction es with
  | nil => rfl
  | cons e rest ih =>
    cases e with
    | dir n hh sub => simp only [copyFiles]; exact ih
    | file f hh content =>
      cases hh with
      | true => simp only [copyFiles, if_true]; exact ih
      | false =>
        simp only [copyFiles, Bool.false_eq_true, if_false]
        exact ih

theorem copyFiles_present (env : Env) (source destination : Path) (es : List Node) :
    ∀ ds : List Node, ∃ ds2,
      (copyFiles env source destination es (Dest.present ds)).dest = Dest.present ds2 := by
  induction es with
  | nil => intro ds; exact ⟨ds, rfl⟩
  | cons e rest ih =>
    intro ds
    cases e with
    | dir n hh sub => simp only [copyFiles]; exact ih ds
    | file f hh content =>
      cases hh with
      | true => simp only [copyFiles, if_true]; exact ih ds
      | false =>
        simp only [copyFiles, Bool.false_eq_true, if_false]
        obtain ⟨ds1, h1⟩ := copyFileEntry_present env source destination f content ds
        rw [h1]
        exact ih ds1

/-- Nothing can be copied to a destination that is blocked by a regular file. -/
theorem copy_blocked (env : Env) :
    (∀ (e : Node) (source destination : Path),
      (copySubdirectory env source destination e Dest.blocked).dest = Dest.blocked) ∧
    (∀ (es : List Node) (source destination : Path),
      (copySubdirectories env source destination es Dest.blocked).dest = Dest.blocked) := by
  apply Node.induction_on
  · intro n h c source destination; rfl
  · intro n h es ih source destination
    simp only [copySubdirectory, ih]
    exact copyFiles_blocked env _ _ es
  · intro source destination; rfl
  · intro e es he hes source destination
    simp only [copySubdirectories]
    split
    · simp only []
      have hm : (mkpathChild env destination e.name Dest.blocked).1 = Dest.blocked := rfl
      rw [hm, he]
      exact hes source destination
    · exact hes source destination

/-- A destination directory stays a directory. -/
theorem copy_present (env : Env) :
    (∀ (e : Node) (source destination : Path) (ds : List Node), ∃ ds2,
      (copySubdirectory env source destination e (Dest.present ds)).dest = Dest.present ds2) ∧
    (∀ (es : List Node) (source destination : Path) (ds : List Node), ∃ ds2,
      (copySubdirectories env source destination es (Dest.present ds)).dest
        = Dest.present ds2) := by
  apply Node.induction_on
  · intro n h c source destination ds; exact ⟨ds, rfl⟩
  · intro n h es ih source destination ds
    simp only [copySubdirectory]
    obtain ⟨ds1, h1⟩ := ih (source ++ [n]) (destination ++ [n]) ds
    rw [h1]
    exact copyFiles_present env _ _ es ds1
  · intro source destination ds; exact ⟨ds, rfl⟩
  · intro e es he hes source destination ds
    simp only [copySubdirectories]
    split
    · simp only []
      obtain ⟨ds1, h1⟩ := Dest.setChild_present ds e.name
        (copySubdirectory env source destination e
          (mkpathChild env destination e.name (Dest.present ds)).1).dest
      rw [h1]
      exact hes source destination ds1
    · exact hes source destination ds

theorem copySubdirectory_dir (env : Env) (source destination : Path) (n : String) (h : Bool)
    (es : List Node) (d : Dest) :
    copySubdirectory env source destination (Node.dir n h es) d
      = copyDirectoryAt env (source ++ [n]) (destination ++ [n]) es d := by
  simp only [copySubdirectory, copyDirectoryAt]

theorem copyDirectoryAt_blocked (env : Env) (source destination : Path) (es : List Node) :
    (copyDirectoryAt env source destination es Dest.blocked).dest = Dest.blocked := by
  simp only [copyDirectoryAt, (copy_blocked env).2 es source destination]
  exact copyFiles_blocked env _ _ es

theorem copyDirectoryAt_present (env : Env) (source destination : Path) (es ds : List Node) :
    ∃ ds2, (copyDirectoryAt env source destination es (Dest.present ds)).dest
      = Dest.present ds2 := by
  simp only [copyDirectoryAt]
  obtain ⟨ds1, h1⟩ := (copy_present env).2 es source destination ds
  rw [h1]
  exact copyFiles_present env _ _ es ds1

/-! ## Copying: the passes over a listing, piece by piece -/

theorem copyFiles_append (env : Env) (source destination : Path) (a b : List Node) :
    ∀ d : Dest,
    (copyFiles env source destination (a ++ b) d).dest
      = (copyFiles env source destination b (copyFiles env source destination a d).dest).dest ∧
    (copyFiles env source destination (a ++ b) d).trace
      = (copyFiles env source destination a d).trace
        ++ (copyFiles env source destination b (copyFiles env source destination a d).dest).trace := by
  induction a with
  | nil => intro d; exact ⟨rfl, rfl⟩
  | cons e rest ih =>
    intro d
    cases e with
    | dir n hh sub => rw [List.cons_append]; simp only [copyFiles]; exact ih d
    | file f hh content =>
      cases hh with
      | true => rw [List.cons_append]; simp only [copyFiles, if_true]; exact ih d
      | false =>
        rw [List.cons_append]
        simp only [copyFiles, Bool.false_eq_true, if_false]
        have h := ih (copyFileEntry env source destination f content d).dest
        exact ⟨h.1, by rw [h.2, List.append_assoc]⟩

theorem copySubdirectories_append (env : Env) (source destination : Path) (a b : List Node) :
    ∀ d : Dest,
    (copySubdirectories env source destination (a ++ b) d).dest
      = (copySubdirectories env source destination b
          (copySubdirectories env source destination a d).dest).dest ∧
    (copySubdirectories env source destination (a ++ b) d).trace
      = (copySubdirectories env source destination a d).trace
        ++ (copySubdirectories env source destination b
          (copySubdirectories env source destination a d).dest).trace := by
  induction a with
  | nil => intro d; exact ⟨rfl, rfl⟩
  | cons e rest ih =>
    intro d
    rw [List.cons_append]
    simp only [copySubdirectories]
    split
    · simp only []
      have h := ih (d.setChild e.name (copySubdirectory env source destination e
        (mkpathChild env destination e.name d).1).dest)
      refine ⟨h.1, ?_⟩
      rw [h.2]
      simp only [List.cons_append, List.append_assoc]
    · exact ih d

theorem distinctNames_split (pre post : List Node) (e : Node)
    (h : distinctNames ((pre ++ e :: post).map Node.name) = true) :
    (∀ x ∈ pre, x.name ≠ e.name) ∧ (∀ x ∈ post, x.name ≠ e.name) := by
  have hp := distinctNames_pairwise _ h
  rw [List.map_append, List.map_cons, List.pairwise_append] at hp
  obtain ⟨_, h2, h3⟩ := hp
  constructor
  · intro x hx
    exact h3 x.name (List.mem_map_of_mem _ hx) e.name (List.mem_cons_self _ _)
  · intro x hx heq
    have := (List.pairwise_cons.mp h2).1 x.name (List.mem_map_of_mem _ hx)
    exact this heq.symm

/-! ## Copying: where an operation comes from -/

theorem copyFileEntry_trace_mem (env : Env) (source destination : Path) (f content : String)
    (d : Dest) (op : Effect)
    (h : op ∈ (copyFileEntry env source destination f content d).trace) :
    ∃ ok, op = Effect.removeFile (destination ++ [f]) ok ∨
      op = Effect.copyFile (source ++ [f]) (destination ++ [f]) ok := by
  cases d with
  | absent =>
    simp only [copyFileEntry, copyOneFile, List.mem_singleton] at h
    exact ⟨false, Or.inr h⟩
  | blocked =>
    simp only [copyFileEntry, copyOneFile, List.mem_singleton] at h
    exact ⟨false, Or.inr h⟩
  | present ds =>
    simp only [copyFileEntry] at h
    cases hf : findEntry f ds with
    | none =>
      rw [hf] at h
      simp only [copyOneFile, List.mem_singleton] at h
      exact ⟨_, Or.inr h⟩
    | some x =>
      rw [hf] at h
      cases x with
      | dir n hh sub =>
        simp only [List.mem_singleton] at h
        exact ⟨false, Or.inl h⟩
      | file n hh c =>
        simp only [] at h
        cases hr : env.removeOk (destination ++ [f]) with
        | false =>
          rw [hr] at h
          simp only [Bool.false_eq_true, if_false, List.mem_singleton] at h
          exact ⟨false, Or.inl h⟩
        | true =>
          rw [hr] at h
          simp only [if_true, copyOneFile, List.mem_cons, List.mem_singleton, List.not_mem_nil,
            or_false] at h
          rcases h with h | h
          · exact ⟨true, Or.inl h⟩
          · exact ⟨_, Or.inr h⟩

theorem copyFiles_trace_mem (env : Env) (source destination : Path) (es : List Node) :
    ∀ (d : Dest) (op : Effect), op ∈ (copyFiles env source destination es d).trace →
    ∃ f content, Node.file f false content ∈ es ∧
      ∃ ok, op = Effect.removeFile (destination ++ [f]) ok ∨
        op = Effect.copyFile (source ++ [f]) (destination ++ [f]) ok := by
  induction es with
  | nil => intro d op h; simp [copyFiles] at h
  | cons e rest ih =>
    intro d op h
    have hrest : ∀ d2, op ∈ (copyFiles env source destination rest d2).trace →
        ∃ f content, Node.file f false content ∈ e :: rest ∧
          ∃ ok, op = Effect.removeFile (destination ++ [f]) ok ∨
            op = Effect.copyFile (source ++ [f]) (destination ++ [f]) ok := by
      intro d2 h2
      obtain ⟨f, content, hm, hop⟩ := ih d2 op h2
      exact ⟨f, content, List.mem_cons_of_mem _ hm, hop⟩
    cases e with
    | dir n hh sub => simp only [copyFiles] at h; exact hrest d h
    | file f hh content =>
      cases hh with
      | true => simp only [copyFiles, if_true] at h; exact hrest d h
      | false =>
        simp only [copyFiles, Bool.false_eq_true, if_false, List.mem_append] at h
        rcases h with h | h
        · exact ⟨f, content, List.mem_cons_self _ _,
            copyFileEntry_trace_mem env source destination f content d op h⟩
        · exact hrest _ h

theorem copySubdirectories_trace_mem (env : Env) (source destination : Path) (es : List Node) :
    ∀ (d : Dest) (op : Effect), op ∈ (copySubdirectories env source destination es d).trace →
    ∃ e ∈ es, e.isDir = true ∧ e.isHidden = false ∧
      ((∃ ok, op = Effect.mkpath (destination ++ [e.name]) ok) ∨
        ∃ d2, op ∈ (copySubdirectory env source destination e d2).trace) := by
  induction es with
  | nil => intro d op h; simp [copySubdirectories] at h
  | cons e rest ih =>
    intro d op h
    have hrest : ∀ d2, op ∈ (copySubdirectories env source destination rest d2).trace →
        ∃ x ∈ e :: rest, x.isDir = true ∧ x.isHidden = false ∧
          ((∃ ok, op = Effect.mkpath (destination ++ [x.name]) ok) ∨
            ∃ d3, op ∈ (copySubdirectory env source destination x d3).trace) := by
      intro d2 h2
      obtain ⟨x, hm, hx⟩ := ih d2 op h2
      exact ⟨x, List.mem_cons_of_mem _ hm, hx⟩
    simp only [copySubdirectories] at h
    split at h
    · rename_i hv
      simp only [Bool.and_eq_true, Bool.not_eq_true'] at hv
      simp only [List.mem_cons, List.mem_append] at h
      rcases h with (h | h) | h
      · exact ⟨e, List.mem_cons_self _ _, hv.1, hv.2, Or.inl ⟨_, h⟩⟩
      · exact ⟨e, List.mem_cons_self _ _, hv.1, hv.2, Or.inr ⟨_, h⟩⟩
      · exact hrest _ h
    · exact hrest d h

/-- Every operation of the copy of a subdirectory is aimed below that subdirectory of
the destination, and a file is copied from the same relative path of the source. -/
theorem copySubdirectory_trace_mem (env : Env) (e : Node) :
    ∀ (source destination : Path) (d : Dest) (op : Effect),
    op ∈ (copySubdirectory env source destination e d).trace →
    ∃ r ok, r ≠ [] ∧
      (op = Effect.mkpath (destination ++ e.name :: r) ok ∨
       op = Effect.removeFile (destination ++ e.name :: r) ok ∨
       op = Effect.copyFile (source ++ e.name :: r) (destination ++ e.name :: r) ok) := by
  induction e using Node.induction_mem with
  | hfile n h c => intro source destination d op hop; simp [copySubdirectory] at hop
  | hdir n h es ih =>
    intro source destination d op hop
    rw [copySubdirectory_dir] at hop
    simp only [copyDirectoryAt, List.mem_append] at hop
    rcases hop with hop | hop
    · obtain ⟨x, hx, _, _, hcase⟩ := copySubdirectories_trace_mem env _ _ es d op hop
      rcases hcase with ⟨ok, hmk⟩ | ⟨d2, hin⟩
      · refine ⟨[x.name], ok, by simp, Or.inl ?_⟩
        rw [hmk]; simp [Node.name]
      · obtain ⟨r, ok, _, hform⟩ := ih x hx _ _ d2 op hin
        refine ⟨x.name :: r, ok, by simp, ?_⟩
        simpa [Node.name, List.append_assoc] using hform
    · obtain ⟨f, content, _, ok, hform⟩ := copyFiles_trace_mem env _ _ es _ op hop
      refine ⟨[f], ok, by simp, Or.inr ?_⟩
      simpa [Node.name, List.append_assoc] using hform

/-! ## Copying: what a step does to the name it works on -/

theorem mkpathChild_of_dir (env : Env) (destination : Path) (m : String) (d : Dest)
    (m2 : String) (h2 : Bool) (sub : List Node)
    (h : d.find m = some (Node.dir m2 h2 sub)) :
    (mkpathChild env destination m d).1 = Dest.present sub := by
  cases d with
  | absent => simp [Dest.find] at h
  | blocked => simp [Dest.find] at h
  | present ds =>
    simp only [Dest.find] at h
    simp [mkpathChild, Dest.child, h]

theorem mkpathChild_of_file (env : Env) (destination : Path) (m : String) (d : Dest)
    (m2 : String) (h2 : Bool) (c : String)
    (h : d.find m = some (Node.file m2 h2 c)) :
    (mkpathChild env destination m d).1 = Dest.blocked := by
  cases d with
  | absent => simp [Dest.find] at h
  | blocked => simp [Dest.find] at h
  | present ds =>
    simp only [Dest.find] at h
    simp [mkpathChild, Dest.child, h]

theorem Dest.setChild_find_dir (d : Dest) (m : String) (m2 : String) (h2 : Bool)
    (sub sub2 : List Node) (h : d.find m = some (Node.dir m2 h2 sub)) :
    (d.setChild m (Dest.present sub2)).find m = some (Node.dir m2 h2 sub2) := by
  cases d with
  | absent => simp [Dest.find] at h
  | blocked => simp [Dest.find] at h
  | present ds =>
    simp only [Dest.find] at h
    simp only [Dest.setChild, h, Dest.find]
    exact findEntry_updateEntry_some m _ ds _ _ h rfl (findEntry_name m ds _ h).1

theorem Dest.setChild_find_made (env : Env) (source destination : Path) (e : Node) (m : String)
    (d : Dest) (sub2 : List Node)
    (h : (copySubdirectory env source destination e (mkpathChild env destination m d).1).dest
      = Dest.present sub2) :
    ∃ m2 h2, (d.setChild m (Dest.present sub2)).find m = some (Node.dir m2 h2 sub2) := by
  cases d with
  | blocked =>
    have hm : (mkpathChild env destination m Dest.blocked).1 = Dest.blocked := rfl
    rw [hm, (copy_blocked env).1] at h
    cases h
  | absent =>
    exact ⟨m, false, by simp [Dest.setChild, Dest.find, findEntry, Node.name]⟩
  | present ds =>
    cases hf : findEntry m ds with
    | none =>
      refine ⟨m, false, ?_⟩
      simp [Dest.setChild, Dest.find, hf, findEntry_append, findEntry, Node.name]
    | some x =>
      cases x with
      | file n hh c =>
        rw [mkpathChild_of_file env destination m (Dest.present ds) n hh c hf,
          (copy_blocked env).1] at h
        cases h
      | dir n hh sub =>
        exact ⟨n, hh, Dest.setChild_find_dir (Dest.present ds) m n hh sub sub2 hf⟩

theorem copyFileEntry_of_dir (env : Env) (source destination : Path) (f content : String)
    (d : Dest) (m2 : String) (h2 : Bool) (sub : List Node)
    (h : d.find f = some (Node.dir m2 h2 sub)) :
    (copyFileEntry env source destination f content d).dest = d := by
  cases d with
  | absent => simp [Dest.find] at h
  | blocked => simp [Dest.find] at h
  | present ds =>
    simp only [Dest.find] at h
    simp only [copyFileEntry, h]

theorem copyFileEntry_copied (env : Env) (source destination : Path) (f content : String)
    (d : Dest) (a b : Path)
    (h : Effect.copyFile a b true ∈ (copyFileEntry env source destination f content d).trace) :
    (copyFileEntry env source destination f content d).dest.find f
      = some (Node.file f false content) := by
  cases d with
  | absent => simp [copyFileEntry, copyOneFile] at h
  | blocked => simp [copyFileEntry, copyOneFile] at h
  | present ds =>
    simp only [copyFileEntry] at h ⊢
    cases hf : findEntry f ds with
    | none =>
      rw [hf] at h
      simp only [copyOneFile, hf, Option.isNone_none, Bool.true_and, List.mem_singleton,
        Effect.copyFile.injEq] at h ⊢
      rw [← h.2.2]
      simp [Dest.find, findEntry_append, hf, findEntry, Node.name]
    | some x =>
      rw [hf] at h
      cases x with
      | dir n hh sub => simp at h
      | file n hh c =>
        simp only [] at h ⊢
        cases hr : env.removeOk (destination ++ [f]) with
        | false => rw [hr] at h; simp at h
        | true =>
          rw [hr] at h
          simp only [if_true, copyOneFile, List.mem_cons, List.mem_singleton, List.not_mem_nil,
            or_false, Effect.copyFile.injEq, false_or, reduceCtorEq] at h ⊢
          rw [← h.2.2]
          have hnone : findEntry f (updateEntry f (fun _ => none) ds) = none := by
            have := h.2.2
            cases hu : findEntry f (updateEntry f (fun _ => none) ds) with
            | none => rfl
            | some y => rw [hu] at this; simp at this
          simp [Dest.find, findEntry_append, hnone, findEntry, Node.name]

theorem copyFileEntry_replaced (env : Env) (source destination : Path) (f content : String)
    (d : Dest) (a b : Path) (m2 : String) (h2 : Bool) (c2 : String)
    (hold : d.find f = some (Node.file m2 h2 c2))
    (h : Effect.copyFile a b true ∈ (copyFileEntry env source destination f content d).trace) :
    (copyFileEntry env source destination f content d).trace
      = [Effect.removeFile (destination ++ [f]) true,
         Effect.copyFile (source ++ [f]) (destination ++ [f]) true] := by
  cases d with
  | absent => simp [Dest.find] at hold
  | blocked => simp [Dest.find] at hold
  | present ds =>
    simp only [Dest.find] at hold
    simp only [copyFileEntry, hold] at h ⊢
    cases hr : env.removeOk (destination ++ [f]) with
    | false => rw [hr] at h; simp at h
    | true =>
      rw [hr] at h
      simp only [if_true, copyOneFile, List.mem_cons, List.mem_singleton, List.not_mem_nil,
        or_false, Effect.copyFile.injEq, false_or, reduceCtorEq] at h ⊢
      rw [← h.2.2]

/-! ## Copying: a file that has been copied -/

theorem descend_file_cons (n : String) (h : Bool) (c : String) (m : String) (rest : Path) :
    descend (Node.file n h c) (m :: rest) = none := rfl

theorem Dest.lookup_present_of_some (d : Dest) (q : Path) (x : Node)
    (h : d.lookup q = some x) : ∃ ds, d = Dest.present ds := by
  cases d with
  | absent => simp [Dest.lookup] at h
  | blocked => simp [Dest.lookup] at h
  | present ds => exact ⟨ds, rfl⟩

theorem Dest.lookup_of_find (d : Dest) (m : String) (rest : Path) (x : Node)
    (h : d.find m = some x) : d.lookup (m :: rest) = descend x rest := by
  rw [Dest.lookup_cons, h]; rfl

theorem Dest.find_of_lookup (d : Dest) (m : String) (rest : Path) (y : Node)
    (h : d.lookup (m :: rest) = some y) : ∃ x, d.find m = some x ∧ descend x rest = some y := by
  rw [Dest.lookup_cons] at h
  cases hf : d.find m with
  | none => rw [hf] at h; simp at h
  | some x => rw [hf] at h; exact ⟨x, rfl, h⟩

/-- The copy of a listing, for a file below it whose copy has succeeded: the file is at
the same relative path of the destination afterwards, with the contents of the source
file, and when a file was there before, its removal comes right before the copy. -/
theorem copyDirectoryAt_copied (env : Env) (es : List Node)
    (hnames : distinctNames (es.map Node.name) = true)
    (ih : ∀ e ∈ es, ∀ (source destination : Path) (d : Dest) (q : Path) (name : String)
        (h : Bool) (c : String),
        descend e q = some (Node.file name h c) →
        Effect.copyFile (source ++ e.name :: q) (destination ++ e.name :: q) true
          ∈ (copySubdirectory env source destination e d).trace →
        (copySubdirectory env source destination e d).dest.lookup q
          = some (Node.file name false c) ∧
        (∀ n2 h2 c2, d.lookup q = some (Node.file n2 h2 c2) →
          ∃ l1 l2, (copySubdirectory env source destination e d).trace
            = l1 ++ Effect.removeFile (destination ++ e.name :: q) true
              :: Effect.copyFile (source ++ e.name :: q) (destination ++ e.name :: q) true
              :: l2))
    (source destination : Path) (d : Dest) (q : Path) (name : String) (h : Bool) (c : String)
    (hq : descend (Node.dir "" false es) q = some (Node.file name h c))
    (hop : Effect.copyFile (source ++ q) (destination ++ q) true
      ∈ (copyDirectoryAt env source destination es d).trace) :
    (copyDirectoryAt env source destination es d).dest.lookup q
      = some (Node.file name false c) ∧
    (∀ n2 h2 c2, d.lookup q = some (Node.file n2 h2 c2) →
      ∃ l1 l2, (copyDirectoryAt env source destination es d).trace
        = l1 ++ Effect.removeFile (destination ++ q) true
          :: Effect.copyFile (source ++ q) (destination ++ q) true :: l2) := by
  cases q with
  | nil => simp [descend] at hq
  | cons m rest =>
    simp only [descend] at hq
    cases hf : findEntry m es with
    | none => rw [hf] at hq; simp at hq
    | some e0 =>
      rw [hf] at hq
      simp only [] at hq
      obtain ⟨hname0, hmem0⟩ := findEntry_name m es e0 hf
      obtain ⟨pre, post, hsplit⟩ := List.append_of_mem hmem0
      subst hsplit
      obtain ⟨hpre, hpost⟩ := distinctNames_split pre post e0 hnames
      rw [hname0] at hpre hpost
      -- no operation of another entry is the copy at hand
      have hnotdirs : ∀ (l : List Node) (d2 : Dest), (∀ x ∈ l, x.name ≠ m) →
          Effect.copyFile (source ++ m :: rest) (destination ++ m :: rest) true
            ∉ (copySubdirectories env source destination l d2).trace := by
        intro l d2 hl hin
        obtain ⟨x, hx, _, _, hcase⟩ := copySubdirectories_trace_mem env _ _ l d2 _ hin
        rcases hcase with ⟨ok, hmk⟩ | ⟨d3, hsub⟩
        · cases hmk
        · obtain ⟨r, ok, _, hform⟩ := copySubdirectory_trace_mem env x _ _ d3 _ hsub
          rcases hform with hform | hform | hform
          · cases hform
          · cases hform
          · simp only [Effect.copyFile.injEq, List.append_cancel_left_eq, List.cons.injEq] at hform
            exact hl x hx hform.1.1.symm
      have hnotfiles : ∀ (l : List Node) (d2 : Dest), (∀ x ∈ l, x.name ≠ m) →
          Effect.copyFile (source ++ m :: rest) (destination ++ m :: rest) true
            ∉ (copyFiles env source destination l d2).trace := by
        intro l d2 hl hin
        obtain ⟨f, content, hx, ok, hform⟩ := copyFiles_trace_mem env _ _ l d2 _ hin
        rcases hform with hform | hform
        · cases hform
        · simp only [Effect.copyFile.injEq, List.append_cancel_left_eq, List.cons.injEq] at hform
          exact hl _ hx hform.1.1.symm
      simp only [copyDirectoryAt] at hop ⊢
      have hdA := copySubdirectories_append env source destination pre (e0 :: post) d
      have hfA := copyFiles_append env source destination pre (e0 :: post)
        (copySubdirectories env source destination (pre ++ e0 :: post) d).dest
      cases e0 with
      | dir n0 h0 sub0 =>
        simp only [Node.name] at hname0
        subst hname0
        have hrestne : rest ≠ [] := by
          intro hr; rw [hr] at hq; simp [descend] at hq
        -- the pass over the files leaves the name alone
        have hframeF : ∀ d2 : Dest,
            (copyFiles env source destination (pre ++ Node.dir n0 h0 sub0 :: post) d2).dest.find n0
              = d2.find n0 := by
          intro d2
          apply copyFiles_find_other
          intro x hx hxd _
          rcases List.mem_append.mp hx with hx | hx
          · exact hpre x hx
          · rcases List.mem_cons.mp hx with hx | hx
            · rw [hx] at hxd; simp at hxd
            · exact hpost x hx
        have hopfiles : Effect.copyFile (source ++ n0 :: rest) (destination ++ n0 :: rest) true
            ∉ (copyFiles env source destination (pre ++ Node.dir n0 h0 sub0 :: post)
              (copySubdirectories env source destination
                (pre ++ Node.dir n0 h0 sub0 :: post) d).dest).trace := by
          intro hin
          obtain ⟨f, content, hm2, ok, hform⟩ := copyFiles_trace_mem env _ _ _ _ _ hin
          rcases hform with hform | hform
          · cases hform
          · simp only [Effect.copyFile.injEq, List.append_cancel_left_eq,
              List.cons.injEq] at hform
            have h3 := distinctNames_unique _ hnames _ (Node.dir n0 h0 sub0) hm2 hmem0
              (by simp only [Node.name]; exact hform.1.1.symm)
            cases h3
        -- the copy at hand is an operation of the recursive call for the entry
        have hvis : h0 = false := by
          cases h0 with
          | false => rfl
          | true =>
            exfalso
            rcases List.mem_append.mp hop with hin | hin
            · rw [hdA.2] at hin
              rcases List.mem_append.mp hin with hin | hin
              · exact hnotdirs pre d hpre hin
              · simp only [copySubdirectories, Node.isDir, Node.isHidden, Bool.not_true,
                  Bool.and_false, Bool.false_eq_true, if_false] at hin
                exact hnotdirs post _ hpost hin
            · exact hopfiles hin
        subst hvis
        have hstepD : ∀ d2 : Dest,
            (copySubdirectories env source destination (Node.dir n0 false sub0 :: post) d2).dest
              = (copySubdirectories env source destination post
                  (d2.setChild n0 (copySubdirectory env source destination (Node.dir n0 false sub0)
                    (mkpathChild env destination n0 d2).1).dest)).dest := by
          intro d2
          simp [copySubdirectories, Node.isDir, Node.isHidden, Node.name]
        have hstepT : ∀ d2 : Dest,
            (copySubdirectories env source destination (Node.dir n0 false sub0 :: post) d2).trace
              = Effect.mkpath (destination ++ [n0]) (mkpathChild env destination n0 d2).2
                :: (copySubdirectory env source destination (Node.dir n0 false sub0)
                    (mkpathChild env destination n0 d2).1).trace
                ++ (copySubdirectories env source destination post
                  (d2.setChild n0 (copySubdirectory env source destination (Node.dir n0 false sub0)
                    (mkpathChild env destination n0 d2).1).dest)).trace := by
          intro d2
          simp [copySubdirectories, Node.isDir, Node.isHidden, Node.name]
        have hin : Effect.copyFile (source ++ n0 :: rest) (destination ++ n0 :: rest) true
            ∈ (copySubdirectory env source destination (Node.dir n0 false sub0)
              (mkpathChild env destination n0
                (copySubdirectories env source destination pre d).dest).1).trace := by
          rcases List.mem_append.mp hop with hin | hin
          · rw [hdA.2, hstepT] at hin
            simp only [List.mem_append, List.mem_cons] at hin
            rcases hin with hin | (hin | hin) | hin
            · exact absurd hin (hnotdirs pre d hpre)
            · cases hin
            · exact hin
            · exact absurd hin (hnotdirs post _ hpost)
          · exact absurd hin hopfiles
        obtain ⟨hlook, hord⟩ := ih _ hmem0 source destination _ rest name h c hq hin
        obtain ⟨sub2, hsub2⟩ := Dest.lookup_present_of_some _ _ _ hlook
        obtain ⟨m2, h2, hfind⟩ := Dest.setChild_find_made env source destination
          (Node.dir n0 false sub0) n0 (copySubdirectories env source destination pre d).dest
          sub2 hsub2
        have hRfind : (copyFiles env source destination (pre ++ Node.dir n0 false sub0 :: post)
            (copySubdirectories env source destination
              (pre ++ Node.dir n0 false sub0 :: post) d).dest).dest.find n0
            = some (Node.dir m2 h2 sub2) := by
          rw [hframeF, hdA.1, hstepD,
            copySubdirectories_find_other env _ _ n0 post (fun x hx _ _ => hpost x hx), hsub2]
          exact hfind
        constructor
        · rw [Dest.lookup_of_find _ n0 rest _ hRfind,
            descend_dir_name m2 "" h2 false sub2 rest hrestne]
          rw [hsub2] at hlook
          exact hlook
        · intro n2 h3 c2 hold
          obtain ⟨x0, hx0, hdesc0⟩ := Dest.find_of_lookup d n0 rest _ hold
          cases x0 with
          | file a b cc0 =>
            cases rest with
            | nil => exact absurd rfl hrestne
            | cons r rs => simp [descend] at hdesc0
          | dir a b s0 =>
            have hDf : (copySubdirectories env source destination pre d).dest.find n0
                = some (Node.dir a b s0) := by
              rw [copySubdirectories_find_other env _ _ n0 pre (fun x hx _ _ => hpre x hx)]
              exact hx0
            have hmade := mkpathChild_of_dir env destination n0 _ a b s0 hDf
            have hl : (mkpathChild env destination n0
                (copySubdirectories env source destination pre d).dest).1.lookup rest
                = some (Node.file n2 h3 c2) := by
              rw [hmade]
              simp only [Dest.lookup]
              rw [descend_dir_name "" a false b s0 rest hrestne]
              exact hdesc0
            obtain ⟨l1, l2, htr⟩ := hord n2 h3 c2 hl
            refine ⟨(copySubdirectories env source destination pre d).trace
              ++ Effect.mkpath (destination ++ [n0])
                (mkpathChild env destination n0
                  (copySubdirectories env source destination pre d).dest).2 :: l1,
              l2 ++ (copySubdirectories env source destination post
                ((copySubdirectories env source destination pre d).dest.setChild n0
                  (copySubdirectory env source destination (Node.dir n0 false sub0)
                    (mkpathChild env destination n0
                      (copySubdirectories env source destination pre d).dest).1).dest)).trace
                ++ (copyFiles env source destination (pre ++ Node.dir n0 false sub0 :: post)
                  (copySubdirectories env source destination
                    (pre ++ Node.dir n0 false sub0 :: post) d).dest).trace, ?_⟩
            rw [hdA.2, hstepT, htr]
            simp [Node.name, List.append_assoc]
      | file f0 hh0 c0 =>
        simp only [Node.name] at hname0
        subst hname0
        cases rest with
        | cons r rs => simp [descend] at hq
        | nil =>
          simp only [descend, Option.some.injEq, Node.file.injEq] at hq
          obtain ⟨hn, hh, hc⟩ := hq
          subst hn
          subst hh
          subst hc
          have hframeD : ∀ d2 : Dest,
              (copySubdirectories env source destination
                (pre ++ Node.file f0 hh0 c0 :: post) d2).dest.find f0 = d2.find f0 := by
            intro d2
            apply copySubdirectories_find_other
            intro x hx hxd _
            rcases List.mem_append.mp hx with hx | hx
            · exact hpre x hx
            · rcases List.mem_cons.mp hx with hx | hx
              · rw [hx] at hxd; simp at hxd
              · exact hpost x hx
          have hopdirs : Effect.copyFile (source ++ [f0]) (destination ++ [f0]) true
              ∉ (copySubdirectories env source destination
                (pre ++ Node.file f0 hh0 c0 :: post) d).trace := by
            intro hin
            obtain ⟨x, hx, _, _, hcase⟩ := copySubdirectories_trace_mem env _ _ _ d _ hin
            rcases hcase with ⟨ok, hmk⟩ | ⟨d3, hsub⟩
            · cases hmk
            · obtain ⟨r, ok, hr, hform⟩ := copySubdirectory_trace_mem env x _ _ d3 _ hsub
              rcases hform with hform | hform | hform
              · cases hform
              · cases hform
              · simp only [Effect.copyFile.injEq, List.append_cancel_left_eq,
                  List.cons.injEq] at hform
                exact hr hform.1.2.symm
          cases hh0 with
          | true =>
            exfalso
            rcases List.mem_append.mp hop with hin | hin
            · exact hopdirs hin
            · rw [hfA.2] at hin
              rcases List.mem_append.mp hin with hin | hin
              · exact hnotfiles pre _ hpre hin
              · simp only [copyFiles, if_true] at hin
                exact hnotfiles post _ hpost hin
          | false =>
            have hstepD : ∀ d2 : Dest,
                (copyFiles env source destination (Node.file f0 false c0 :: post) d2).dest
                  = (copyFiles env source destination post
                      (copyFileEntry env source destination f0 c0 d2).dest).dest := by
              intro d2
              simp [copyFiles]
            have hstepT : ∀ d2 : Dest,
                (copyFiles env source destination (Node.file f0 false c0 :: post) d2).trace
                  = (copyFileEntry env source destination f0 c0 d2).trace
                    ++ (copyFiles env source destination post
                      (copyFileEntry env source destination f0 c0 d2).dest).trace := by
              intro d2
              simp [copyFiles]
            have hin : Effect.copyFile (source ++ [f0]) (destination ++ [f0]) true
                ∈ (copyFileEntry env source destination f0 c0
                  (copyFiles env source destination pre
                    (copySubdirectories env source destination
                      (pre ++ Node.file f0 false c0 :: post) d).dest).dest).trace := by
              rcases List.mem_append.mp hop with hin | hin
              · exact absurd hin hopdirs
              · rw [hfA.2, hstepT] at hin
                simp only [List.mem_append] at hin
                rcases hin with hin | hin | hin
                · exact absurd hin (hnotfiles pre _ hpre)
                · exact hin
                · exact absurd hin (hnotfiles post _ hpost)
            have hcop := copyFileEntry_copied env source destination f0 c0 _ _ _ hin
            have hRfind : (copyFiles env source destination (pre ++ Node.file f0 false c0 :: post)
                (copySubdirectories env source destination
                  (pre ++ Node.file f0 false c0 :: post) d).dest).dest.find f0
                = some (Node.file f0 false c0) := by
              rw [hfA.1, hstepD,
                copyFiles_find_other env _ _ f0 post (fun x hx _ _ => hpost x hx)]
              exact hcop
            constructor
            · rw [Dest.lookup_of_find _ f0 [] _ hRfind]
              rfl
            · intro n2 h3 c2 hold
              obtain ⟨x0, hx0, hdesc0⟩ := Dest.find_of_lookup d f0 [] _ hold
              simp only [descend, Option.some.injEq] at hdesc0
              subst hdesc0
              have hF : (copyFiles env source destination pre
                  (copySubdirectories env source destination
                    (pre ++ Node.file f0 false c0 :: post) d).dest).dest.find f0
                  = some (Node.file n2 h3 c2) := by
                rw [copyFiles_find_other env _ _ f0 pre (fun x hx _ _ => hpre x hx), hframeD]
                exact hx0
              have htr := copyFileEntry_replaced env source destination f0 c0 _ _ _ n2 h3 c2
                hF hin
              refine ⟨(copySubdirectories env source destination
                  (pre ++ Node.file f0 false c0 :: post) d).trace
                ++ (copyFiles env source destination pre
                  (copySubdirectories env source destination
                    (pre ++ Node.file f0 false c0 :: post) d).dest).trace,
                (copyFiles env source destination post
                  (copyFileEntry env source destination f0 c0
                    (copyFiles env source destination pre
                      (copySubdirectories env source destination
                        (pre ++ Node.file f0 false c0 :: post) d).dest).dest).dest).trace, ?_⟩
              rw [hfA.2, hstepT, htr]
              simp [List.append_assoc]

theorem copySubdirectory_copied (env : Env) (e : Node) : e.wellFormed = true →
    ∀ (source destination : Path) (d : Dest) (q : Path) (name : String) (h : Bool) (c : String),
      descend e q = some (Node.file name h c) →
      Effect.copyFile (source ++ e.name :: q) (destination ++ e.name :: q) true
        ∈ (copySubdirectory env source destination e d).trace →
      (copySubdirectory env source destination e d).dest.lookup q
        = some (Node.file name false c) ∧
      (∀ n2 h2 c2, d.lookup q = some (Node.file n2 h2 c2) →
        ∃ l1 l2, (copySubdirectory env source destination e d).trace
          = l1 ++ Effect.removeFile (destination ++ e.name :: q) true
            :: Effect.copyFile (source ++ e.name :: q) (destination ++ e.name :: q) true
            :: l2) := by
  induction e using Node.induction_mem with
  | hfile n hh cc =>
    intro _ source destination d q name h c _ hop
    simp [copySubdirectory] at hop
  | hdir n hh es ih =>
    intro hwf source destination d q name h c hq hop
    simp only [Node.wellFormed, Bool.and_eq_true] at hwf
    have hqne : q ≠ [] := by
      intro h0; rw [h0] at hq; simp [descend] at hq
    rw [descend_dir_name n "" hh false es q hqne] at hq
    have hs : source ++ (Node.dir n hh es).name :: q = (source ++ [n]) ++ q := by
      simp [Node.name]
    have ht : destination ++ (Node.dir n hh es).name :: q = (destination ++ [n]) ++ q := by
      simp [Node.name]
    rw [copySubdirectory_dir, hs, ht] at hop ⊢
    exact copyDirectoryAt_copied env es hwf.1
      (fun e he => ih e he (wellFormedList_mem es hwf.2 e he))
      (source ++ [n]) (destination ++ [n]) d q name h c hq hop

/-! ## The destination inside the filesystem -/

theorem destAt_nil_ne_blocked (p : Path) : destAt [] p ≠ Dest.blocked := by
  cases p with
  | nil => simp [destAt]
  | cons m rest => simp [destAt, findEntry]

/-- After a directory has been planted at a path where no regular file is in the way,
it is at that path. -/
theorem descend_plantDirectory_made (new : List Node) (p : Path) :
    ∀ (a : String) (b : Bool) (fs : List Node), destAt fs p ≠ Dest.blocked →
    ∃ n h, descend (Node.dir a b (plantDirectory p new fs)) p = some (Node.dir n h new) := by
  induction p with
  | nil => intro a b fs _; exact ⟨a, b, rfl⟩
  | cons m rest ih =>
    intro a b fs hd
    simp only [destAt] at hd
    simp only [plantDirectory, descend]
    cases hf : findEntry m fs with
    | none =>
      simp only [findEntry_append, hf, Option.orElse, findEntry, Node.name, if_true]
      exact ih m false [] (destAt_nil_ne_blocked rest)
    | some x =>
      rw [hf] at hd
      cases x with
      | file n hh c => exact absurd rfl hd
      | dir n hh sub =>
        simp only [] at hd ⊢
        rw [findEntry_updateEntry_some m _ fs (Node.dir n hh sub)
          (Node.dir n hh (plantDirectory rest new sub)) hf rfl (findEntry_name m fs _ hf).1]
        exact ih n hh sub hd

theorem destAt_lookup (fs : List Node) (p q : Path) (x : Node) (hq : q ≠ [])
    (h : nodeAt fs (p ++ q) = some x) : (destAt fs p).lookup q = some x := by
  simp only [nodeAt] at h
  cases hd : descend (Node.dir "" false fs) p with
  | none => rw [descend_append_none _ p q hd] at h; simp at h
  | some y =>
    rw [descend_append _ y p q hd] at h
    cases y with
    | file n hh c =>
      cases q with
      | nil => exact absurd rfl hq
      | cons m rest => simp [descend] at h
    | dir n hh ds =>
      rw [destAt_of_descend p "" false fs n hh ds hd]
      simp only [Dest.lookup]
      rw [descend_dir_name "" n false hh ds q hq]
      exact h

theorem nodeAt_putDest (fs : List Node) (p q : Path) (d : Dest) (x : Node) (hq : q ≠ [])
    (hd0 : destAt fs p = Dest.blocked → d = Dest.blocked)
    (h : d.lookup q = some x) : nodeAt (putDest fs p d) (p ++ q) = some x := by
  obtain ⟨ds, hds⟩ := Dest.lookup_present_of_some d q x h
  subst hds
  have hnb : destAt fs p ≠ Dest.blocked := by
    intro hb
    have := hd0 hb
    cases this
  obtain ⟨n, hh, hpl⟩ := descend_plantDirectory_made ds p "" false fs hnb
  simp only [nodeAt, putDest]
  rw [descend_append _ _ p q hpl, descend_dir_name n "" hh false ds q hq]
  exact h

/-! ## Merging: what the destination keeps -/

theorem findEntry_none_name (m : String) (es : List Node) (h : findEntry m es = none) :
    ∀ e ∈ es, e.name ≠ m := by
  intro e he hn
  obtain ⟨y, hy⟩ := findEntry_isSome_of_mem es e he
  rw [hn, h] at hy
  cases hy

/-- The copy of a listing into a directory: an entry of the destination at a relative
path where the source has no file is at that path afterwards, still a file with the
same contents or still a directory. -/
theorem copyDirectoryAt_keeps (env : Env) (es : List Node)
    (hnames : distinctNames (es.map Node.name) = true)
    (ih : ∀ e ∈ es, ∀ (source destination : Path) (ds : List Node) (q : Path) (x : Node),
        descend (Node.dir "" false ds) q = some x →
        (∀ n h c, descend e q ≠ some (Node.file n h c)) →
        ∃ x2, (copySubdirectory env source destination e (Dest.present ds)).dest.lookup q
            = some x2 ∧
          x2.name = x.name ∧ x2.isDir = x.isDir ∧ x2.isHidden = x.isHidden ∧
          x2.contents = x.contents)
    (source destination : Path) (ds : List Node) (q : Path) (x : Node)
    (hx : descend (Node.dir "" false ds) q = some x)
    (hno : ∀ n h c, descend (Node.dir "" false es) q ≠ some (Node.file n h c)) :
    ∃ x2, (copyDirectoryAt env source destination es (Dest.present ds)).dest.lookup q
        = some x2 ∧
      x2.name = x.name ∧ x2.isDir = x.isDir ∧ x2.isHidden = x.isHidden ∧
      x2.contents = x.contents := by
  cases q with
  | nil =>
    obtain ⟨ds2, h2⟩ := copyDirectoryAt_present env source destination es ds
    rw [h2]
    simp only [descend, Option.some.injEq] at hx
    subst hx
    exact ⟨Node.dir "" false ds2, rfl, rfl, rfl, rfl, rfl⟩
  | cons m rest =>
    obtain ⟨c0, hc0, hdesc⟩ := Dest.find_of_lookup (Dest.present ds) m rest x hx
    -- it is enough that the entry with the name is the same afterwards
    have hsame : (copyDirectoryAt env source destination es (Dest.present ds)).dest.find m
        = some c0 →
        ∃ x2, (copyDirectoryAt env source destination es (Dest.present ds)).dest.lookup
            (m :: rest) = some x2 ∧
          x2.name = x.name ∧ x2.isDir = x.isDir ∧ x2.isHidden = x.isHidden ∧
          x2.contents = x.contents := by
      intro hfind
      refine ⟨x, ?_, rfl, rfl, rfl, rfl⟩
      rw [Dest.lookup_of_find _ m rest c0 hfind]
      exact hdesc
    simp only [copyDirectoryAt] at hsame ⊢
    cases hf : findEntry m es with
    | none =>
      have hall := findEntry_none_name m es hf
      apply hsame
      rw [copyFiles_find_other env _ _ m es (fun e he _ _ => hall e he),
        copySubdirectories_find_other env _ _ m es (fun e he _ _ => hall e he)]
      exact hc0
    | some e0 =>
      obtain ⟨hname0, hmem0⟩ := findEntry_name m es e0 hf
      have hno0 : ∀ n h c, descend e0 rest ≠ some (Node.file n h c) := by
        intro n h c hd
        apply hno n h c
        simp only [descend, hf]
        exact hd
      obtain ⟨pre, post, hsplit⟩ := List.append_of_mem hmem0
      subst hsplit
      obtain ⟨hpre, hpost⟩ := distinctNames_split pre post e0 hnames
      rw [hname0] at hpre hpost
      have hdA := copySubdirectories_append env source destination pre (e0 :: post)
        (Dest.present ds)
      have hfA := copyFiles_append env source destination pre (e0 :: post)
        (copySubdirectories env source destination (pre ++ e0 :: post) (Dest.present ds)).dest
      cases e0 with
      | file f0 hh0 c1 =>
        simp only [Node.name] at hname0
        subst hname0
        have hrestne : rest ≠ [] := by
          intro hr
          apply hno0 f0 hh0 c1
          rw [hr]; rfl
        apply hsame
        have hframeD : (copySubdirectories env source destination
            (pre ++ Node.file f0 hh0 c1 :: post) (Dest.present ds)).dest.find f0 = some c0 := by
          rw [copySubdirectories_find_other]
          · exact hc0
          · intro y hy hyd _
            rcases List.mem_append.mp hy with hy | hy
            · exact hpre y hy
            · rcases List.mem_cons.mp hy with hy | hy
              · rw [hy] at hyd; simp at hyd
              · exact hpost y hy
        cases hh0 with
        | true =>
          rw [copyFiles_find_other]
          · exact hframeD
          · intro y hy _ hyh
            rcases List.mem_append.mp hy with hy | hy
            · exact hpre y hy
            · rcases List.mem_cons.mp hy with hy | hy
              · rw [hy] at hyh; simp [Node.isHidden] at hyh
              · exact hpost y hy
        | false =>
          have hstepD : ∀ d2 : Dest,
              (copyFiles env source destination (Node.file f0 false c1 :: post) d2).dest
                = (copyFiles env source destination post
                    (copyFileEntry env source destination f0 c1 d2).dest).dest := by
            intro d2
            simp [copyFiles]
          have hFpre : (copyFiles env source destination pre
              (copySubdirectories env source destination
                (pre ++ Node.file f0 false c1 :: post) (Dest.present ds)).dest).dest.find f0
              = some c0 := by
            rw [copyFiles_find_other env _ _ f0 pre (fun y hy _ _ => hpre y hy)]
            exact hframeD
          cases c0 with
          | file a b c =>
            cases rest with
            | nil => exact absurd rfl hrestne
            | cons r rs => simp [descend] at hdesc
          | dir a b s0 =>
            rw [hfA.1, hstepD,
              copyFiles_find_other env _ _ f0 post (fun y hy _ _ => hpost y hy),
              copyFileEntry_of_dir env source destination f0 c1 _ a b s0 hFpre]
            exact hFpre
      | dir n0 h0 sub0 =>
        simp only [Node.name] at hname0
        subst hname0
        have hframeF : ∀ d2 : Dest,
            (copyFiles env source destination (pre ++ Node.dir n0 h0 sub0 :: post) d2).dest.find n0
              = d2.find n0 := by
          intro d2
          apply copyFiles_find_other
          intro y hy hyd _
          rcases List.mem_append.mp hy with hy | hy
          · exact hpre y hy
          · rcases List.mem_cons.mp hy with hy | hy
            · rw [hy] at hyd; simp at hyd
            · exact hpost y hy
        cases h0 with
        | true =>
          apply hsame
          rw [hframeF, copySubdirectories_find_other]
          · exact hc0
          · intro y hy _ hyh
            rcases List.mem_append.mp hy with hy | hy
            · exact hpre y hy
            · rcases List.mem_cons.mp hy with hy | hy
              · rw [hy] at hyh; simp [Node.isHidden] at hyh
              · exact hpost y hy
        | false =>
          have hstepD : ∀ d2 : Dest,
              (copySubdirectories env source destination (Node.dir n0 false sub0 :: post) d2).dest
                = (copySubdirectories env source destination post
                    (d2.setChild n0 (copySubdirectory env source destination
                      (Node.dir n0 false sub0) (mkpathChild env destination n0 d2).1).dest)).dest := by
            intro d2
            simp [copySubdirectories, Node.isDir, Node.isHidden, Node.name]
          have hDpre : (copySubdirectories env source destination pre (Dest.present ds)).dest.find n0
              = some c0 := by
            rw [copySubdirectories_find_other env _ _ n0 pre (fun y hy _ _ => hpre y hy)]
            exact hc0
          cases c0 with
          | file a b c =>
            apply hsame
            have hmade := mkpathChild_of_file env destination n0 _ a b c hDpre
            rw [hframeF, hdA.1, hstepD,
              copySubdirectories_find_other env _ _ n0 post (fun y hy _ _ => hpost y hy),
              hmade, (copy_blocked env).1]
            exact hDpre
          | dir a b s0 =>
            have hmade := mkpathChild_of_dir env destination n0 _ a b s0 hDpre
            obtain ⟨sub2, hsub2⟩ := (copy_present env).1 (Node.dir n0 false sub0)
              source destination s0
            have hRfind : (copyFiles env source destination
                (pre ++ Node.dir n0 false sub0 :: post)
                (copySubdirectories env source destination
                  (pre ++ Node.dir n0 false sub0 :: post) (Dest.present ds)).dest).dest.find n0
                = some (Node.dir a b sub2) := by
              rw [hframeF, hdA.1, hstepD,
                copySubdirectories_find_other env _ _ n0 post (fun y hy _ _ => hpost y hy),
                hmade, hsub2]
              exact Dest.setChild_find_dir _ n0 a b s0 sub2 hDpre
            rw [Dest.lookup_of_find _ n0 rest _ hRfind]
            cases rest with
            | nil =>
              simp only [descend, Option.some.injEq] at hdesc
              subst hdesc
              exact ⟨Node.dir a b sub2, rfl, rfl, rfl, rfl, rfl⟩
            | cons r rs =>
              have hx0 : descend (Node.dir "" false s0) (r :: rs) = some x := by
                rw [descend_dir_name "" a false b s0 (r :: rs) (by simp)]
                exact hdesc
              obtain ⟨x2, hx2, hrest2⟩ := ih _ hmem0 source destination s0 (r :: rs) x hx0 hno0
              refine ⟨x2, ?_, hrest2⟩
              rw [hsub2] at hx2
              rw [descend_dir_name a "" b false sub2 (r :: rs) (by simp)]
              exact hx2

theorem copySubdirectory_keeps (env : Env) (e : Node) : e.wellFormed = true →
    ∀ (source destination : Path) (ds : List Node) (q : Path) (x : Node),
      descend (Node.dir "" false ds) q = some x →
      (∀ n h c, descend e q ≠ some (Node.file n h c)) →
      ∃ x2, (copySubdirectory env source destination e (Dest.present ds)).dest.lookup q
          = some x2 ∧
        x2.name = x.name ∧ x2.isDir = x.isDir ∧ x2.isHidden = x.isHidden ∧
        x2.contents = x.contents := by
  induction e using Node.induction_mem with
  | hfile n hh cc =>
    intro _ source destination ds q x hx _
    exact ⟨x, hx, rfl, rfl, rfl, rfl⟩
  | hdir n hh es ih =>
    intro hwf source destination ds q x hx hno
    simp only [Node.wellFormed, Bool.and_eq_true] at hwf
    rw [copySubdirectory_dir]
    refine copyDirectoryAt_keeps env es hwf.1
      (fun e he => ih e he (wellFormedList_mem es hwf.2 e he))
      (source ++ [n]) (destination ++ [n]) ds q x hx ?_
    intro a b c hd
    cases q with
    | nil => simp [descend] at hd
    | cons m rest =>
      apply hno a b c
      rw [descend_dir_name n "" hh false es (m :: rest) (by simp)]
      exact hd

/-! ## Merging: the operations of a copy -/

/-- Every operation of the copy of a listing makes a directory below the destination,
or removes or copies a file at the relative path of a file of the source that is not
hidden. -/
theorem copyDirectoryAt_trace (env : Env) (es : List Node)
    (hnames : distinctNames (es.map Node.name) = true)
    (ih : ∀ e ∈ es, ∀ (source destination : Path) (d : Dest) (op : Effect),
        op ∈ (copySubdirectory env source destination e d).trace →
        (∃ r ok, op = Effect.mkpath (destination ++ e.name :: r) ok) ∨
        (∃ r ok n c, (op = Effect.removeFile (destination ++ e.name :: r) ok ∨
            op = Effect.copyFile (source ++ e.name :: r) (destination ++ e.name :: r) ok) ∧
          descend e r = some (Node.file n false c)))
    (source destination : Path) (d : Dest) (op : Effect)
    (hop : op ∈ (copyDirectoryAt env source destination es d).trace) :
    (∃ r ok, op = Effect.mkpath (destination ++ r) ok) ∨
    (∃ r ok n c, (op = Effect.removeFile (destination ++ r) ok ∨
        op = Effect.copyFile (source ++ r) (destination ++ r) ok) ∧
      descend (Node.dir "" false es) r = some (Node.file n false c)) := by
  simp only [copyDirectoryAt, List.mem_append] at hop
  rcases hop with hop | hop
  · obtain ⟨x, hx, _, _, hcase⟩ := copySubdirectories_trace_mem env _ _ es d op hop
    have hfx := findEntry_of_mem es hnames x hx
    rcases hcase with ⟨ok, hmk⟩ | ⟨d2, hin⟩
    · exact Or.inl ⟨[x.name], ok, hmk⟩
    · rcases ih x hx source destination d2 op hin with ⟨r, ok, hmk⟩ | ⟨r, ok, n, c, hform, hd⟩
      · exact Or.inl ⟨x.name :: r, ok, hmk⟩
      · refine Or.inr ⟨x.name :: r, ok, n, c, hform, ?_⟩
        simp only [descend, hfx]
        exact hd
  · obtain ⟨f, content, hm, ok, hform⟩ := copyFiles_trace_mem env _ _ es _ op hop
    have hfx := findEntry_of_mem es hnames _ hm
    refine Or.inr ⟨[f], ok, f, content, hform, ?_⟩
    simp only [Node.name] at hfx
    simp only [descend, hfx]

theorem copySubdirectory_trace (env : Env) (e : Node) : e.wellFormed = true →
    ∀ (source destination : Path) (d : Dest) (op : Effect),
      op ∈ (copySubdirectory env source destination e d).trace →
      (∃ r ok, op = Effect.mkpath (destination ++ e.name :: r) ok) ∨
      (∃ r ok n c, (op = Effect.removeFile (destination ++ e.name :: r) ok ∨
          op = Effect.copyFile (source ++ e.name :: r) (destination ++ e.name :: r) ok) ∧
        descend e r = some (Node.file n false c)) := by
  induction e using Node.induction_mem with
  | hfile n hh cc =>
    intro _ source destination d op hop
    simp [copySubdirectory] at hop
  | hdir n hh es ih =>
    intro hwf source destination d op hop
    simp only [Node.wellFormed, Bool.and_eq_true] at hwf
    rw [copySubdirectory_dir] at hop
    rcases copyDirectoryAt_trace env es hwf.1
      (fun e he => ih e he (wellFormedList_mem es hwf.2 e he))
      (source ++ [n]) (destination ++ [n]) d op hop with
      ⟨r, ok, hmk⟩ | ⟨r, ok, a, c, hform, hd⟩
    · refine Or.inl ⟨r, ok, ?_⟩
      rw [hmk]; simp [Node.name]
    · have hrne : r ≠ [] := by
        intro h0; rw [h0] at hd; simp [descend] at hd
      refine Or.inr ⟨r, ok, a, c, ?_, ?_⟩
      · simpa [Node.name] using hform
      · rw [descend_dir_name n "" hh false es r hrne]
        exact hd

/-! ## Merging: what lies apart from the destination -/

theorem apart_append (p r q : Path) (h : apart p r = true) : apart p (r ++ q) = true := by
  induction p generalizing r with
  | nil => simp [apart] at h
  | cons x p ih =>
    cases r with
    | nil => simp [apart] at h
    | cons y r =>
      simp only [List.cons_append, apart] at h ⊢
      by_cases hxy : x = y
      · simp only [hxy, if_true] at h ⊢
        exact ih r h
      · simp [hxy]

theorem descend_nil_cons (a : String) (b : Bool) (m : String) (rest : Path) :
    descend (Node.dir a b []) (m :: rest) = none := rfl

/-- Planting a directory at a path leaves alone what is at the paths apart from it. -/
theorem descend_plantDirectory_apart (new : List Node) (p : Path) :
    ∀ (r : Path) (a : String) (b : Bool) (fs : List Node), apart p r = true →
    descend (Node.dir a b (plantDirectory p new fs)) r = descend (Node.dir a b fs) r := by
  induction p with
  | nil => intro r a b fs h; simp [apart] at h
  | cons x p ih =>
    intro r a b fs h
    cases r with
    | nil => simp [apart] at h
    | cons y r =>
      simp only [apart] at h
      simp only [plantDirectory, descend]
      cases hf : findEntry x fs with
      | none =>
        simp only [findEntry_append]
        by_cases hxy : x = y
        · subst hxy
          simp only [if_true] at h
          simp only [hf, Option.orElse, findEntry, Node.name, if_true]
          cases r with
          | nil => cases p <;> simp [apart] at h
          | cons z r =>
            rw [ih (z :: r) x false [] h]
            rfl
        · cases hy : findEntry y fs with
          | none => simp [Option.orElse, findEntry, Node.name, hxy]
          | some w => rfl
      | some w =>
        cases w with
        | file n hh c => rfl
        | dir n hh sub =>
          simp only []
          by_cases hxy : x = y
          · subst hxy
            simp only [if_true] at h
            rw [findEntry_updateEntry_some x _ fs (Node.dir n hh sub)
              (Node.dir n hh (plantDirectory p new sub)) hf rfl (findEntry_name x fs _ hf).1, hf]
            exact ih r n hh sub h
          · rw [findEntry_updateEntry_other y x _ (fun h0 => hxy h0.symm)
              (fun e e2 he => by
                simp only [Option.some.injEq] at he
                rw [← he]; rfl) fs]

theorem destAt_of_file (p : Path) : ∀ (a : String) (b : Bool) (fs : List Node)
    (n : String) (h : Bool) (c : String),
    descend (Node.dir a b fs) p = some (Node.file n h c) → destAt fs p = Dest.blocked := by
  induction p with
  | nil => intro a b fs n h c hd; simp [descend] at hd
  | cons m rest ih =>
    intro a b fs n h c hd
    simp only [descend] at hd
    cases hc : findEntry m fs with
    | none => rw [hc] at hd; simp at hd
    | some x =>
      rw [hc] at hd
      cases x with
      | file d hh content => simp only [destAt, hc]
      | dir d hh sub =>
        simp only [destAt, hc]
        exact ih d hh sub n h c hd

/-! ## `copyDirectory` merges and never prunes -/

/-- C17: `copyDirectory` merges and never prunes.  In a well-formed filesystem, for a
source and a destination that do not lie inside one another: every file and directory
of the destination whose relative path names no file of the source is at its path
after the copy, a file with the same contents or a directory as before; what is at the
paths of the source tree is the same as before; and every operation attempted makes a
directory below the destination, or removes or copies a file of the destination at
the relative path of a file of the source. -/
theorem copyDirectory_merges (env : Env) (fs : List Node) (source destination : Path)
    (hwf : wellFormedFS fs = true) (hapart : apart destination source = true) :
    (∀ (q : Path) (x : Node), nodeAt fs (destination ++ q) = some x →
      (∀ n h c, nodeAt fs (source ++ q) ≠ some (Node.file n h c)) →
      ∃ x2, nodeAt (copyDirectory env fs source destination).fs (destination ++ q) = some x2 ∧
        x2.name = x.name ∧ x2.isDir = x.isDir ∧ x2.isHidden = x.isHidden ∧
        x2.contents = x.contents) ∧
    (∀ q : Path, nodeAt (copyDirectory env fs source destination).fs (source ++ q)
      = nodeAt fs (source ++ q)) ∧
    (∀ op ∈ (copyDirectory env fs source destination).trace,
      (∃ r ok, op = Effect.mkpath (destination ++ r) ok) ∨
      (∃ r ok n c, (op = Effect.removeFile (destination ++ r) ok ∨
          op = Effect.copyFile (source ++ r) (destination ++ r) ok) ∧
        nodeAt fs (source ++ r) = some (Node.file n false c))) := by
  have hroot : (Node.dir "" false fs).wellFormed = true := by
    simpa [Node.wellFormed, wellFormedFS] using hwf
  simp only [copyDirectory]
  cases hs : nodeAt fs source with
  | none =>
    refine ⟨fun q x hx _ => ⟨x, hx, rfl, rfl, rfl, rfl⟩, fun q => rfl, ?_⟩
    intro op hop
    simp at hop
  | some y =>
    cases y with
    | file a b c =>
      refine ⟨fun q x hx _ => ⟨x, hx, rfl, rfl, rfl, rfl⟩, fun q => rfl, ?_⟩
      intro op hop
      simp at hop
    | dir a b es =>
      simp only []
      have hwfs := descend_wellFormed _ source _ hroot hs
      simp only [Node.wellFormed, Bool.and_eq_true] at hwfs
      have hbelow : ∀ r : Path, r ≠ [] →
          nodeAt fs (source ++ r) = descend (Node.dir "" false es) r := by
        intro r hr
        simp only [nodeAt]
        rw [descend_append _ _ source r hs, descend_dir_name a "" b false es r hr]
      refine ⟨?_, ?_, ?_⟩
      · intro q x hx hno
        cases q with
        | nil =>
          rw [List.append_nil] at hx ⊢
          cases x with
          | file n hh c =>
            rw [destAt_of_file destination "" false fs n hh c hx,
              copyDirectoryAt_blocked env source destination es]
            exact ⟨_, hx, rfl, rfl, rfl, rfl⟩
          | dir n hh ds =>
            rw [destAt_of_descend destination "" false fs n hh ds hx]
            obtain ⟨ds2, hds2⟩ := copyDirectoryAt_present env source destination es ds
            rw [hds2]
            exact ⟨Node.dir n hh ds2, descend_plantDirectory ds2 destination "" false fs n hh ds hx,
              rfl, rfl, rfl, rfl⟩
        | cons m rest =>
          have hlook := destAt_lookup fs destination (m :: rest) x (by simp) hx
          obtain ⟨ds, hds⟩ := Dest.lookup_present_of_some _ _ _ hlook
          rw [hds] at hlook ⊢
          have hno2 : ∀ n h c,
              descend (Node.dir "" false es) (m :: rest) ≠ some (Node.file n h c) := by
            intro n h c hd
            apply hno n h c
            rw [hbelow (m :: rest) (by simp)]
            exact hd
          obtain ⟨x2, hx2, hrest⟩ := copyDirectoryAt_keeps env es hwfs.1
            (fun e he => copySubdirectory_keeps env e (wellFormedList_mem es hwfs.2 e he))
            source destination ds (m :: rest) x hlook hno2
          refine ⟨x2, nodeAt_putDest fs destination (m :: rest) _ x2 (by simp) ?_ hx2, hrest⟩
          intro hb
          rw [hds] at hb
          cases hb
      · intro q
        cases hc : (copyDirectoryAt env source destination es (destAt fs destination)).dest with
        | absent => rfl
        | blocked => rfl
        | present ds2 =>
          simp only [putDest, nodeAt]
          exact descend_plantDirectory_apart ds2 destination (source ++ q) "" false fs
            (apart_append destination source q hapart)
      · intro op hop
        rcases copyDirectoryAt_trace env es hwfs.1
          (fun e he => copySubdirectory_trace env e (wellFormedList_mem es hwfs.2 e he))
          source destination _ op hop with ⟨r, ok, hmk⟩ | ⟨r, ok, n, c, hform, hd⟩
        · exact Or.inl ⟨r, ok, hmk⟩
        · have hrne : r ≠ [] := by
            intro h0; rw [h0] at hd; simp [descend] at hd
          exact Or.inr ⟨r, ok, n, c, hform, by rw [hbelow r hrne]; exact hd⟩

theorem copyDirectory_merges_witness :
    wellFormedFS mergeFS = true ∧ apart ["inst"] ["new"] = true ∧
    ((∀ (q : Path) (x : Node), nodeAt mergeFS (["inst"] ++ q) = some x →
      (∀ n h c, nodeAt mergeFS (["new"] ++ q) ≠ some (Node.file n h c)) →
      ∃ x2, nodeAt (copyDirectory sampleEnv mergeFS ["new"] ["inst"]).fs (["inst"] ++ q)
          = some x2 ∧
        x2.name = x.name ∧ x2.isDir = x.isDir ∧ x2.isHidden = x.isHidden ∧
        x2.contents = x.contents) ∧
    (∀ q : Path, nodeAt (copyDirectory sampleEnv mergeFS ["new"] ["inst"]).fs (["new"] ++ q)
      = nodeAt mergeFS (["new"] ++ q)) ∧
    (∀ op ∈ (copyDirectory sampleEnv mergeFS ["new"] ["inst"]).trace,
      (∃ r ok, op = Effect.mkpath (["inst"] ++ r) ok) ∨
      (∃ r ok n c, (op = Effect.removeFile (["inst"] ++ r) ok ∨
          op = Effect.copyFile (["new"] ++ r) (["inst"] ++ r) ok) ∧
        nodeAt mergeFS (["new"] ++ r) = some (Node.file n false c)))) :=
  ⟨rfl, rfl, copyDirectory_merges sampleEnv mergeFS ["new"] ["inst"] rfl rfl⟩

/-! ## Copying: names of a destination directory stay distinct -/

theorem distinctNames_iff_nodup (l : List String) : distinctNames l = true ↔ l.Nodup := by
  induction l with
  | nil => simp [distinctNames]
  | cons x xs ih =>
    simp only [distinctNames, Bool.and_eq_true, Bool.not_eq_true', List.nodup_cons, ih]
    constructor
    · rintro ⟨h1, h2⟩
      refine ⟨?_, h2⟩
      intro hx
      have : xs.contains x = true := by simpa using hx
      rw [this] at h1
      cases h1
    · rintro ⟨h1, h2⟩
      refine ⟨?_, h2⟩
      cases hc : xs.contains x with
      | false => rfl
      | true => exact absurd (by simpa using hc) h1

theorem findEntry_none_not_mem (n : String) (ds : List Node) (h : findEntry n ds = none) :
    n ∉ ds.map Node.name := by
  intro hn
  obtain ⟨e, he, hname⟩ := List.mem_map.mp hn
  exact findEntry_none_name n ds h e he hname

theorem distinctNames_append_new (ds : List Node) (x : Node)
    (hd : distinctNames (ds.map Node.name) = true) (hnone : findEntry x.name ds = none) :
    distinctNames ((ds ++ [x]).map Node.name) = true := by
  rw [distinctNames_iff_nodup] at hd ⊢
  rw [List.map_append, List.map_cons, List.map_nil]
  refine List.Nodup.append hd (List.nodup_singleton _) ?_
  intro a ha hb
  rw [List.mem_singleton] at hb
  rw [hb] at ha
  exact findEntry_none_not_mem x.name ds hnone ha

theorem updateEntry_drop_sublist (f : String) (ds : List Node) :
    ((updateEntry f (fun _ => none) ds).map Node.name).Sublist (ds.map Node.name) := by
  induction ds with
  | nil => simp [updateEntry]
  | cons e es ih =>
    simp only [updateEntry]
    by_cases he : e.name = f
    · simp only [he, if_true, List.map_cons]
      exact List.sublist_cons_self _ _
    · simp only [he, if_false, List.map_cons]
      exact List.Sublist.cons₂ _ ih

theorem distinctNames_drop (f : String) (ds : List Node)
    (hd : distinctNames (ds.map Node.name) = true) :
    distinctNames ((updateEntry f (fun _ => none) ds).map Node.name) = true := by
  rw [distinctNames_iff_nodup] at hd ⊢
  exact List.Nodup.sublist (updateEntry_drop_sublist f ds) hd

theorem updateEntry_rewrite_names (n : String) (g : List Node → List Node) (ds : List Node) :
    (updateEntry n (rewriteEntries g) ds).map Node.name = ds.map Node.name := by
  induction ds with
  | nil => rfl
  | cons e es ih =>
    simp only [updateEntry]
    by_cases he : e.name = n
    · simp only [he, if_true]
      cases e with
      | file a b c => rfl
      | dir a b sub => rfl
    · simp only [he, if_false, List.map_cons, ih]

theorem copyOneFile_distinct (env : Env) (source destination : Path) (f content : String)
    (ds : List Node) (hd : distinctNames (ds.map Node.name) = true) :
    ∃ ds2, (copyOneFile env source destination f content (Dest.present ds)).dest
        = Dest.present ds2 ∧ distinctNames (ds2.map Node.name) = true := by
  simp only [copyOneFile]
  cases hf : findEntry f ds with
  | some x => exact ⟨ds, by simp, hd⟩
  | none =>
    cases hc : env.copyOk (source ++ [f]) (destination ++ [f]) with
    | false => exact ⟨ds, by simp, hd⟩
    | true =>
      exact ⟨ds ++ [Node.file f false content], by simp,
        distinctNames_append_new ds (Node.file f false content) hd hf⟩

theorem copyFileEntry_distinct (env : Env) (source destination : Path) (f content : String)
    (ds : List Node) (hd : distinctNames (ds.map Node.name) = true) :
    ∃ ds2, (copyFileEntry env source destination f content (Dest.present ds)).dest
        = Dest.present ds2 ∧ distinctNames (ds2.map Node.name) = true := by
  simp only [copyFileEntry]
  cases hf : findEntry f ds with
  | none => exact copyOneFile_distinct env source destination f content ds hd
  | some x =>
    cases x with
    | dir n hh sub => exact ⟨ds, rfl, hd⟩
    | file n hh c =>
      simp only []
      cases env.removeOk (destination ++ [f]) with
      | false => exact ⟨ds, rfl, hd⟩
      | true =>
        simp only [if_true]
        exact copyOneFile_distinct env source destination f content _
          (distinctNames_drop f ds hd)

theorem copyFiles_distinct (env : Env) (source destination : Path) (es : List Node) :
    ∀ ds : List Node, distinctNames (ds.map Node.name) = true →
    ∃ ds2, (copyFiles env source destination es (Dest.present ds)).dest = Dest.present ds2 ∧
      distinctNames (ds2.map Node.name) = true := by
  induction es with
  | nil => intro ds hd; exact ⟨ds, rfl, hd⟩
  | cons e rest ih =>
    intro ds hd
    cases e with
    | dir n hh sub => simp only [copyFiles]; exact ih ds hd
    | file f hh content =>
      cases hh with
      | true => simp only [copyFiles, if_true]; exact ih ds hd
      | false =>
        simp only [copyFiles, Bool.false_eq_true, if_false]
        obtain ⟨ds1, h1, hd1⟩ := copyFileEntry_distinct env source destination f content ds hd
        rw [h1]
        exact ih ds1 hd1

theorem Dest.setChild_distinct (ds : List Node) (n : String) (c : Dest)
    (hd : distinctNames (ds.map Node.name) = true) :
    ∃ ds2, (Dest.present ds).setChild n c = Dest.present ds2 ∧
      distinctNames (ds2.map Node.name) = true := by
  cases c with
  | absent => exact ⟨ds, rfl, hd⟩
  | blocked => exact ⟨ds, rfl, hd⟩
  | present sub =>
    simp only [Dest.setChild]
    cases hf : findEntry n ds with
    | none => exact ⟨_, rfl, distinctNames_append_new ds (Node.dir n false sub) hd hf⟩
    | some x => exact ⟨_, rfl, by rw [updateEntry_rewrite_names]; exact hd⟩

theorem copySubdirectories_distinct (env : Env) (source destination : Path) (es : List Node) :
    ∀ ds : List Node, distinctNames (ds.map Node.name) = true →
    ∃ ds2, (copySubdirectories env source destination es (Dest.present ds)).dest
        = Dest.present ds2 ∧ distinctNames (ds2.map Node.name) = true := by
  induction es with
  | nil => intro ds hd; exact ⟨ds, rfl, hd⟩
  | cons e rest ih =>
    intro ds hd
    simp only [copySubdirectories]
    split
    · simp only []
      obtain ⟨ds1, h1, hd1⟩ := Dest.setChild_distinct ds e.name
        (copySubdirectory env source destination e
          (mkpathChild env destination e.name (Dest.present ds)).1).dest hd
      rw [h1]
      exact ih ds1 hd1
    · exact ih ds hd

/-- The body of the second loop for a file that is in the destination already, when
the operating system lets the old file be removed and the new one be copied: the copy
succeeds. -/
theorem copyFileEntry_succeeds (env : Env) (source destination : Path) (f content : String)
    (ds : List Node) (n2 : String) (h2 : Bool) (c2 : String)
    (hd : distinctNames (ds.map Node.name) = true)
    (hold : findEntry f ds = some (Node.file n2 h2 c2))
    (hremove : env.removeOk (destination ++ [f]) = true)
    (hcopy : env.copyOk (source ++ [f]) (destination ++ [f]) = true) :
    Effect.copyFile (source ++ [f]) (destination ++ [f]) true
      ∈ (copyFileEntry env source destination f content (Dest.present ds)).trace := by
  simp [copyFileEntry, hold, hremove, copyOneFile, findEntry_updateEntry_none f ds hd, hcopy]

/-! ## Copying: a listed file is copied when the operating system lets it -/

theorem wellFormed_dir_name (a a2 : String) (b b2 : Bool) (es : List Node) :
    (Node.dir a b es).wellFormed = (Node.dir a2 b2 es).wellFormed := by
  simp only [Node.wellFormed]

theorem listedAlong_dir_name (a a2 : String) (b b2 : Bool) (es : List Node) (q : Path) :
    listedAlong (Node.dir a b es) q = listedAlong (Node.dir a2 b2 es) q := by
  cases q with
  | nil => rfl
  | cons m rest => simp only [listedAlong]

/-- The copy of a listing into a well-formed directory: for a file of the source on a
path without hidden entries, where the destination holds a file, the copy succeeds
when the operating system lets the old file be removed and the new one be copied. -/
theorem copyDirectoryAt_attempts (env : Env) (es : List Node)
    (hnames : distinctNames (es.map Node.name) = true)
    (ih : ∀ e ∈ es, ∀ (source destination : Path) (ds : List Node) (q : Path) (x y : Node),
        (Node.dir "" false ds).wellFormed = true →
        listedAlong e q = true →
        descend e q = some x → x.isDir = false →
        descend (Node.dir "" false ds) q = some y → y.isDir = false →
        env.removeOk (destination ++ e.name :: q) = true →
        env.copyOk (source ++ e.name :: q) (destination ++ e.name :: q) = true →
        Effect.copyFile (source ++ e.name :: q) (destination ++ e.name :: q) true
          ∈ (copySubdirectory env source destination e (Dest.present ds)).trace)
    (source destination : Path) (ds : List Node) (q : Path) (x y : Node)
    (hdwf : (Node.dir "" false ds).wellFormed = true)
    (hlisted : listedAlong (Node.dir "" false es) q = true)
    (hx : descend (Node.dir "" false es) q = some x) (hxf : x.isDir = false)
    (hy : descend (Node.dir "" false ds) q = some y) (hyf : y.isDir = false)
    (hremove : env.removeOk (destination ++ q) = true)
    (hcopy : env.copyOk (source ++ q) (destination ++ q) = true) :
    Effect.copyFile (source ++ q) (destination ++ q) true
      ∈ (copyDirectoryAt env source destination es (Dest.present ds)).trace := by
  cases q with
  | nil =>
    simp only [descend, Option.some.injEq] at hx
    rw [← hx] at hxf
    simp at hxf
  | cons m rest =>
    obtain ⟨c0, hc0, hdesc⟩ := Dest.find_of_lookup (Dest.present ds) m rest y hy
    simp only [Node.wellFormed, Bool.and_eq_true] at hdwf
    simp only [descend] at hx
    simp only [listedAlong] at hlisted
    cases hf : findEntry m es with
    | none => rw [hf] at hx; simp at hx
    | some e0 =>
      rw [hf] at hx hlisted
      simp only [Bool.and_eq_true, Bool.not_eq_true'] at hx hlisted
      obtain ⟨hvis, hlist0⟩ := hlisted
      obtain ⟨hname0, hmem0⟩ := findEntry_name m es e0 hf
      obtain ⟨pre, post, hsplit⟩ := List.append_of_mem hmem0
      subst hsplit
      obtain ⟨hpre, hpost⟩ := distinctNames_split pre post e0 hnames
      rw [hname0] at hpre hpost
      have hdA := copySubdirectories_append env source destination pre (e0 :: post)
        (Dest.present ds)
      have hfA := copyFiles_append env source destination pre (e0 :: post)
        (copySubdirectories env source destination (pre ++ e0 :: post) (Dest.present ds)).dest
      simp only [copyDirectoryAt]
      cases e0 with
      | file f0 hh0 c1 =>
        simp only [Node.name] at hname0
        subst hname0
        simp only [Node.isHidden] at hvis
        subst hvis
        cases rest with
        | cons r rs => simp [descend] at hx
        | nil =>
          simp only [descend, Option.some.injEq] at hdesc
          subst hdesc
          cases c0 with
          | dir a b s0 => simp at hyf
          | file a b c =>
            obtain ⟨ds1, hD1, hdist1⟩ := copySubdirectories_distinct env source destination
              (pre ++ Node.file f0 false c1 :: post) ds hdwf.1
            have hfind1 : (copySubdirectories env source destination
                (pre ++ Node.file f0 false c1 :: post) (Dest.present ds)).dest.find f0
                = some (Node.file a b c) := by
              rw [copySubdirectories_find_other]
              · exact hc0
              · intro z hz hzd _
                rcases List.mem_append.mp hz with hz | hz
                · exact hpre z hz
                · rcases List.mem_cons.mp hz with hz | hz
                  · rw [hz] at hzd; simp at hzd
                  · exact hpost z hz
            rw [hD1] at hfind1 hfA ⊢
            obtain ⟨ds2, hF, hdist2⟩ := copyFiles_distinct env source destination pre ds1 hdist1
            have hfind2 : (copyFiles env source destination pre (Dest.present ds1)).dest.find f0
                = some (Node.file a b c) := by
              rw [copyFiles_find_other env _ _ f0 pre (fun z hz _ _ => hpre z hz)]
              exact hfind1
            rw [hF] at hfind2 hfA
            have hstep := copyFileEntry_succeeds env source destination f0 c1 ds2 a b c hdist2
              hfind2 hremove hcopy
            rw [hfA.2]
            simp only [copyFiles, Bool.false_eq_true, if_false, List.mem_append]
            exact Or.inr (Or.inr (Or.inl hstep))
      | dir n0 h0 sub0 =>
        simp only [Node.name] at hname0
        subst hname0
        simp only [Node.isHidden] at hvis
        subst hvis
        have hrestne : rest ≠ [] := by
          intro hr
          rw [hr] at hx
          simp only [descend, Option.some.injEq] at hx
          rw [← hx] at hxf
          simp at hxf
        cases c0 with
        | file a b c =>
          cases rest with
          | nil => exact absurd rfl hrestne
          | cons r rs => simp [descend] at hdesc
        | dir a b s0 =>
          have hDpre : (copySubdirectories env source destination pre (Dest.present ds)).dest.find n0
              = some (Node.dir a b s0) := by
            rw [copySubdirectories_find_other env _ _ n0 pre (fun z hz _ _ => hpre z hz)]
            exact hc0
          have hmade := mkpathChild_of_dir env destination n0 _ a b s0 hDpre
          have hs0 : (Node.dir "" false s0).wellFormed = true := by
            rw [wellFormed_dir_name "" a false b s0]
            exact wellFormedList_mem ds hdwf.2 _ (findEntry_name n0 ds _ hc0).2
          have hy0 : descend (Node.dir "" false s0) rest = some y := by
            rw [descend_dir_name "" a false b s0 rest hrestne]
            exact hdesc
          have hin := ih _ hmem0 source destination s0 rest x y hs0 hlist0 hx hxf hy0 hyf
            hremove hcopy
          rw [hdA.2]
          simp only [Node.name] at hin
          simp only [copySubdirectories, Node.isDir, Node.isHidden, Node.name, Bool.not_false,
            Bool.and_self, if_true, List.mem_append, List.mem_cons, hmade]
          exact Or.inl (Or.inr (Or.inl (Or.inr hin)))

theorem copySubdirectory_attempts (env : Env) (e : Node) : e.wellFormed = true →
    ∀ (source destination : Path) (ds : List Node) (q : Path) (x y : Node),
      (Node.dir "" false ds).wellFormed = true →
      listedAlong e q = true →
      descend e q = some x → x.isDir = false →
      descend (Node.dir "" false ds) q = some y → y.isDir = false →
      env.removeOk (destination ++ e.name :: q) = true →
      env.copyOk (source ++ e.name :: q) (destination ++ e.name :: q) = true →
      Effect.copyFile (source ++ e.name :: q) (destination ++ e.name :: q) true
        ∈ (copySubdirectory env source destination e (Dest.present ds)).trace := by
  induction e using Node.induction_mem with
  | hfile n hh cc =>
    intro _ source destination ds q x y _ hl hx hxf hy hyf _ _
    cases q with
    | nil =>
      simp only [descend, Option.some.injEq] at hy
      rw [← hy] at hyf
      simp at hyf
    | cons m rest => simp [listedAlong] at hl
  | hdir n hh es ih =>
    intro hwf source destination ds q x y hdwf hl hx hxf hy hyf hremove hcopy
    simp only [Node.wellFormed, Bool.and_eq_true] at hwf
    have hqne : q ≠ [] := by
      intro h0
      rw [h0] at hx
      simp only [descend, Option.some.injEq] at hx
      rw [← hx] at hxf
      simp at hxf
    rw [descend_dir_name n "" hh false es q hqne] at hx
    rw [listedAlong_dir_name n "" hh false es q] at hl
    have hs : source ++ (Node.dir n hh es).name :: q = (source ++ [n]) ++ q := by
      simp [Node.name]
    have ht : destination ++ (Node.dir n hh es).name :: q = (destination ++ [n]) ++ q := by
      simp [Node.name]
    rw [hs, ht] at hcopy ⊢
    rw [ht] at hremove
    rw [copySubdirectory_dir]
    exact copyDirectoryAt_attempts env es hwf.1
      (fun e he => ih e he (wellFormedList_mem es hwf.2 e he))
      (source ++ [n]) (destination ++ [n]) ds q x y hdwf hl hx hxf hy hyf hremove hcopy

theorem descend_of_destAt (p : Path) : ∀ (a : String) (b : Bool) (fs ds : List Node),
    destAt fs p = Dest.present ds →
    ∃ n h, descend (Node.dir a b fs) p = some (Node.dir n h ds) := by
  induction p with
  | nil =>
    intro a b fs ds hd
    simp only [destAt, Dest.present.injEq] at hd
    subst hd
    exact ⟨a, b, rfl⟩
  | cons m rest ih =>
    intro a b fs ds hd
    simp only [destAt] at hd
    simp only [descend]
    cases hf : findEntry m fs with
    | none => rw [hf] at hd; cases hd
    | some x =>
      rw [hf] at hd
      cases x with
      | file n hh c => cases hd
      | dir n hh sub => exact ih n hh sub ds hd

/-! ## Overwriting a file of the destination -/

/-- The overwrite of `copyDirectory`, for a source and a destination that do not lie
inside one another in a well-formed filesystem, and a file of the source tree at the
relative path `q` where the destination holds a file already.  When the copy of the
file has succeeded, the file at `q` below the destination has the contents of the
source file after `copyDirectory`, and the old file has been removed right before the
source file was copied in its place.  The copy does succeed when no entry on the path
`q` of the source is hidden and the operating system lets the old file be removed and
the new one be copied. -/
theorem copyDirectory_overwrites_listed (env : Env) (fs : List Node)
    (source destination q : Path)
    (name : String) (h : Bool) (content : String) (n2 : String) (h2 : Bool) (old : String)
    (hwf : wellFormedFS fs = true)
    (_hapart : apart destination source = true)
    (hsource : dirExists fs source = true)
    (hfile : nodeAt fs (source ++ q) = some (Node.file name h content))
    (hold : nodeAt fs (destination ++ q) = some (Node.file n2 h2 old)) :
    (Effect.copyFile (source ++ q) (destination ++ q) true
        ∈ (copyDirectory env fs source destination).trace →
      nodeAt (copyDirectory env fs source destination).fs (destination ++ q)
        = some (Node.file name false content) ∧
      ∃ l1 l2, (copyDirectory env fs source destination).trace
        = l1 ++ Effect.removeFile (destination ++ q) true
          :: Effect.copyFile (source ++ q) (destination ++ q) true :: l2) ∧
    (listedBelow fs source q = true → env.removeOk (destination ++ q) = true →
      env.copyOk (source ++ q) (destination ++ q) = true →
      Effect.copyFile (source ++ q) (destination ++ q) true
        ∈ (copyDirectory env fs source destination).trace) := by
  have hroot : (Node.dir "" false fs).wellFormed = true := by
    simpa [Node.wellFormed, wellFormedFS] using hwf
  simp only [dirExists] at hsource
  simp only [copyDirectory, listedBelow]
  cases hs : nodeAt fs source with
  | none => rw [hs] at hsource; simp at hsource
  | some y =>
    rw [hs] at hsource
    cases y with
    | file a b c => simp at hsource
    | dir a b es =>
      simp only []
      have hwfs := descend_wellFormed _ source _ hroot hs
      simp only [Node.wellFormed, Bool.and_eq_true] at hwfs
      have hq0 : descend (Node.dir a b es) q = some (Node.file name h content) := by
        rw [← descend_append _ _ source q hs]; exact hfile
      have hqne : q ≠ [] := by
        intro h0; rw [h0] at hq0; simp [descend] at hq0
      rw [descend_dir_name a "" b false es q hqne] at hq0
      have hlook := destAt_lookup fs destination q _ hqne hold
      constructor
      · intro hcopied
        obtain ⟨hafter, hord⟩ := copyDirectoryAt_copied env es hwfs.1
          (fun e he => copySubdirectory_copied env e (wellFormedList_mem es hwfs.2 e he))
          source destination (destAt fs destination) q name h content hq0 hcopied
        refine ⟨nodeAt_putDest fs destination q _ _ hqne ?_ hafter, hord n2 h2 old hlook⟩
        intro hb
        rw [hb]
        exact copyDirectoryAt_blocked env source destination es
      · intro hlisted hremove hcopy
        obtain ⟨ds, hds⟩ := Dest.lookup_present_of_some _ _ _ hlook
        obtain ⟨n, hh, hdn⟩ := descend_of_destAt destination "" false fs ds hds
        have hdwf := descend_wellFormed _ destination _ hroot hdn
        rw [wellFormed_dir_name n "" hh false ds] at hdwf
        rw [listedAlong_dir_name a "" b false es q] at hlisted
        rw [hds] at hlook ⊢
        exact copyDirectoryAt_attempts env es hwfs.1
          (fun e he => copySubdirectory_attempts env e (wellFormedList_mem es hwfs.2 e he))
          source destination ds q _ _ hdwf hlisted hq0 rfl hlook rfl hremove hcopy

/-- The overwrite on the sample installation: `lib/core` of the installation is
replaced by the one of the update. -/
theorem copyDirectory_overwrites_sample :
    nodeAt mergeFS ["inst", "lib", "core"] = some (Node.file "core" false "core 1.0") ∧
    Effect.copyFile ["new", "lib", "core"] ["inst", "lib", "core"] true
      ∈ (copyDirectory sampleEnv mergeFS ["new"] ["inst"]).trace ∧
    nodeAt (copyDirectory sampleEnv mergeFS ["new"] ["inst"]).fs ["inst", "lib", "core"]
      = some (Node.file "core" false "core 2.0") :=
  have t := copyDirectory_overwrites_listed sampleEnv mergeFS ["new"] ["inst"] ["lib", "core"]
    "core" false "core 2.0" "core" false "core 1.0" rfl rfl rfl rfl rfl
  ⟨rfl, t.2 rfl rfl rfl, (t.1 (t.2 rfl rfl rfl)).1⟩

/-- C11, at an input on which it fails: the update in `/new` and the installation in
`/inst` both hold the hidden file `.portable`, with different contents, and every
operation of the operating system works.  `copyDirectory("/new", "/inst")` returns
`true` and every operation it attempted succeeded; the visible file `app` has been
replaced, but no removal and no copy has been attempted for `.portable`, and
`/inst/.portable` has its old contents: `entryList(QDir::Files)` leaves hidden files
out. -/
theorem copyDirectory_keeps_hidden_old :
    wellFormedFS portableFS = true ∧ apart ["inst"] ["new"] = true ∧
      nodeAt portableFS ["new", ".portable"]
        = some (Node.file ".portable" true "settings 2.0") ∧
      nodeAt portableFS ["inst", ".portable"]
        = some (Node.file ".portable" true "settings 1.0") ∧
      (copyDirectory sampleEnv portableFS ["new"] ["inst"]).result = true ∧
      (copyDirectory sampleEnv portableFS ["new"] ["inst"]).trace
        = [Effect.removeFile ["inst", "app"] true,
           Effect.copyFile ["new", "app"] ["inst", "app"] true] ∧
      nodeAt (copyDirectory sampleEnv portableFS ["new"] ["inst"]).fs ["inst", "app"]
        = some (Node.file "app" false "version 2.0") ∧
      nodeAt (copyDirectory sampleEnv portableFS ["new"] ["inst"]).fs ["inst", ".portable"]
        = some (Node.file ".portable" true "settings 1.0") :=
  ⟨rfl, rfl, rfl, rfl, rfl, rfl, rfl, rfl⟩
end FormUpdater
